import Mathlib

/-!
Parallel Game of Life: a verification development.

Shallow embedding of `gol-pthread` (threads over one shared grid) and `gol-mpi`
(processes exchanging rows by messages), followed by theorems about the embedding.

Conventions of the embedding
* `char`, `long long` and `int` values are `Int`; a conversion to `char` is the explicit
  wrap `toChar`.
* `size_t` counters (`iterations_count_`, `desired_iterations_count_`, sizes) are `Nat`.
  An increment by one of a count of generations or elements is modelled without the 2^64
  wrap; the addition of a caller-supplied value (`Run`) and the decrements that can pass
  zero wrap modulo `2 ^ 64`.
* An operation that can throw (`std::vector::at`) or has undefined behaviour (remainder
  by zero, unchecked `std::vector::operator[]` out of range) returns `none`.
* The recursion of `CyclicVector::operator[]` is unrolled with a fuel argument.
-/

set_option autoImplicit false

/-! ## `cyclic_vector.hpp` -/

namespace CyclicVector

/-- Checked access `std::vector::at(k)`: the position `k` when it lies in `[0, size)`,
an exception (`none`) otherwise. -/
def at_ (size : Nat) (k : Int) : Option Nat :=
  if 0 ≤ k ∧ k < (size : Int) then some k.toNat else none

/-- Position resolved by `CyclicVector::operator[](i)` in a vector of `size` elements.
`Int.tmod` is the truncated remainder `%` of C++.  A negative `i` re-enters the operator
with `size + i % size`; a remainder by zero is undefined (`none`); `fuel` bounds the depth
of the re-entry. -/
def index (size : Nat) : Nat → Int → Option Nat
  | 0, _ => none
  | fuel + 1, i =>
    if size = 0 then none
    else if i < 0 then index size fuel ((size : Int) + Int.tmod i (size : Int))
    else at_ size (Int.tmod i (size : Int))

/-- Depth of re-entry granted to `operator[]` wherever the program indexes a vector: the
call itself and the single nested call of the negative branch (`index_eq`). -/
def depth : Nat := 2

/-- Value of `v[i]` read through `CyclicVector::operator[]`. -/
def get {α : Type} (v : List α) (i : Int) : Option α :=
  (index v.length depth i).bind fun k => v[k]?

/-- Effect of updating the element referenced by `v[i]` with `f` (`f` may itself fail). -/
def update {α : Type} (v : List α) (i : Int) (f : α → Option α) : Option (List α) :=
  (index v.length depth i).bind fun k =>
    (v[k]?).bind fun x => (f x).map fun y => v.set k y

end CyclicVector

/-! ## Data model shared by both realizations -/

/-- Conversion of an `int` to `char` (8 bits, signed): the value modulo 256 in
`[-128, 127]`. -/
def toChar (x : Int) : Int := (x + 128) % 256 - 128

/-- The type `CyclicVector<CyclicVector<char>>` of `field_` and `new_field_`. -/
abbrev Grid := List (List Int)

/-- The struct `Rules`: neighbour counts on which a cell is born (`born_`) or stays alive
(`stay_`), each a `std::vector<char>`. -/
structure Rules where
  born_ : List Int
  stay_ : List Int
deriving DecidableEq, Repr

/-- The integers `lo, lo+1, ..., hi-1` visited by `for (long long i = lo; i < hi; ++i)`. -/
def intRange (lo hi : Int) : List Int :=
  (List.range (hi - lo).toNat).map fun (k : Nat) => lo + (k : Int)

/-- The assignment `grid[i][j] = v` through both cyclic index operators. -/
def writeCell (grid : Grid) (i j v : Int) : Option Grid :=
  CyclicVector.update grid i fun row => CyclicVector.update row j fun _ => some v

/-- The two innermost loops of `CalculatePart`: `num_alive` (a `char`) accumulates
`field_[i + x][j + y]` over `x, y` in `-1..1` except `x = y = 0`. -/
def numAlive (field : Grid) (i j : Int) : Option Int :=
  [-1, 0, 1].foldlM (fun acc x =>
    [-1, 0, 1].foldlM (fun acc y =>
      if x ≠ 0 ∨ y ≠ 0 then do
        let row ← CyclicVector.get field (i + x)
        let c ← CyclicVector.get row (j + y)
        pure (toChar (acc + c))
      else pure acc) acc) (0 : Int)

/-- The loop `for (auto r : rule) if (num_alive == r) { new_field_[i][j] = 1; break; }`. -/
def applyRule (num_alive i j : Int) : List Int → Grid → Option Grid
  | [], new_field => some new_field
  | r :: rest, new_field =>
    if num_alive = r then writeCell new_field i j 1
    else applyRule num_alive i j rest new_field

/-- Body of the `j` loop of `CalculatePart` for the cell `(i, j)`. -/
def calculateCell (rules : Rules) (field new_field : Grid) (i j : Int) : Option Grid := do
  let num_alive ← numAlive field i j
  let row ← CyclicVector.get field i
  let c ← CyclicVector.get row j
  if c ≠ 0 then
    let cleared ← writeCell new_field i j 0
    applyRule num_alive i j rules.stay_ cleared
  else
    let cleared ← writeCell new_field i j 0
    applyRule num_alive i j rules.born_ cleared

/-- Body of the `i` loop of `CalculatePart`: `j` runs over `0 .. field_[i].size() - 1`. -/
def calculateRow (rules : Rules) (field new_field : Grid) (i : Int) : Option Grid := do
  let row ← CyclicVector.get field i
  (List.range row.length).foldlM
    (fun (nf : Grid) (j : Nat) => calculateCell rules field nf i (j : Int)) new_field

/-- The `i` loop of `CalculatePart` over the rows `lo .. hi - 1`. -/
def calculateRows (rules : Rules) (field new_field : Grid) (lo hi : Int) : Option Grid :=
  (intRange lo hi).foldlM (fun nf i => calculateRow rules field nf i) new_field

/-- One pass of the border loop shared by `CreateThreads` and `BroadcastField`, for the
loop index `i`: push `H / W`, increment `borders_[i]` when `i - 1 < H % W`, then add
`borders_[i - 1]`.  `borders_` is a `std::vector` indexed without check. -/
def bordersStep (H W : Nat) (borders : List Int) (i : Nat) : Option (List Int) := do
  if W = 0 then none
  let pushed := borders ++ [((H / W : Nat) : Int)]
  let bumped ←
    if i - 1 < H % W then (pushed[i]?).map fun b => pushed.set i (b + 1)
    else some pushed
  let cur ← bumped[i]?
  let prev ← bumped[i - 1]?
  pure (bumped.set i (cur + prev))

/-- Border computation: `borders_.push_back(0)` followed by the loop `i = 1 .. W`. -/
def bordersLoop (H W : Nat) (borders : List Int) : Option (List Int) :=
  (List.range' 1 W).foldlM (bordersStep H W) (borders ++ [0])

/-! ## `multithreading_utils.hpp`, `multithreading_utils.cpp`: `CyclicBarrier` -/

/-- Data members of `CyclicBarrier` (the mutexes and condition variables apart). -/
structure CyclicBarrier where
  num_threads_ : Nat
  capacity_ : Nat
  barrier_state_ : Bool
deriving DecidableEq, Repr

namespace CyclicBarrier

/-- Constructor `CyclicBarrier(num_threads, ...)`. -/
def mk_ (num_threads : Nat) : CyclicBarrier :=
  { num_threads_ := num_threads, capacity_ := num_threads, barrier_state_ := false }

/-- Method `ResizeBarrier(new_capacity)`. -/
def ResizeBarrier (b : CyclicBarrier) (new_capacity : Nat) : Bool × CyclicBarrier :=
  if b.num_threads_ < b.capacity_ then (false, b)
  else (true, { b with num_threads_ := new_capacity, capacity_ := new_capacity })

/-- The statement `--num_threads_` of `PassThrough()`; the `size_t` counter wraps at
zero. -/
def PassThrough_arrive (b : CyclicBarrier) : CyclicBarrier :=
  { b with num_threads_ := if b.num_threads_ = 0 then 2 ^ 64 - 1 else b.num_threads_ - 1 }

/-- The condition of the waiting loop of `PassThrough()`, for a call that recorded
`current_barrier_state`. -/
def PassThrough_blocked (b : CyclicBarrier) (current_barrier_state : Bool) : Bool :=
  current_barrier_state == b.barrier_state_ && b.num_threads_ != 0

/-- The first two statements under `if (current_barrier_state == barrier_state_)`: the
flag is flipped and the counter is set back to the capacity. -/
def PassThrough_flip (b : CyclicBarrier) : CyclicBarrier :=
  { b with barrier_state_ := !b.barrier_state_, num_threads_ := b.capacity_ }

end CyclicBarrier

/-- A barrier, the flag `permission_` it shares with the coordinator, the calls of
`PassThrough` in progress and the history of the barrier.
* `waiters`: the calls blocked on `all_threads_entered_`, each with its thread, its
  `current_barrier_state` and the round in which it arrived;
* `last`: the call that found the counter at zero and holds `mutex_` during the handshake
  with the coordinator, with its thread and round;
* `inRound`: the calls arrived since the last flip; `completed`: for every flip so far,
  the number of calls that had arrived in that round; `grants`: how often the coordinator
  has set `permission_`; `grantsAtClear`: the value of `grants` when a call last cleared
  `permission_`; `released`: the handshakes completed; `returned`: the calls that have
  returned, each with its thread and round. -/
structure BarrierSystem where
  barrier : CyclicBarrier
  permission_ : Bool
  waiters : List (Nat × Bool × Nat)
  last : Option (Nat × Nat)
  inRound : Nat
  completed : List Nat
  grants : Nat
  grantsAtClear : Nat
  released : Nat
  returned : List (Nat × Nat)
deriving DecidableEq, Repr

/-- The atomic steps around a barrier: a call of `PassThrough` enters, a blocked call
tests its loop condition again, the coordinator executes `permission_ = true`
(`MasterSynchronize`), the call in the handshake tests `permission_` again. -/
inductive BarrierEvent where
  | arrive (t : Nat)
  | wake (t : Nat)
  | grant
  | handshake (t : Nat)
deriving DecidableEq, Repr

namespace BarrierSystem

/-- A barrier of capacity `C` right after its construction; `p` is the value of the
coordinator's flag. -/
def init (C : Nat) (p : Bool) : BarrierSystem :=
  { barrier := CyclicBarrier.mk_ C, permission_ := p, waiters := [], last := none,
    inRound := 0, completed := [], grants := 0, grantsAtClear := 0, released := 0,
    returned := [] }

/-- The number of flips of `barrier_state_` so far, which numbers the current round. -/
def flips (σ : BarrierSystem) : Nat := σ.completed.length

/-- `PassThrough()` of thread `t` from the test of its loop condition on: the call
blocks; or it leaves the loop with the flag unchanged, flips it, resets the counter,
clears `permission_` and starts to wait for the coordinator; or it leaves the loop with
the flag changed and returns. -/
def resume (σ : BarrierSystem) (t : Nat) (current_barrier_state : Bool) (round : Nat) :
    BarrierSystem :=
  if σ.barrier.PassThrough_blocked current_barrier_state then
    { σ with waiters := σ.waiters ++ [(t, current_barrier_state, round)] }
  else if current_barrier_state = σ.barrier.barrier_state_ then
    { σ with barrier := σ.barrier.PassThrough_flip, permission_ := false,
             grantsAtClear := σ.grants, completed := σ.completed ++ [σ.inRound],
             inRound := 0, last := some (t, round) }
  else { σ with returned := σ.returned ++ [(t, round)] }

/-- One atomic step; `none` when the step cannot happen: `mutex_` is held by the call in
the handshake, the thread is already inside `PassThrough`, or it is not where the step
needs it. -/
def step (σ : BarrierSystem) : BarrierEvent → Option BarrierSystem
  | .arrive t =>
    if σ.last.isSome ∨ σ.waiters.any (fun w => w.1 = t) then none
    else
      let entered := { σ with barrier := σ.barrier.PassThrough_arrive, inRound := σ.inRound + 1 }
      some (entered.resume t entered.barrier.barrier_state_ σ.flips)
  | .wake t =>
    if σ.last.isSome then none
    else
      match σ.waiters.find? (fun w => w.1 = t) with
      | none => none
      | some w => some ({ σ with waiters := σ.waiters.erase w }.resume t w.2.1 w.2.2)
  | .grant => some { σ with permission_ := true, grants := σ.grants + 1 }
  | .handshake t =>
    match σ.last with
    | none => none
    | some (u, round) =>
      if u ≠ t then none
      else if !σ.permission_ then some σ
      else some { σ with last := none, released := σ.released + 1,
                         returned := σ.returned ++ [(t, round)] }

/-- A sequence of atomic steps. -/
def run : BarrierSystem → List BarrierEvent → Option BarrierSystem
  | σ, [] => some σ
  | σ, e :: rest => (σ.step e).bind fun next => run next rest

/-- The invariant of a barrier of capacity `C`. -/
def Inv (C : Nat) (σ : BarrierSystem) : Prop :=
  σ.barrier.capacity_ = C ∧
  σ.inRound + σ.barrier.num_threads_ = C ∧
  (σ.last = none → 1 ≤ σ.barrier.num_threads_ ∧ σ.flips = σ.released) ∧
  (∀ t round, σ.last = some (t, round) →
    σ.inRound = 0 ∧ σ.flips = round + 1 ∧ σ.released = round ∧
    σ.released ≤ σ.grantsAtClear ∧ σ.grantsAtClear ≤ σ.grants ∧
    (σ.permission_ = true → σ.grantsAtClear < σ.grants)) ∧
  σ.barrier.barrier_state_ = decide (σ.flips % 2 = 1) ∧
  (∀ w ∈ σ.waiters, w.2.2 ≤ σ.flips ∧ w.2.1 = decide (w.2.2 % 2 = 1)) ∧
  (∀ x ∈ σ.returned, x.2 < σ.released) ∧
  σ.released ≤ σ.grants ∧
  (∀ n ∈ σ.completed, n = C)

end BarrierSystem

/-! ## `multithreading_utils.hpp`, `multithreading_utils.cpp`: `ReaderWriterLock` -/

/-- The enum `ReaderWriterLock::RWLockState`. -/
inductive RWLockState where
  | Unlocked | Reader | Writer
deriving DecidableEq, Repr

/-- Data members of `ReaderWriterLock`.  An entry of `waiting_threads_` (front first)
pairs the condition variable of a blocked call, identified by the thread that owns it,
with the kind of access that thread waits for. -/
structure ReaderWriterLock where
  lock_state_ : RWLockState
  readers_acquired_lock_count_ : Nat
  waiting_threads_ : List (Nat × RWLockState)
deriving DecidableEq, Repr

namespace ReaderWriterLock

/-- Constructor `ReaderWriterLock()`. -/
def mk_ : ReaderWriterLock :=
  { lock_state_ := .Unlocked, readers_acquired_lock_count_ := 0, waiting_threads_ := [] }

/-- `ReaderLock()` of thread `t` from entry to its return (`true`) or to its first wait
(`false`). -/
def ReaderLock_enter (l : ReaderWriterLock) (t : Nat) : Bool × ReaderWriterLock :=
  if l.waiting_threads_ = [] ∧ (l.lock_state_ = .Unlocked ∨ l.lock_state_ = .Reader) then
    (true, { l with lock_state_ := .Reader,
                    readers_acquired_lock_count_ := l.readers_acquired_lock_count_ + 1 })
  else (false, { l with waiting_threads_ := l.waiting_threads_ ++ [(t, .Reader)] })

/-- `ReaderLock()` of the waiting thread `t` from a wake-up: the loop condition is tested
again; the thread waits on (`false`) or pops the queue and takes the lock (`true`). -/
def ReaderLock_wake (l : ReaderWriterLock) (t : Nat) : Bool × ReaderWriterLock :=
  if (l.lock_state_ ≠ .Unlocked ∧ l.lock_state_ ≠ .Reader) ∨
      l.waiting_threads_.head?.map Prod.fst ≠ some t then (false, l)
  else (true, { l with waiting_threads_ := l.waiting_threads_.tail, lock_state_ := .Reader,
                       readers_acquired_lock_count_ := l.readers_acquired_lock_count_ + 1 })

/-- `ReaderUnlock()`; the decrement of the `size_t` counter wraps at zero. -/
def ReaderUnlock (l : ReaderWriterLock) : ReaderWriterLock :=
  let count := if l.readers_acquired_lock_count_ = 0 then 2 ^ 64 - 1
               else l.readers_acquired_lock_count_ - 1
  if count = 0 then { l with readers_acquired_lock_count_ := count, lock_state_ := .Unlocked }
  else { l with readers_acquired_lock_count_ := count }

/-- `WriterLock()` of thread `t` from entry to its return (`true`) or to its first wait
(`false`). -/
def WriterLock_enter (l : ReaderWriterLock) (t : Nat) : Bool × ReaderWriterLock :=
  if l.waiting_threads_ = [] ∧ l.lock_state_ = .Unlocked then
    (true, { l with lock_state_ := .Writer })
  else (false, { l with waiting_threads_ := l.waiting_threads_ ++ [(t, .Writer)] })

/-- `WriterLock()` of the waiting thread `t` from a wake-up. -/
def WriterLock_wake (l : ReaderWriterLock) (t : Nat) : Bool × ReaderWriterLock :=
  if l.lock_state_ ≠ .Unlocked ∨ l.waiting_threads_.head?.map Prod.fst ≠ some t then (false, l)
  else (true, { l with waiting_threads_ := l.waiting_threads_.tail, lock_state_ := .Writer })

/-- `WriterUnlock()`. -/
def WriterUnlock (l : ReaderWriterLock) : ReaderWriterLock :=
  { l with lock_state_ := .Unlocked }

end ReaderWriterLock

/-- A lock together with the threads that currently hold it: `readers` have returned from
`ReaderLock` and not yet called `ReaderUnlock`, `writers` likewise for the writer side. -/
structure LockSystem where
  lock : ReaderWriterLock
  readers : List Nat
  writers : List Nat
deriving DecidableEq, Repr

/-- The atomic steps of the lock: each is the part of a method that runs under `mutex_`
between two waits. -/
inductive LockEvent where
  | readerLock (t : Nat)
  | readerWake (t : Nat)
  | readerUnlock (t : Nat)
  | writerLock (t : Nat)
  | writerWake (t : Nat)
  | writerUnlock (t : Nat)
deriving DecidableEq, Repr

namespace LockSystem

/-- A new lock that nobody holds. -/
def init : LockSystem := { lock := ReaderWriterLock.mk_, readers := [], writers := [] }

/-- Thread `t` is blocked inside `ReaderLock` or `WriterLock`. -/
def waiting (σ : LockSystem) (t : Nat) : Bool :=
  σ.lock.waiting_threads_.any fun w => w.1 = t

/-- One atomic step; `none` when the step cannot happen: a blocked thread calls nothing,
a wake-up concerns a thread blocked in that method, an unlock is issued by a holder. -/
def step (σ : LockSystem) : LockEvent → Option LockSystem
  | .readerLock t =>
    if σ.waiting t then none
    else
      let r := σ.lock.ReaderLock_enter t
      some { σ with lock := r.2, readers := if r.1 then t :: σ.readers else σ.readers }
  | .readerWake t =>
    if (t, RWLockState.Reader) ∈ σ.lock.waiting_threads_ then
      let r := σ.lock.ReaderLock_wake t
      some { σ with lock := r.2, readers := if r.1 then t :: σ.readers else σ.readers }
    else none
  | .readerUnlock t =>
    if σ.waiting t = false ∧ t ∈ σ.readers then
      some { σ with lock := σ.lock.ReaderUnlock, readers := σ.readers.erase t }
    else none
  | .writerLock t =>
    if σ.waiting t then none
    else
      let r := σ.lock.WriterLock_enter t
      some { σ with lock := r.2, writers := if r.1 then t :: σ.writers else σ.writers }
  | .writerWake t =>
    if (t, RWLockState.Writer) ∈ σ.lock.waiting_threads_ then
      let r := σ.lock.WriterLock_wake t
      some { σ with lock := r.2, writers := if r.1 then t :: σ.writers else σ.writers }
    else none
  | .writerUnlock t =>
    if σ.waiting t = false ∧ t ∈ σ.writers then
      some { σ with lock := σ.lock.WriterUnlock, writers := σ.writers.erase t }
    else none

/-- A sequence of atomic steps. -/
def run : LockSystem → List LockEvent → Option LockSystem
  | σ, [] => some σ
  | σ, e :: rest => (σ.step e).bind fun next => run next rest

/-- The invariant of the lock. -/
def Inv (σ : LockSystem) : Prop :=
  σ.lock.readers_acquired_lock_count_ = σ.readers.length ∧
  (σ.lock.lock_state_ = .Reader ↔ 0 < σ.lock.readers_acquired_lock_count_) ∧
  (σ.lock.lock_state_ = .Writer → σ.lock.readers_acquired_lock_count_ = 0 ∧ σ.writers.length = 1) ∧
  (σ.lock.lock_state_ ≠ .Writer → σ.writers = [])

/-- The thread to which the step `ev`, taken in the state `σ`, grants the lock (the
method returns to its caller), if any. -/
def granted (σ : LockSystem) : LockEvent → Option Nat
  | .readerLock t => if (σ.lock.ReaderLock_enter t).1 then some t else none
  | .readerWake t => if (σ.lock.ReaderLock_wake t).1 then some t else none
  | .writerLock t => if (σ.lock.WriterLock_enter t).1 then some t else none
  | .writerWake t => if (σ.lock.WriterLock_wake t).1 then some t else none
  | .readerUnlock _ => none
  | .writerUnlock _ => none

/-- The threads granted the lock along a sequence of atomic steps, in the order of the
grants. -/
def grantsOf : LockSystem → List LockEvent → Option (List Nat)
  | _, [] => some []
  | σ, e :: rest =>
    (σ.step e).bind fun next =>
      (grantsOf next rest).map fun later =>
        match σ.granted e with
        | some t => t :: later
        | none => later

end LockSystem

/-! ## Constructor: the rule descriptor scan (identical in both realizations) -/

/-- One iteration of the constructor's loop over the characters of `rules`; the state is
the flag `set_born` with the two vectors collected so far. -/
def scanChar (st : Bool × Rules) (c : Char) : Bool × Rules :=
  if c = 'b' ∨ c = 'B' then (true, st.2)
  else if c = 's' ∨ c = 'S' then (false, st.2)
  else if c = '/' then (!st.1, st.2)
  else if '0' ≤ c ∧ c ≤ '9' then
    if st.1 then (st.1, { st.2 with born_ := st.2.born_ ++ [toChar ((c.toNat : Int) - 48)] })
    else (st.1, { st.2 with stay_ := st.2.stay_ ++ [toChar ((c.toNat : Int) - 48)] })
  else st

/-- The rule set `rules_` left by the constructor for the descriptor `rules`: the scan,
then `b3/s23` pushed when both vectors are empty. -/
def parseRules (rules : List Char) : Rules :=
  let scanned := (rules.foldl scanChar (true, { born_ := [], stay_ := [] })).2
  if scanned.born_.isEmpty ∧ scanned.stay_.isEmpty then
    { born_ := scanned.born_ ++ [3], stay_ := (scanned.stay_ ++ [2]) ++ [3] }
  else scanned

/-! ## Field sources of `Start` (identical in both realizations) -/

/-- Field filled by `Start(h_size, v_size)`: cell `(i, j)` receives the draw number
`i * v_size + j` of `bern(rng)`, converted from `bool` to `char`. -/
def randomField (h_size v_size : Nat) (draw : Nat → Bool) : Grid :=
  (List.range h_size).map fun i =>
    (List.range v_size).map fun j => if draw (i * v_size + j) then 1 else 0

/-- The reading loops of `Start(filename)` over the characters still unread in the file,
with the loop counters `i`, `j` and the field built so far.  An exhausted input makes
`fin.get()` set `eof`, which ends both loops; `,` is skipped (`j` still advances); a line
feed ends the inner loop; any other character is pushed to `field_[i]` (cyclic index),
after a new row when `j == 0`. -/
def readField : List Char → Nat → Nat → Grid → Option Grid
  | [], _, _, field => some field
  | c :: rest, i, j, field =>
    if c = ',' then readField rest i (j + 1) field
    else if c = '\n' then readField rest (i + 1) 0 field
    else
      let grown := if j = 0 then field ++ [[]] else field
      match CyclicVector.update grown (i : Int)
          (fun row => some (row ++ [toChar ((c.toNat : Int) - 48)])) with
      | none => none
      | some field1 => readField rest i (j + 1) field1

/-! ## `gol-pthread/game_of_life.cpp` -/

namespace Pthread

/-- Data members of the shared-memory `GameOfLife`.  `threads_` is the number of worker
threads spawned and `master_thread_` tells whether the coordinator thread exists; the
mutexes, condition variables and `status_lock_` carry no data of the game. -/
structure GameOfLife where
  field_ : Grid
  new_field_ : Grid
  permission_ : Bool
  barrier_ : CyclicBarrier
  iterations_count_ : Nat
  desired_iterations_count_ : Nat
  running_ : Bool
  quitting_ : Bool
  num_threads_ : Nat
  borders_ : List Int
  threads_ : Nat
  master_thread_ : Bool
  rules_ : Rules
deriving DecidableEq, Repr

namespace GameOfLife

/-- Constructor `GameOfLife(num_threads, rules)`. -/
def mk_ (num_threads : Nat) (rules : List Char) : GameOfLife :=
  { field_ := [], new_field_ := [], permission_ := false,
    barrier_ := CyclicBarrier.mk_ num_threads,
    iterations_count_ := 0, desired_iterations_count_ := 0,
    running_ := false, quitting_ := false, num_threads_ := num_threads,
    borders_ := [], threads_ := 0, master_thread_ := false,
    rules_ := parseRules rules }

/-- Method `CreateThreads()`.  A failing `assert` aborts (`none`). -/
def CreateThreads (s : GameOfLife) : Option GameOfLife := do
  let num_threads := min s.num_threads_ s.field_.length
  let resized := s.barrier_.ResizeBarrier num_threads
  if resized.1 = false then none
  let borders ← bordersLoop s.field_.length num_threads s.borders_
  pure { s with num_threads_ := num_threads, barrier_ := resized.2, borders_ := borders,
                threads_ := s.threads_ + num_threads, master_thread_ := true }

/-- Method `Start(h_size, v_size)`; `draw` is the sequence produced by `bern(rng)`. -/
def Start (s : GameOfLife) (h_size v_size : Nat) (draw : Nat → Bool) :
    Option (Bool × GameOfLife) :=
  if s.field_ ≠ [] then some (false, s)
  else do
    let field := randomField h_size v_size draw
    let started ← CreateThreads { s with field_ := field, new_field_ := field }
    pure (true, started)

/-- Method `Start(filename)`; `file` is the content of the file, opened with success. -/
def StartFile (s : GameOfLife) (file : List Char) : Option (Bool × GameOfLife) :=
  if s.field_ ≠ [] then some (false, s)
  else do
    let field ← readField file 0 0 s.field_
    let started ← CreateThreads { s with field_ := field, new_field_ := field }
    pure (true, started)

/-- Method `Run(add_iterations)`, the sections under `status_lock_` taken together.  The
target and the argument are `size_t`: `desired_iterations_count_ += add_iterations` wraps
modulo `2 ^ 64`. -/
def Run (s : GameOfLife) (add_iterations : Nat) : Bool × GameOfLife :=
  if s.field_ = [] then (false, s)
  else if s.running_ then (false, s)
  else (true, { s with
    desired_iterations_count_ := (s.desired_iterations_count_ + add_iterations) % 2 ^ 64,
    running_ := true })

/-- Method `Stop()` up to its write under the writer lock; the caller then waits on
`new_task_received_` until the coordinator has cleared `running_`. -/
def Stop (s : GameOfLife) : Bool × GameOfLife :=
  if s.field_ = [] then (false, s)
  else if !s.running_ then (true, s)
  else (true, { s with desired_iterations_count_ := s.iterations_count_ + 1 })

/-- Method `CalculatePart(thread_id)`. -/
def CalculatePart (s : GameOfLife) (thread_id : Nat) : Option GameOfLife := do
  let lo ← s.borders_[thread_id]?
  let hi ← s.borders_[thread_id + 1]?
  let new_field ← calculateRows s.rules_ s.field_ s.new_field_ lo hi
  pure { s with new_field_ := new_field }

/-- The writer section that ends a round of `MasterSynchronize()`: swap the grids, count
the iteration, clear `running_` once the target is reached. -/
def MasterSynchronize_commit (s : GameOfLife) : GameOfLife :=
  let count := s.iterations_count_ + 1
  { s with field_ := s.new_field_, new_field_ := s.field_, iterations_count_ := count,
           running_ := if count ≥ s.desired_iterations_count_ then false else s.running_ }

/-- One generation of the shared-memory model with the worker threads taken in the order
`order`: every thread runs `CalculatePart` (the threads write disjoint rows of
`new_field_` and read `field_` only), all meet at the barrier, and the coordinator
commits. -/
def generationIn (s : GameOfLife) (order : List Nat) : Option GameOfLife :=
  (order.foldlM CalculatePart s).map MasterSynchronize_commit

/-- One generation with the thread ids `0 .. num_threads_ - 1` in increasing order. -/
def generation (s : GameOfLife) : Option GameOfLife :=
  s.generationIn (List.range s.num_threads_)

/-- The test of `Synchronize` under the reader lock, whose result is `calculate`. -/
def calculate (s : GameOfLife) : Bool :=
  s.running_ && decide (s.iterations_count_ < s.desired_iterations_count_)

/-- One round of `MasterSynchronize()` with the worker passes between two releases of the
barrier. The coordinator goes on only while `running_` is set (otherwise it waits on
`new_task_received_` and the workers stay in the barrier); it sets `permission_`, every
worker released reads `calculate`, runs `CalculatePart` if it holds and enters the barrier
again; the coordinator then executes its writer section. -/
def round (s : GameOfLife) : Option GameOfLife :=
  if s.quitting_ || !s.running_ then some s
  else if s.calculate then s.generation
  else some (MasterSynchronize_commit s)

end GameOfLife

end Pthread

/-! ## `gol-mpi/game_of_life.cpp` -/

namespace Mpi

/-- The enum `MpiGolTag`. -/
inductive MpiGolTag where
  | Start | Run | Stop | Update | Quit | FieldSize | Field | Running
deriving DecidableEq, Repr

/-- What one `MPI_Send` carries: a `char`, an `unsigned long`, two `long long`, a row of
`char`, or a `bool`. -/
inductive Payload where
  | byte (x : Int)
  | count (n : Nat)
  | size (rows cols : Int)
  | row (cells : List Int)
  | flag (b : Bool)
deriving DecidableEq, Repr

/-- One `MPI_Send`: destination rank, tag and buffer content. -/
structure Message where
  dest : Nat
  tag : MpiGolTag
  payload : Payload
deriving DecidableEq, Repr

/-- What the blocking receives of a method deliver, by source rank: the answer of worker
`i` to the `Running` query, the iteration count worker `i` reports on `Stop`, the row `j`
worker `i` sends on `Update`, and on a worker the `FieldSize` message and the `k`-th
`Field` message of the coordinator. -/
structure Inbox where
  running : Nat → Bool
  count : Nat → Nat
  updateRow : Nat → Int → List Int
  fieldSize : Int × Int
  fieldRow : Nat → List Int

/-- Data members of the distributed `GameOfLife`, with `world_size_` and `world_rank_` as
set by `SetMpiCommunicator`, and the log `sent` of the `MPI_Send` calls made so far. -/
structure GameOfLife where
  field_ : Grid
  new_field_ : Grid
  iterations_count_ : Nat
  desired_iterations_count_ : Nat
  running_ : Bool
  up_to_date_ : Bool
  borders_ : List Int
  process_ : List Int
  world_size_ : Nat
  world_rank_ : Nat
  rules_ : Rules
  sent : List Message
deriving DecidableEq, Repr

namespace GameOfLife

/-- Constructor `GameOfLife(rules)` followed by `SetMpiCommunicator`. -/
def mk_ (rules : List Char) (world_size world_rank : Nat) : GameOfLife :=
  { field_ := [], new_field_ := [], iterations_count_ := 0, desired_iterations_count_ := 0,
    running_ := false, up_to_date_ := true, borders_ := [], process_ := [],
    world_size_ := world_size, world_rank_ := world_rank, rules_ := parseRules rules,
    sent := [] }

/-- The ranks `1 .. world_size_ - 1` visited by `for (int i = 1; i < world_size_; ++i)`. -/
def ranks (s : GameOfLife) : List Nat := List.range' 1 (s.world_size_ - 1)

/-- The same message sent to every worker rank, in rank order. -/
def sendAll (s : GameOfLife) (tag : MpiGolTag) (payload : Payload) : GameOfLife :=
  { s with sent := s.sent ++ s.ranks.map fun i => { dest := i, tag := tag, payload := payload } }

/-- A row received by `MPI_Recv(grid[j].data(), count, MPI_BYTE, ...)`: a message longer
than `count` is an MPI error, one longer than the row overruns its buffer (both `none`);
otherwise the message overwrites the front of row `j`. -/
def recvRow (grid : Grid) (j : Int) (count : Nat) (msg : List Int) : Option Grid :=
  if msg.length > count then none
  else CyclicVector.update grid j fun row =>
    if msg.length ≤ row.length then some (msg ++ row.drop msg.length) else none

/-- Method `Running()`. -/
def Running (s : GameOfLife) (inbox : Inbox) : Bool × GameOfLife :=
  if !s.running_ then (false, s)
  else if s.world_rank_ = 0 then
    let polled := s.ranks.foldl (fun (acc : GameOfLife) (i : Nat) =>
      { acc with sent := acc.sent ++ [{ dest := i, tag := .Running, payload := .byte 1 }],
                 running_ := acc.running_ || inbox.running i })
      { s with running_ := false }
    (polled.running_, polled)
  else (s.running_, s)

/-- Method `Run(add_iterations)`.  The target and the argument are `size_t`: the message
holds the argument as a `size_t` and `desired_iterations_count_ += add_iterations` wraps
modulo `2 ^ 64`. -/
def Run (s : GameOfLife) (add_iterations : Nat) : Bool × GameOfLife :=
  if s.field_ = [] then (false, s)
  else
    let told := if s.world_rank_ = 0 then
        { s.sendAll .Run (.count (add_iterations % 2 ^ 64)) with up_to_date_ := false }
      else s
    (true, { told with
      desired_iterations_count_ := (told.desired_iterations_count_ + add_iterations) % 2 ^ 64,
      running_ := true })

/-- The loop of `Stop` that receives every worker's iteration count and keeps the
maximum, starting from `0`. -/
def maxCount (s : GameOfLife) (inbox : Inbox) : Nat :=
  s.ranks.foldl (fun (m : Nat) (i : Nat) => max (inbox.count i) m) 0

/-- Method `Stop(final_iterations_count)`. -/
def Stop (s : GameOfLife) (final_iterations_count : Nat) (inbox : Inbox) : Bool × GameOfLife :=
  if s.field_ = [] then (false, s)
  else
    let asked := s.Running inbox
    if !asked.1 then (true, asked.2)
    else
      let halted :=
        if asked.2.world_rank_ = 0 then
          let signalled := asked.2.sendAll .Stop (.byte 1)
          let max_iterations_count := signalled.maxCount inbox + 1
          let informed := signalled.sendAll .Stop (.count max_iterations_count)
          { informed with desired_iterations_count_ := max_iterations_count }
        else { asked.2 with desired_iterations_count_ := final_iterations_count }
      (true, { halted with running_ := false })

/-- The receive loops of `Update` for worker `i`: rows `borders_[i] .. borders_[i+1] - 1`. -/
def collectRows (borders : List Int) (inbox : Inbox) (field : Grid) (i : Nat) : Option Grid := do
  let lo ← borders[i]?
  let hi ← borders[i + 1]?
  (intRange lo hi).foldlM (fun (g : Grid) (j : Int) => do
    let first ← CyclicVector.get g 0
    recvRow g j first.length (inbox.updateRow i j)) field

/-- Method `Update()`. -/
def Update (s : GameOfLife) (inbox : Inbox) : Option (Bool × GameOfLife) :=
  if s.field_ = [] then some (false, s)
  else
    let asked := s.Running inbox
    if asked.1 then some (false, asked.2)
    else if asked.2.up_to_date_ then some (true, asked.2)
    else if asked.2.world_rank_ = 0 then do
      let signalled := asked.2.sendAll .Update (.byte 1)
      let field ← signalled.ranks.foldlM (collectRows signalled.borders_ inbox) signalled.field_
      pure (true, { signalled with field_ := field, up_to_date_ := true })
    else some (true, { asked.2 with up_to_date_ := true })

/-- The sends of `BroadcastField` to worker `i`: the size message, then the rows
`borders_[i] - 1 .. borders_[i+1]` of the field (cyclic index). -/
def sendPart (s : GameOfLife) (i : Nat) : Option GameOfLife := do
  let lo ← s.borders_[i]?
  let hi ← s.borders_[i + 1]?
  let first ← CyclicVector.get s.field_ 0
  let sized : GameOfLife :=
    { s with sent := s.sent ++
        [{ dest := i, tag := .FieldSize, payload := .size (hi - lo + 2) (first.length : Int) }] }
  (intRange (lo - 1) (hi + 1)).foldlM (fun (acc : GameOfLife) (j : Int) => do
    let row ← CyclicVector.get acc.field_ j
    if row.length < first.length then none
    pure { acc with sent := acc.sent ++
      [{ dest := i, tag := .Field, payload := .row (row.take first.length) }] }) sized

/-- The receive loop of `BroadcastField` on a worker, over the loop indices still to
visit: push an empty row, `field_[k].assign(cols, 0)`, then receive at most `cols` cells
into `field_[k]` (cyclic index). -/
def recvPart (inbox : Inbox) (cols : Int) : List Nat → Grid → Option Grid
  | [], field => some field
  | k :: rest, field =>
    if cols < 0 then none
    else if (inbox.fieldRow k).length > cols.toNat then none
    else
      let blank := List.replicate cols.toNat (0 : Int)
      let row := inbox.fieldRow k ++ blank.drop (inbox.fieldRow k).length
      match CyclicVector.update (field ++ [[]]) (k : Int) (fun _ => some row) with
      | none => none
      | some field1 => recvPart inbox cols rest field1

/-- Method `BroadcastField()`. -/
def BroadcastField (s : GameOfLife) (inbox : Inbox) : Option GameOfLife := do
  let listed : GameOfLife := { s with process_ := s.process_ ++ s.ranks.map fun (i : Nat) => (i : Int) }
  if listed.world_rank_ = 0 then
    let notified := listed.sendAll .Start (.byte 1)
    let borders ← bordersLoop notified.field_.length notified.world_size_ notified.borders_
    notified.ranks.foldlM sendPart { notified with borders_ := borders }
  else
    let field ← recvPart inbox inbox.fieldSize.2 (List.range inbox.fieldSize.1.toNat) listed.field_
    pure { listed with field_ := field,
                       borders_ := (listed.borders_ ++ [1]) ++ [inbox.fieldSize.1 - 1] }

/-- Method `Start(h_size, v_size)`; `draw` is the sequence produced by `bern(rng)`. -/
def Start (s : GameOfLife) (h_size v_size : Nat) (draw : Nat → Bool) (inbox : Inbox) :
    Option (Bool × GameOfLife) :=
  if s.field_ ≠ [] then some (false, s)
  else do
    let filled := if s.world_rank_ = 0 then { s with field_ := randomField h_size v_size draw } else s
    let spread ← BroadcastField filled inbox
    pure (true, { spread with new_field_ := spread.field_ })

/-- Method `Start(filename)`; `file` is the content of the file, opened with success. -/
def StartFile (s : GameOfLife) (file : List Char) (inbox : Inbox) : Option (Bool × GameOfLife) :=
  if s.field_ ≠ [] then some (false, s)
  else do
    let field ← if s.world_rank_ = 0 then readField file 0 0 s.field_ else some s.field_
    let spread ← BroadcastField { s with field_ := field } inbox
    pure (true, { spread with new_field_ := spread.field_ })

/-- Method `CalculatePart()`: the rows `borders_[0] .. borders_.back() - 1`. -/
def CalculatePart (s : GameOfLife) : Option GameOfLife := do
  let lo ← s.borders_[0]?
  let hi ← s.borders_.getLast?
  let new_field ← calculateRows s.rules_ s.field_ s.new_field_ lo hi
  pure { s with new_field_ := new_field }

end GameOfLife

/-- The object of a worker process together with the local variables of
`SlaveSynchronize`: `quit`, `notify_master`, `turn` and `border_gained[0]`,
`border_gained[1]`. -/
structure Worker where
  gol : GameOfLife
  quit : Bool
  notify_master : Bool
  turn : Bool
  border_gained0 : Bool
  border_gained1 : Bool
deriving DecidableEq, Repr

/-- The message that `MPI_Probe` finds in `SlaveRecv`, with what the further receives of
its branch deliver: from rank 0 a `Running` query, a `Run` message with the number of
iterations, a `Stop` signal followed by the agreed target, an `Update` signal (`rows j` is
what the receive for row `j` posted after it takes from rank 0), a `Quit` signal; from
another rank a row tagged `Run`. -/
inductive Incoming where
  | running
  | run (add_iterations : Nat)
  | stop (final_target : Nat)
  | update (rows : Int → List Int)
  | quit
  | border (source : Int) (row : List Int)

/-- Where `SlaveSynchronize` stands when the delivered messages are used up: in the
`SlaveRecv` of the else branch, in the `SlaveRecv` loop that waits for the two border rows,
or after the loop (`quit` set). -/
inductive Phase where
  | idle
  | halo
  | finished
deriving DecidableEq, Repr

namespace Worker

/-- Method `SlaveRecv(border_gained, quit, notify_master)` handling the message `m`. A row
from a rank that is neither partner is never received (`none`). -/
def SlaveRecv (w : Worker) : Incoming → Option Worker
  | .running =>
    some { w with gol := { w.gol with sent := w.gol.sent ++
      [{ dest := 0, tag := .Running, payload := .flag w.gol.running_ }] } }
  | .run add_iterations => some { w with gol := (w.gol.Run add_iterations).2 }
  | .stop final_target =>
    some { w with
      gol := { w.gol with
        sent := w.gol.sent ++
          [{ dest := 0, tag := .Stop, payload := .count w.gol.iterations_count_ }],
        desired_iterations_count_ := final_target },
      notify_master := true }
  | .update rows => do
    let lo ← w.gol.borders_[0]?
    let hi ← w.gol.borders_.getLast?
    let field ← (intRange lo hi).foldlM (fun (g : Grid) (j : Int) => do
      let first ← CyclicVector.get g 0
      GameOfLife.recvRow g j first.length (rows j)) w.gol.field_
    pure { w with gol := { w.gol with field_ := field } }
  | .quit => some { w with quit := true }
  | .border source row => do
    if source = 0 then none
    let first ← CyclicVector.get w.gol.field_ 0
    let right ← CyclicVector.get w.gol.process_ (w.gol.world_rank_ : Int)
    if source = right then do
      let hi ← w.gol.borders_.getLast?
      let field ← GameOfLife.recvRow w.gol.field_ hi first.length row
      pure { w with gol := { w.gol with field_ := field }, border_gained1 := true }
    else do
      let left ← CyclicVector.get w.gol.process_ ((w.gol.world_rank_ : Int) - 2)
      if source = left then do
        let lo ← w.gol.borders_[0]?
        let field ← GameOfLife.recvRow w.gol.field_ (lo - 1) first.length row
        pure { w with gol := { w.gol with field_ := field }, border_gained0 := true }
      else none

/-- The two `MPI_Send` calls of a generation: row `borders_[0]` to `process_[world_rank_ - 2]`
and row `borders_.back() - 1` to `process_[world_rank_]`, `field_[0].size()` cells each. -/
def sendBorders (w : Worker) : Option Worker := do
  let lo ← w.gol.borders_[0]?
  let hi ← w.gol.borders_.getLast?
  let first ← CyclicVector.get w.gol.field_ 0
  let top ← CyclicVector.get w.gol.field_ lo
  let up ← CyclicVector.get w.gol.process_ ((w.gol.world_rank_ : Int) - 2)
  let bottom ← CyclicVector.get w.gol.field_ (hi - 1)
  let down ← CyclicVector.get w.gol.process_ (w.gol.world_rank_ : Int)
  if top.length < first.length ∨ bottom.length < first.length then none
  pure { w with gol := { w.gol with sent := w.gol.sent ++
    [{ dest := up.toNat, tag := .Run, payload := .row (top.take first.length) },
     { dest := down.toNat, tag := .Run, payload := .row (bottom.take first.length) }] } }

/-- The loop `while (!(border_gained[0] && border_gained[1])) SlaveRecv(...)` over the
delivered messages; the flag tells whether both rows were gained before they ran out. -/
def gainBorders : Worker → List Incoming → Option (Bool × Worker × List Incoming)
  | w, [] => some (w.border_gained0 && w.border_gained1, w, [])
  | w, m :: rest =>
    if w.border_gained0 && w.border_gained1 then some (true, w, m :: rest)
    else
      match w.SlaveRecv m with
      | none => none
      | some w1 => gainBorders w1 rest

/-- The end of a generation in `SlaveSynchronize`: `CalculatePart()`, the swap, the
increment, the reset of `border_gained`, and at the target the clearing of `running_` with
the notification of rank 0 if `notify_master` is set. -/
def finishGeneration (w : Worker) : Option Worker := do
  let computed ← w.gol.CalculatePart
  let swapped : GameOfLife :=
    { computed with field_ := computed.new_field_, new_field_ := computed.field_,
                    iterations_count_ := computed.iterations_count_ + 1 }
  let w1 : Worker := { w with gol := swapped, border_gained0 := false, border_gained1 := false }
  if swapped.iterations_count_ ≥ swapped.desired_iterations_count_ then
    let halted : GameOfLife := { swapped with running_ := false }
    if w1.notify_master then
      pure { w1 with
        gol := { halted with sent := halted.sent ++
          [{ dest := 0, tag := .Stop, payload := .byte 1 }] },
        notify_master := false }
    else pure { w1 with gol := halted }
  else pure w1

/-- The loop `while (!quit)` of `SlaveSynchronize` over the delivered messages, at most
`fuel` iterations; the result is the state in which the worker waits for a message that
was not delivered, or in which it left the loop. -/
def loop : Nat → Worker → List Incoming → Option (Phase × Worker)
  | 0, _, _ => none
  | fuel + 1, w, msgs =>
    if w.quit then some (.finished, w)
    else if w.gol.running_ && decide (w.gol.iterations_count_ < w.gol.desired_iterations_count_) then
      if w.turn then do
        let told ← w.sendBorders
        let (gained, w1, rest) ← told.gainBorders msgs
        if !gained then some (.halo, w1)
        else do
          let w2 ← w1.finishGeneration
          loop fuel w2 rest
      else do
        let (gained, w1, rest) ← w.gainBorders msgs
        if !gained then some (.halo, w1)
        else do
          let told ← w1.sendBorders
          let w2 ← told.finishGeneration
          loop fuel w2 rest
    else
      match msgs with
      | [] => some (.idle, w)
      | m :: rest =>
        match w.SlaveRecv m with
        | none => none
        | some w1 => loop fuel w1 rest

/-- Whether the message is a `Run` message of rank 0. -/
def Incoming.isRun : Incoming → Bool
  | .run _ => true
  | _ => false

/-- The message `MPI_Send(&x, 1, MPI_BYTE, 0, MpiGolTag::Stop, ...)` by which a worker tells
rank 0 that it has reached the agreed target. -/
def stopAck : Message := { dest := 0, tag := .Stop, payload := .byte 1 }

end Worker

/-- Method `SlaveSynchronize()`: the first message from rank 0 (`Quit` returns, any tag
but `Start` fails the assertion), `Start()`, then the loop. -/
def GameOfLife.SlaveSynchronize (s : GameOfLife) (first : MpiGolTag) (draw : Nat → Bool)
    (inbox : Inbox) (fuel : Nat) (msgs : List Incoming) : Option (Phase × Worker) :=
  let fresh (g : GameOfLife) : Worker :=
    { gol := g, quit := false, notify_master := false, turn := g.world_rank_ % 2 ≠ 0,
      border_gained0 := false, border_gained1 := false }
  if s.world_rank_ = 0 then none
  else if first = .Quit then some (.finished, fresh s)
  else if first ≠ .Start then none
  else do
    let started ← s.Start 10 10 draw inbox
    (fresh started.2).loop fuel msgs

end Mpi

/-! ## Reference definitions used to state the properties -/

/-- Cell `(i, j)` of a grid, `0` outside the grid. -/
def cellAt (g : Grid) (i j : Nat) : Int := (g.getD i []).getD j 0

/-- Grid `g` with cell `(i, j)` replaced by `v`. -/
def setCell (g : Grid) (i j : Nat) (v : Int) : Grid := g.set i ((g.getD i []).set j v)

/-- A grid of `H` rows that all have `W` cells. -/
def Rect (g : Grid) (H W : Nat) : Prop := g.length = H ∧ ∀ row ∈ g, row.length = W

/-- Every cell of the grid is `0` or `1`. -/
def Binary (g : Grid) : Prop := ∀ row ∈ g, ∀ c ∈ row, c = 0 ∨ c = 1

/-- Closed form of the partition table: `k * floor(H / W) + min(k, H mod W)`. -/
def boundary (H W k : Nat) : Nat := k * (H / W) + min k (H % W)

namespace RuleEvaluator

/-- Cell of an `H` x `W` grid at the position `(i mod H, j mod W)` (floor-mod). -/
def torus (g : Grid) (H W : Nat) (i j : Int) : Int :=
  cellAt g (i % (H : Int)).toNat (j % (W : Int)).toNat

/-- Sum of the 8 toroidal neighbours of cell `(i, j)`: the offsets `(x, y)` of
`{-1, 0, 1}^2` other than `(0, 0)`. -/
def neighborSum (g : Grid) (H W : Nat) (i j : Int) : Int :=
  torus g H W (i - 1) (j - 1) + torus g H W (i - 1) j + torus g H W (i - 1) (j + 1)
    + torus g H W i (j - 1) + torus g H W i (j + 1)
    + torus g H W (i + 1) (j - 1) + torus g H W (i + 1) j + torus g H W (i + 1) (j + 1)

/-- Next state of a cell holding `c` with neighbour sum `n`: if currently alive, alive iff
`n` is in `survive`; if currently dead, alive iff `n` is in `born`; otherwise dead. -/
def next (rules : Rules) (c n : Int) : Int :=
  if (c ≠ 0 ∧ n ∈ rules.stay_) ∨ (c = 0 ∧ n ∈ rules.born_) then 1 else 0

/-- Next state of the cell `(i, j)` of an `H` x `W` grid. -/
def nextCell (rules : Rules) (g : Grid) (H W : Nat) (i j : Nat) : Int :=
  next rules (cellAt g i j) (neighborSum g H W (i : Int) (j : Int))

/-- The rule evaluator applied once to every cell of the grid. -/
def step (rules : Rules) (g : Grid) : Grid :=
  (List.range g.length).map fun i =>
    (List.range (g.getD i []).length).map fun j =>
      nextCell rules g g.length (g.getD 0 []).length i j

end RuleEvaluator

/-- Numeric value of a decimal digit character. -/
def digitValue (c : Char) : Int := (c.toNat : Int) - 48

/-- A descriptor made of decimal digits only. -/
def AllDigits (d : List Char) : Prop := ∀ c ∈ d, '0' ≤ c ∧ c ≤ '9'

/-- Reference scan of a rule descriptor: `bornMode` tells which set is selected; `b`/`B`
selects born, `s`/`S` selects survive, `/` toggles the selection, a digit is put (in
order) into the selected set, any other character is ignored.  The result is the pair
(born, survive). -/
def referenceScan : Bool → List Char → List Int × List Int
  | _, [] => ([], [])
  | bornMode, c :: rest =>
    if c = 'b' ∨ c = 'B' then referenceScan true rest
    else if c = 's' ∨ c = 'S' then referenceScan false rest
    else if c = '/' then referenceScan (!bornMode) rest
    else if '0' ≤ c ∧ c ≤ '9' then
      if bornMode then (digitValue c :: (referenceScan bornMode rest).1, (referenceScan bornMode rest).2)
      else ((referenceScan bornMode rest).1, digitValue c :: (referenceScan bornMode rest).2)
    else referenceScan bornMode rest

/-- The classic rule `b3/s23`. -/
def defaultRules : Rules := { born_ := [3], stay_ := [2, 3] }

/-- The grammar `b<digits>/s<digits>` of a well-formed descriptor, letters in either
case: a `b`, digits, a `/`, an `s`, digits, and nothing else. -/
def matchesGrammar (rules : List Char) : Bool :=
  match rules with
  | [] => false
  | b :: rest =>
    (b == 'b' || b == 'B') &&
    (match rest.dropWhile Char.isDigit with
     | slash :: s :: digits => slash == '/' && (s == 's' || s == 'S') && digits.all Char.isDigit
     | _ => false)

/-- Indicator of the two indices `a` and `(a + 1) mod n` occupied by a block on an axis
of length `n`. -/
def blockHit (n a k : Nat) : Int := if k = a ∨ k = (a + 1) % n then 1 else 0

/-- The `H` x `W` grid whose live cells are exactly the 2 x 2 block on the rows `a`,
`(a + 1) mod H` and the columns `b`, `(b + 1) mod W`. -/
def blockGrid (H W a b : Nat) : Grid :=
  (List.range H).map fun i => (List.range W).map fun j => blockHit H a i * blockHit W b j

/-- The number of block indices among an index `i` of an axis of length `n` and its two
cyclic neighbours. -/
def blockSpan (n a i : Nat) : Int :=
  blockHit n a (if i = 0 then n - 1 else i - 1) + blockHit n a i
    + blockHit n a (if i + 1 = n then 0 else i + 1)

/-! ## Sample inputs -/

/-- A vertical bar of three live cells on a 3 x 3 torus. -/
def blinker : Grid := [[0, 1, 0], [0, 1, 0], [0, 1, 0]]

/-- A 10 x 10 field as produced by `Start(10, 10)` for a generator whose draws number
`0, 3, 6, ...` are `true`. -/
def tenByTen : Grid := randomField 10 10 fun k => k % 3 = 0

/-- A shared-memory game started from a file holding the blinker, one worker thread. -/
def Pthread.started : Option (Bool × Pthread.GameOfLife) :=
  (Pthread.GameOfLife.mk_ 1 "b3/s23".toList).StartFile "0,1,0\n0,1,0\n0,1,0\n".toList

/-- A distributed coordinator (rank 0 of 4) holding the blinker, with the table of
`BroadcastField` for 3 rows. -/
def Mpi.coordinator : Mpi.GameOfLife :=
  { Mpi.GameOfLife.mk_ "b3/s23".toList 4 0 with
    field_ := blinker, new_field_ := blinker, borders_ := [0, 1, 2, 3, 3], process_ := [1, 2, 3] }

/-- Workers 1, 2, 3 answer that they are running and report 5, 5 and 6 iterations. -/
def Mpi.reports : Mpi.Inbox :=
  { running := fun _ => true,
    count := fun i => if i = 3 then 6 else 5,
    updateRow := fun _ _ => [],
    fieldSize := (0, 0),
    fieldRow := fun _ => [] }

/-- The object of worker 1 of four processes before `SlaveSynchronize`. -/
def Mpi.firstWorker : Mpi.GameOfLife := Mpi.GameOfLife.mk_ "b3/s23".toList 4 1

/-- The part of the blinker that rank 0 hands to a worker on `Start`: three rows of three
cells. -/
def Mpi.blinkerPart : Mpi.Inbox :=
  { running := fun _ => false,
    count := fun _ => 0,
    updateRow := fun _ _ => [],
    fieldSize := (3, 3),
    fieldRow := fun _ => [0, 1, 0] }

/-- Worker 1 after `Start`, `Run(1)`, one generation and a `Running` query: it has reached
its target 1 and cleared `running_`. -/
def Mpi.reachedTarget : Mpi.Worker :=
  { gol :=
      { field_ := [[0, 1, 0], [1, 1, 1], [0, 1, 0]],
        new_field_ := [[0, 1, 0], [0, 1, 0], [0, 1, 0]],
        iterations_count_ := 1,
        desired_iterations_count_ := 1,
        running_ := false,
        up_to_date_ := true,
        borders_ := [1, 2],
        process_ := [1, 2, 3],
        world_size_ := 4,
        world_rank_ := 1,
        rules_ := { born_ := [3], stay_ := [2, 3] },
        sent := [{ dest := 3, tag := .Run, payload := .row [0, 1, 0] },
                 { dest := 2, tag := .Run, payload := .row [0, 1, 0] },
                 { dest := 0, tag := .Running, payload := .flag false }] },
    quit := false,
    notify_master := false,
    turn := true,
    border_gained0 := false,
    border_gained1 := false }

/-! ## Theorems -/

namespace CyclicVector

theorem tmod_nonneg_eq (i : Int) (n : Nat) (hi : 0 ≤ i) :
    Int.tmod i (n : Int) = i % (n : Int) := by
  obtain ⟨k, rfl⟩ := Int.eq_ofNat_of_zero_le hi
  rfl

theorem index_nonneg (n fuel : Nat) (i : Int) (hn : 1 ≤ n) (hi : 0 ≤ i) :
    index n (fuel + 1) i = some (i % (n : Int)).toNat := by
  have hn0 : n ≠ 0 := by omega
  have hnpos : (0 : Int) < (n : Int) := by exact_mod_cast hn
  have h1 : 0 ≤ i % (n : Int) := Int.emod_nonneg _ (by omega)
  have h2 : i % (n : Int) < (n : Int) := Int.emod_lt_of_pos _ hnpos
  simp [index, hn0, not_lt.mpr hi, at_, tmod_nonneg_eq i n hi, h1, h2]

theorem index_eq (n fuel : Nat) (i : Int) (hn : 1 ≤ n) (hf : 2 ≤ fuel) :
    index n fuel i = some (i % (n : Int)).toNat := by
  obtain ⟨f, rfl⟩ : ∃ f, fuel = f + 2 := ⟨fuel - 2, by omega⟩
  have hn0 : n ≠ 0 := by omega
  have hnpos : (0 : Int) < (n : Int) := by exact_mod_cast hn
  by_cases hi : 0 ≤ i
  · exact index_nonneg n (f + 1) i hn hi
  · have hneg : i < 0 := by omega
    obtain ⟨k, hk⟩ := Int.eq_negSucc_of_lt_zero hneg
    have hval : Int.tmod i (n : Int) = -(((k + 1) % n : Nat) : Int) := by rw [hk]; rfl
    have hmlt : (k + 1) % n < n := Nat.mod_lt _ (by omega)
    have harg : 0 ≤ (n : Int) + Int.tmod i (n : Int) := by omega
    have hstep : index n (f + 2) i = index n (f + 1) ((n : Int) + Int.tmod i (n : Int)) := by
      conv_lhs => unfold index
      simp [hn0, hneg]
    rw [hstep, index_nonneg n f _ hn harg]
    congr 2
    have hmod : Int.tmod i (n : Int) % (n : Int) = i % (n : Int) := by
      have h := Int.tmod_add_tdiv i (n : Int)
      have : i = Int.tmod i (n : Int) + (n : Int) * (Int.tdiv i (n : Int)) := by omega
      conv_rhs => rw [this]
      simp
    rw [Int.add_emod, Int.emod_self, zero_add, Int.emod_emod, hmod]

end CyclicVector


/-! ### Loops -/

/-- Loop invariant rule for a fallible loop over a list: an invariant indexed by the
elements already visited, established at entry and preserved by every step, holds at exit,
and the loop does not fail. -/
theorem foldlM_invariant {α β : Type} (I : List α → β → Prop) (f : β → α → Option β)
    (l : List α) (pre : List α) (b : β) (h0 : I pre b)
    (hstep : ∀ (p : List α) (a : α) (x : β), a ∈ l → I p x → ∃ y, f x a = some y ∧ I (p ++ [a]) y) :
    ∃ y, l.foldlM f b = some y ∧ I (pre ++ l) y := by
  induction l generalizing pre b with
  | nil => exact ⟨b, by simp, by simpa using h0⟩
  | cons a t ih =>
    obtain ⟨y, hy, hI⟩ := hstep pre a b (by simp) h0
    obtain ⟨z, hz, hIz⟩ := ih (pre ++ [a]) y hI
      (fun p a' x ha' hx => hstep p a' x (List.mem_cons_of_mem _ ha') hx)
    refine ⟨z, ?_, by simpa using hIz⟩
    simp [List.foldlM_cons, hy, hz]

/-! ### Cyclic access -/

namespace CyclicVector

theorem get_eq {α : Type} (v : List α) (i : Int) (hn : 1 ≤ v.length) :
    get v i = v[(i % (v.length : Int)).toNat]? := by
  simp [get, depth, index_eq v.length 2 i hn (le_refl 2)]

theorem update_eq {α : Type} (v : List α) (i : Int) (f : α → Option α) (hn : 1 ≤ v.length) :
    update v i f = (v[(i % (v.length : Int)).toNat]?).bind fun x =>
      (f x).map fun y => v.set (i % (v.length : Int)).toNat y := by
  simp [update, depth, index_eq v.length 2 i hn (le_refl 2)]

theorem emod_toNat_lt (i : Int) (n : Nat) (hn : 1 ≤ n) : (i % (n : Int)).toNat < n := by
  have hnpos : (0 : Int) < (n : Int) := by exact_mod_cast hn
  have h1 : 0 ≤ i % (n : Int) := Int.emod_nonneg _ (by omega)
  have h2 : i % (n : Int) < (n : Int) := Int.emod_lt_of_pos _ hnpos
  omega

theorem emod_toNat_of_lt (k n : Nat) (h : k < n) : (((k : Int)) % (n : Int)).toNat = k := by
  rw [Int.emod_eq_of_lt (by omega) (by exact_mod_cast h)]
  simp

end CyclicVector

/-! ### Grids -/

theorem Rect.row_length {g : Grid} {H W : Nat} (h : Rect g H W) (i : Nat) (hi : i < H) :
    (g.getD i []).length = W := by
  obtain ⟨hlen, hrow⟩ := h
  have hi' : i < g.length := by omega
  rw [List.getD_eq_getElem _ _ hi']
  exact hrow _ (List.getElem_mem hi')

theorem Rect.getElem? {g : Grid} {H W : Nat} (h : Rect g H W) (i : Nat) (hi : i < H) :
    g[i]? = some (g.getD i []) := by
  have hi' : i < g.length := by have := h.1; omega
  rw [List.getD_eq_getElem _ _ hi', List.getElem?_eq_getElem hi']

theorem rect_setCell {g : Grid} {H W : Nat} (h : Rect g H W) (i j : Nat) (v : Int) :
    Rect (setCell g i j v) H W := by
  obtain ⟨hlen, hrow⟩ := h
  refine ⟨by simp [setCell, hlen], ?_⟩
  intro row hmem
  by_cases hi : i < g.length
  · rcases List.mem_or_eq_of_mem_set hmem with h1 | h1
    · exact hrow row h1
    · subst h1
      rw [List.length_set, List.getD_eq_getElem _ _ hi]
      exact hrow _ (List.getElem_mem hi)
  · rw [setCell, List.set_eq_of_length_le (by omega)] at hmem
    exact hrow row hmem

theorem cellAt_setCell {g : Grid} {H W : Nat} (h : Rect g H W) (i j : Nat) (v : Int)
    (hi : i < H) (hj : j < W) (a b : Nat) :
    cellAt (setCell g i j v) a b = if a = i ∧ b = j then v else cellAt g a b := by
  have hi' : i < g.length := by have := h.1; omega
  have hjw : j < (g.getD i []).length := by rw [h.row_length i hi]; exact hj
  unfold cellAt setCell
  by_cases ha : a = i
  · subst ha
    by_cases hb : b = j
    · subst hb
      have hjw' : b < g[a].length := by
        rw [List.getD_eq_getElem _ _ hi'] at hjw
        exact hjw
      simp [List.getD_eq_getElem?_getD, List.getElem?_set, hi', hjw']
    · have hb' : ¬ j = b := fun e => hb e.symm
      simp [List.getD_eq_getElem?_getD, List.getElem?_set, hi', hb, hb']
  · have ha' : ¬ i = a := fun e => ha e.symm
    simp [List.getD_eq_getElem?_getD, List.getElem?_set, ha, ha']

theorem setCell_setCell (g : Grid) (i j : Nat) (u v : Int) :
    setCell (setCell g i j u) i j v = setCell g i j v := by
  unfold setCell
  by_cases hi : i < g.length
  · simp [List.getD_eq_getElem?_getD, List.getElem?_set, hi]
  · rw [List.set_eq_of_length_le (l := g) (by omega), List.set_eq_of_length_le (l := g) (by omega)]

theorem writeCell_eq {g : Grid} {H W : Nat} (h : Rect g H W) (i j : Nat) (v : Int)
    (hi : i < H) (hj : j < W) :
    writeCell g (i : Int) (j : Int) v = some (setCell g i j v) := by
  have hlen := h.1
  have hrow := h.row_length i hi
  have hgi := h.getElem? i hi
  unfold writeCell
  rw [CyclicVector.update_eq g _ _ (by omega), hlen, CyclicVector.emod_toNat_of_lt i H hi, hgi]
  simp only [Option.some_bind]
  rw [CyclicVector.update_eq _ _ _ (by omega), hrow, CyclicVector.emod_toNat_of_lt j W hj]
  have hj' : j < (g.getD i []).length := by omega
  rw [List.getElem?_eq_getElem hj']
  simp [setCell]

/-! ### The neighbour count -/

theorem toChar_of_range (x : Int) (h1 : -128 ≤ x) (h2 : x ≤ 127) : toChar x = x := by
  unfold toChar
  omega

theorem cellAt_binary {g : Grid} (hb : Binary g) (i j : Nat) :
    cellAt g i j = 0 ∨ cellAt g i j = 1 := by
  unfold cellAt
  by_cases hi : i < g.length
  · rw [List.getD_eq_getElem _ _ hi]
    by_cases hj : j < g[i].length
    · rw [List.getD_eq_getElem _ _ hj]
      exact hb _ (List.getElem_mem hi) _ (List.getElem_mem hj)
    · left
      simp [List.getD_eq_getElem?_getD, List.getElem?_eq_none (not_lt.mp hj)]
  · left
    simp [List.getD_eq_getElem?_getD, List.getElem?_eq_none (not_lt.mp hi)]

theorem get_get_torus {g : Grid} {H W : Nat} (h : Rect g H W) (hH : 1 ≤ H) (hW : 1 ≤ W)
    (a b : Int) :
    CyclicVector.get g a = some (g.getD (a % (H : Int)).toNat []) ∧
    CyclicVector.get (g.getD (a % (H : Int)).toNat []) b
      = some (RuleEvaluator.torus g H W a b) := by
  have hlen := h.1
  have hk := CyclicVector.emod_toNat_lt a H hH
  have hl := CyclicVector.emod_toNat_lt b W hW
  have hrow := h.row_length _ hk
  constructor
  · rw [CyclicVector.get_eq g a (by omega), hlen, h.getElem? _ hk]
  · rw [CyclicVector.get_eq _ b (by omega), hrow]
    have hl' : (b % (W : Int)).toNat < (g.getD (a % (H : Int)).toNat []).length := by omega
    rw [List.getElem?_eq_getElem hl']
    simp only [RuleEvaluator.torus, cellAt, List.getD_eq_getElem _ _ hl']

theorem get_bind_torus {g : Grid} {H W : Nat} (h : Rect g H W) (hH : 1 ≤ H) (hW : 1 ≤ W)
    (a b : Int) (F : Int → Int) :
    ((CyclicVector.get g a).bind fun row =>
      (CyclicVector.get row b).bind fun c => some (F c))
      = some (F (RuleEvaluator.torus g H W a b)) := by
  obtain ⟨h1, h2⟩ := get_get_torus h hH hW a b
  rw [h1, Option.some_bind, h2, Option.some_bind]

theorem torus_range {g : Grid} (hb : Binary g) (H W : Nat) (a b : Int) :
    0 ≤ RuleEvaluator.torus g H W a b ∧ RuleEvaluator.torus g H W a b ≤ 1 := by
  rcases cellAt_binary hb (a % (H : Int)).toNat (b % (W : Int)).toNat with h | h <;>
    simp [RuleEvaluator.torus, h]

theorem numAlive_eq {g : Grid} {H W : Nat} (h : Rect g H W) (hb : Binary g)
    (hH : 1 ≤ H) (hW : 1 ≤ W) (i j : Int) :
    numAlive g i j = some (RuleEvaluator.neighborSum g H W i j) := by
  unfold numAlive
  simp only [List.foldlM_cons, List.foldlM_nil]
  simp
  simp only [get_bind_torus h hH hW, Option.some_bind]
  have c1 := torus_range hb H W (i + -1) (j + -1)
  have c2 := torus_range hb H W (i + -1) j
  have c3 := torus_range hb H W (i + -1) (j + 1)
  have c4 := torus_range hb H W i (j + -1)
  have c5 := torus_range hb H W i (j + 1)
  have c6 := torus_range hb H W (i + 1) (j + -1)
  have c7 := torus_range hb H W (i + 1) j
  have c8 := torus_range hb H W (i + 1) (j + 1)
  simp only [RuleEvaluator.neighborSum, Int.sub_eq_add_neg, toChar, Option.some.injEq]
  omega

/-! ### One cell, one row, a range of rows -/

theorem torus_of_lt (g : Grid) {H W : Nat} (i j : Nat) (hi : i < H) (hj : j < W) :
    RuleEvaluator.torus g H W (i : Int) (j : Int) = cellAt g i j := by
  simp [RuleEvaluator.torus, CyclicVector.emod_toNat_of_lt i H hi,
    CyclicVector.emod_toNat_of_lt j W hj]

theorem applyRule_eq {g : Grid} {H W : Nat} (h : Rect g H W) (i j : Nat)
    (hi : i < H) (hj : j < W) (n : Int) (rs : List Int) :
    applyRule n (i : Int) (j : Int) rs g = some (if n ∈ rs then setCell g i j 1 else g) := by
  induction rs with
  | nil => simp [applyRule]
  | cons r rest ih =>
    unfold applyRule
    by_cases hr : n = r
    · simp [hr, writeCell_eq h i j 1 hi hj]
    · simp [hr, ih]

theorem calculateCell_eq (rules : Rules) {field nf : Grid} {H W : Nat}
    (hf : Rect field H W) (hb : Binary field) (hn : Rect nf H W) (i j : Nat)
    (hi : i < H) (hj : j < W) :
    calculateCell rules field nf (i : Int) (j : Int)
      = some (setCell nf i j (RuleEvaluator.nextCell rules field H W i j)) := by
  have hH : 1 ≤ H := by omega
  have hW : 1 ≤ W := by omega
  obtain ⟨h1, h2⟩ := get_get_torus hf hH hW (i : Int) (j : Int)
  rw [torus_of_lt field i j hi hj] at h2
  have hclear := rect_setCell hn i j 0
  unfold calculateCell
  simp only [numAlive_eq hf hb hH hW, h1, h2, writeCell_eq hn i j 0 hi hj,
    applyRule_eq hclear i j hi hj, setCell_setCell,
    Option.bind_eq_bind, Option.some_bind, Option.pure_def, bind, pure]
  unfold RuleEvaluator.nextCell RuleEvaluator.next
  by_cases hc : cellAt field i j = 0
  · by_cases hm : RuleEvaluator.neighborSum field H W (i : Int) (j : Int) ∈ rules.born_
    · simp [hc, hm]
    · simp [hc, hm]
  · by_cases hm : RuleEvaluator.neighborSum field H W (i : Int) (j : Int) ∈ rules.stay_
    · simp [hc, hm]
    · simp [hc, hm]

theorem mem_intRange (lo hi i : Int) : i ∈ intRange lo hi ↔ lo ≤ i ∧ i < hi := by
  unfold intRange
  simp only [List.mem_map, List.mem_range]
  constructor
  · rintro ⟨k, hk, rfl⟩
    have := Int.lt_toNat.mp hk
    omega
  · rintro ⟨h1, h2⟩
    refine ⟨(i - lo).toNat, Int.lt_toNat.mpr ?_, ?_⟩
    · rw [Int.toNat_of_nonneg (by omega)]
      omega
    · rw [Int.toNat_of_nonneg (by omega)]
      omega

theorem calculateRow_eq (rules : Rules) {field nf : Grid} {H W : Nat}
    (hf : Rect field H W) (hb : Binary field) (hn : Rect nf H W) (i : Nat) (hi : i < H) :
    ∃ nf1, calculateRow rules field nf (i : Int) = some nf1 ∧ Rect nf1 H W ∧
      ∀ a b, a < H → b < W → cellAt nf1 a b =
        if a = i then RuleEvaluator.nextCell rules field H W i b else cellAt nf a b := by
  have hrow : CyclicVector.get field (i : Int) = some (field.getD i []) := by
    rw [CyclicVector.get_eq field _ (by have := hf.1; omega), hf.1,
      CyclicVector.emod_toNat_of_lt i H hi, hf.getElem? i hi]
  unfold calculateRow
  simp only [hrow, Option.bind_eq_bind, Option.some_bind, bind, hf.row_length i hi]
  obtain ⟨y, hy, hR, hcell⟩ := foldlM_invariant
    (fun (pre : List Nat) (x : Grid) => Rect x H W ∧ ∀ a b, a < H → b < W →
      cellAt x a b = if a = i ∧ b ∈ pre then RuleEvaluator.nextCell rules field H W i b
        else cellAt nf a b)
    (fun x j => calculateCell rules field x (i : Int) (j : Int)) (List.range W) [] nf
    ⟨hn, by simp⟩
    (by
      intro p j x hj hx
      have hjW : j < W := List.mem_range.mp hj
      refine ⟨_, calculateCell_eq rules hf hb hx.1 i j hi hjW, rect_setCell hx.1 i j _, ?_⟩
      intro a b ha hb'
      rw [cellAt_setCell hx.1 i j _ hi hjW a b, hx.2 a b ha hb']
      by_cases h1 : a = i
      · by_cases h2 : b = j
        · simp [h1, h2]
        · simp [h1, h2]
      · simp [h1])
  refine ⟨y, hy, hR, ?_⟩
  intro a b ha hb'
  rw [hcell a b ha hb']
  simp [List.mem_range, hb']

theorem calculateRows_eq (rules : Rules) {field nf : Grid} {H W : Nat}
    (hf : Rect field H W) (hb : Binary field) (hn : Rect nf H W) (lo hi : Int)
    (hlo : 0 ≤ lo) (hhi : hi ≤ (H : Int)) :
    ∃ nf1, calculateRows rules field nf lo hi = some nf1 ∧ Rect nf1 H W ∧
      ∀ a b, a < H → b < W → cellAt nf1 a b =
        if lo ≤ (a : Int) ∧ (a : Int) < hi then RuleEvaluator.nextCell rules field H W a b
        else cellAt nf a b := by
  unfold calculateRows
  obtain ⟨y, hy, hR, hcell⟩ := foldlM_invariant
    (fun (pre : List Int) (x : Grid) => Rect x H W ∧ ∀ a b, a < H → b < W →
      cellAt x a b = if (a : Int) ∈ pre then RuleEvaluator.nextCell rules field H W a b
        else cellAt nf a b)
    (fun x i => calculateRow rules field x i) (intRange lo hi) [] nf
    ⟨hn, by simp⟩
    (by
      intro p i x hi' hx
      obtain ⟨h1, h2⟩ := (mem_intRange lo hi i).mp hi'
      obtain ⟨k, rfl⟩ := Int.eq_ofNat_of_zero_le (show 0 ≤ i by omega)
      have hk : k < H := by omega
      obtain ⟨z, hz, hzR, hzc⟩ := calculateRow_eq rules hf hb hx.1 k hk
      refine ⟨z, hz, hzR, ?_⟩
      intro a b ha hb'
      rw [hzc a b ha hb', hx.2 a b ha hb']
      by_cases h3 : a = k
      · simp [h3]
      · have h4 : ¬ (a : Int) = (k : Int) := by omega
        simp [h3, h4])
  refine ⟨y, hy, hR, ?_⟩
  intro a b ha hb'
  rw [hcell a b ha hb']
  simp [mem_intRange]

/-! ### The partition table -/

theorem boundary_succ (H W k : Nat) :
    boundary H W (k + 1) = boundary H W k + H / W + (if k < H % W then 1 else 0) := by
  unfold boundary
  rw [Nat.succ_mul]
  by_cases h : k < H % W
  · rw [if_pos h, Nat.min_eq_left (by omega), Nat.min_eq_left (by omega)]
    omega
  · rw [if_neg h, Nat.min_eq_right (by omega), Nat.min_eq_right (by omega)]
    omega

theorem boundary_zero (H W : Nat) : boundary H W 0 = 0 := by
  simp [boundary]

theorem boundary_top (H W : Nat) (hW : W ≠ 0) : boundary H W W = H := by
  unfold boundary
  have hlt : H % W < W := Nat.mod_lt _ (by omega)
  rw [Nat.min_eq_right (by omega)]
  have := Nat.div_add_mod H W
  linarith

/-- The table `boundary H W 0, ..., boundary H W k` as a vector of `long long`. -/
theorem bordersStep_eq (H W k : Nat) (hW : W ≠ 0) :
    bordersStep H W ((List.range (k + 1)).map fun n => (boundary H W n : Int)) (k + 1)
      = some ((List.range (k + 2)).map fun n => (boundary H W n : Int)) := by
  have hlen : ((List.range (k + 1)).map fun n => (boundary H W n : Int)).length = k + 1 := by
    simp
  have hprev : ((List.range (k + 1)).map fun n => (boundary H W n : Int))[k]?
      = some (boundary H W k : Int) := by
    simp [List.getElem?_range]
  generalize hL : ((List.range (k + 1)).map fun n => (boundary H W n : Int)) = L at hlen hprev
  have hnext : (List.range (k + 2)).map (fun n => (boundary H W n : Int))
      = L ++ [(boundary H W (k + 1) : Int)] := by
    rw [List.range_succ, List.map_append, hL]
    simp
  rw [hnext, boundary_succ]
  unfold bordersStep
  by_cases h : k < H % W
  · simp [hW, h, List.getElem?_append_right, hlen, List.set_append_right,
      List.getElem?_append_left, hprev]
    omega
  · simp [hW, h, List.getElem?_append_right, hlen, List.set_append_right,
      List.getElem?_append_left, hprev]
    omega

theorem bordersLoop_prefix (H W n : Nat) (hW : W ≠ 0) :
    (List.range' 1 n).foldlM (bordersStep H W) [0]
      = some ((List.range (n + 1)).map fun k => (boundary H W k : Int)) := by
  induction n with
  | zero =>
    have h0 : ((boundary H W 0 : Nat) : Int) = 0 := by rw [boundary_zero]; rfl
    simp only [List.range'_zero, List.foldlM_nil, List.range_succ, List.range_zero,
      List.nil_append, List.map_cons, List.map_nil, h0]
    rfl
  | succ m ih =>
    rw [List.range'_1_concat, List.foldlM_append, ih]
    simp only [Option.bind_eq_bind, Option.some_bind, bind, List.foldlM_cons, List.foldlM_nil]
    rw [Nat.add_comm 1 m, bordersStep_eq H W m hW]
    rfl

theorem bordersLoop_eq (H W : Nat) (hW : W ≠ 0) :
    bordersLoop H W [] = some ((List.range (W + 1)).map fun k => (boundary H W k : Int)) := by
  unfold bordersLoop
  exact bordersLoop_prefix H W W hW

theorem boundary_le (H W k : Nat) (hW : W ≠ 0) (hk : k ≤ W) : boundary H W k ≤ H := by
  have hmono : ∀ n m, boundary H W n ≤ boundary H W (n + m) := by
    intro n m
    induction m with
    | zero => exact le_refl _
    | succ m ih =>
      rw [← Nat.add_assoc, boundary_succ]
      exact le_trans ih (Nat.le_trans (Nat.le_add_right _ _) (Nat.le_add_right _ _))
  obtain ⟨m, rfl⟩ : ∃ m, W = k + m := ⟨W - k, by omega⟩
  calc boundary H (k + m) k ≤ boundary H (k + m) (k + m) := hmono k m
    _ = H := boundary_top H (k + m) hW

theorem boundary_cover (H W : Nat) (hW : W ≠ 0) (a : Nat) (ha : a < H) :
    ∃ k, k < W ∧ boundary H W k ≤ a ∧ a < boundary H W (k + 1) := by
  have key : ∀ n, a < boundary H W n → ∃ k, k < n ∧ boundary H W k ≤ a ∧ a < boundary H W (k + 1) := by
    intro n
    induction n with
    | zero =>
      intro h
      rw [boundary_zero] at h
      omega
    | succ n ih =>
      intro h
      by_cases hn : a < boundary H W n
      · obtain ⟨k, hk, h1, h2⟩ := ih hn
        exact ⟨k, by omega, h1, h2⟩
      · exact ⟨n, by omega, by omega, h⟩
  exact key W (by rw [boundary_top H W hW]; exact ha)

theorem borders_getElem? (H W k : Nat) (hk : k ≤ W) :
    ((List.range (W + 1)).map fun n => (boundary H W n : Int))[k]?
      = some (boundary H W k : Int) := by
  simp [List.getElem?_range, Nat.lt_succ_of_le hk]

/-! ### Whole grids -/

theorem grid_ext {g1 g2 : Grid} {H W : Nat} (h1 : Rect g1 H W) (h2 : Rect g2 H W)
    (hcell : ∀ a b, a < H → b < W → cellAt g1 a b = cellAt g2 a b) : g1 = g2 := by
  apply List.ext_getElem (by rw [h1.1, h2.1])
  intro a ha1 ha2
  have haH : a < H := by rw [← h1.1]; exact ha1
  have hr1 := h1.row_length a haH
  have hr2 := h2.row_length a haH
  rw [List.getD_eq_getElem _ _ ha1] at hr1
  rw [List.getD_eq_getElem _ _ ha2] at hr2
  apply List.ext_getElem (by rw [hr1, hr2])
  intro b hb1 hb2
  have hbW : b < W := by rw [← hr1]; exact hb1
  have := hcell a b haH hbW
  simpa [cellAt, List.getD_eq_getElem, ha1, ha2, hb1, hb2] using this

theorem step_rect (rules : Rules) {g : Grid} {H W : Nat} (h : Rect g H W) :
    Rect (RuleEvaluator.step rules g) H W := by
  refine ⟨by simp [RuleEvaluator.step, h.1], ?_⟩
  intro row hrow
  simp only [RuleEvaluator.step, List.mem_map, List.mem_range] at hrow
  obtain ⟨i, hi, rfl⟩ := hrow
  rw [List.length_map, List.length_range]
  exact h.row_length i (by rw [← h.1]; exact hi)

theorem step_cell (rules : Rules) {g : Grid} {H W : Nat} (h : Rect g H W)
    (a b : Nat) (ha : a < H) (hb : b < W) :
    cellAt (RuleEvaluator.step rules g) a b = RuleEvaluator.nextCell rules g H W a b := by
  have h0 : (g.getD 0 []).length = W := h.row_length 0 (by omega)
  have ha' : a < g.length := by rw [h.1]; exact ha
  have hra : (g.getD a []).length = W := h.row_length a ha
  have hb' : b < (g.getD a []).length := by omega
  unfold cellAt RuleEvaluator.step
  simp only [List.getD_eq_getElem?_getD] at h0 hra ⊢
  rw [List.getElem?_map, List.getElem?_range ha']
  simp only [Option.map_some', Option.getD_some]
  rw [hra, h0, h.1, List.getElem?_map, List.getElem?_range hb]
  rfl

/-! ### `CalculatePart` and one generation -/

theorem Pthread.CalculatePart_thread_eq (s : Pthread.GameOfLife) (t : Nat) {H W : Nat} (lo hi : Int)
    (hf : Rect s.field_ H W) (hb : Binary s.field_) (hn : Rect s.new_field_ H W)
    (hlo : s.borders_[t]? = some lo) (hhi : s.borders_[t + 1]? = some hi)
    (h0 : 0 ≤ lo) (h1 : hi ≤ (H : Int)) :
    ∃ nf, s.CalculatePart t = some { s with new_field_ := nf } ∧ Rect nf H W ∧
      ∀ a b, a < H → b < W → cellAt nf a b =
        if lo ≤ (a : Int) ∧ (a : Int) < hi then RuleEvaluator.nextCell s.rules_ s.field_ H W a b
        else cellAt s.new_field_ a b := by
  obtain ⟨nf, hnf, hR, hc⟩ := calculateRows_eq s.rules_ hf hb hn lo hi h0 h1
  refine ⟨nf, ?_, hR, hc⟩
  simp [Pthread.GameOfLife.CalculatePart, hlo, hhi, hnf]

theorem neighborSum_origin (g : Grid) (H W : Nat) (hH : 1 ≤ H) (hW : 1 ≤ W) :
    RuleEvaluator.neighborSum g H W 0 0 =
      cellAt g (H - 1) (W - 1) + cellAt g (H - 1) 0 + cellAt g (H - 1) (1 % W)
      + cellAt g 0 (W - 1) + cellAt g 0 (1 % W)
      + cellAt g (1 % H) (W - 1) + cellAt g (1 % H) 0 + cellAt g (1 % H) (1 % W) := by
  have e1 : ∀ n : Nat, 1 ≤ n → (((0 : Int) - 1) % (n : Int)).toNat = n - 1 := by
    intro n hn
    have h : ((0 : Int) - 1) % (n : Int) = ((n - 1 : Nat) : Int) := by
      rw [← Int.add_emod_self (a := 0 - 1) (b := (n : Int))]
      rw [Int.emod_eq_of_lt (by omega) (by omega)]
      omega
    rw [h, Int.toNat_ofNat]
  have e2 : ∀ n : Nat, (((0 : Int) + 1) % (n : Int)).toNat = 1 % n := by
    intro n
    have h : ((0 : Int) + 1) % (n : Int) = ((1 % n : Nat) : Int) := by
      rw [Int.zero_add]
      norm_cast
    rw [h, Int.toNat_ofNat]
  have e3 : ∀ n : Nat, ((0 : Int) % (n : Int)).toNat = 0 := by
    intro n
    simp
  simp only [RuleEvaluator.neighborSum, RuleEvaluator.torus, e1 H hH, e1 W hW, e2, e3]

theorem Mpi.CalculatePart_local_eq (s : Mpi.GameOfLife) {H W : Nat} (lo hi : Int)
    (hf : Rect s.field_ H W) (hb : Binary s.field_) (hn : Rect s.new_field_ H W)
    (hlo : s.borders_[0]? = some lo) (hhi : s.borders_.getLast? = some hi)
    (h0 : 0 ≤ lo) (h1 : hi ≤ (H : Int)) :
    ∃ nf, s.CalculatePart = some { s with new_field_ := nf } ∧ Rect nf H W ∧
      ∀ a b, a < H → b < W → cellAt nf a b =
        if lo ≤ (a : Int) ∧ (a : Int) < hi then RuleEvaluator.nextCell s.rules_ s.field_ H W a b
        else cellAt s.new_field_ a b := by
  obtain ⟨nf, hnf, hR, hc⟩ := calculateRows_eq s.rules_ hf hb hn lo hi h0 h1
  refine ⟨nf, ?_, hR, hc⟩
  simp [Mpi.GameOfLife.CalculatePart, hlo, hhi, hnf]

theorem boundary_mono (H W : Nat) {k l : Nat} (h : k ≤ l) :
    boundary H W k ≤ boundary H W l := by
  obtain ⟨m, rfl⟩ : ∃ m, l = k + m := ⟨l - k, by omega⟩
  induction m with
  | zero => exact le_refl _
  | succ m ih =>
    rw [← Nat.add_assoc, boundary_succ]
    exact le_trans (ih (by omega)) (Nat.le_trans (Nat.le_add_right _ _) (Nat.le_add_right _ _))

theorem boundary_lt_succ (H W k : Nat) (hW1 : 1 ≤ W) (hW2 : W ≤ H) :
    boundary H W k < boundary H W (k + 1) := by
  have hq : 0 < H / W := Nat.div_pos hW2 hW1
  rw [boundary_succ]
  omega

theorem Pthread.CreateThreads_eq (s : Pthread.GameOfLife) (H W : Nat)
    (hW1 : 1 ≤ W) (hW2 : W ≤ H)
    (hrows : s.field_.length = H) (hworkers : s.num_threads_ = W)
    (hfresh : s.borders_ = []) (hidle : s.barrier_.capacity_ ≤ s.barrier_.num_threads_) :
    s.CreateThreads = some { s with
      num_threads_ := W,
      barrier_ := { s.barrier_ with num_threads_ := W, capacity_ := W },
      borders_ := (List.range (W + 1)).map fun k => (boundary H W k : Int),
      threads_ := s.threads_ + W,
      master_thread_ := true } := by
  have hmin : min W H = W := Nat.min_eq_left hW2
  have hnot : ¬ s.barrier_.num_threads_ < s.barrier_.capacity_ := by omega
  unfold Pthread.GameOfLife.CreateThreads
  simp only [hrows, hworkers, hmin, hfresh, CyclicBarrier.ResizeBarrier, hnot, if_false,
    bordersLoop_eq H W (by omega)]
  rfl

theorem Pthread.workers_eq (s : Pthread.GameOfLife) (H W cols : Nat) (order : List Nat)
    (hW1 : 1 ≤ W) (horder : order.Perm (List.range W))
    (hf : Rect s.field_ H cols) (hb : Binary s.field_) (hn : Rect s.new_field_ H cols)
    (hbord : s.borders_ = (List.range (W + 1)).map fun k => (boundary H W k : Int)) :
    order.foldlM Pthread.GameOfLife.CalculatePart s
      = some { s with new_field_ := RuleEvaluator.step s.rules_ s.field_ } := by
  have hW0 : W ≠ 0 := by omega
  obtain ⟨y, hy, nf, hnf, hR, hcell⟩ := foldlM_invariant
    (fun (pre : List Nat) (x : Pthread.GameOfLife) =>
      ∃ nf, x = { s with new_field_ := nf } ∧ Rect nf H cols ∧
        ∀ a b, a < H → b < cols → cellAt nf a b =
          if ∃ k ∈ pre, boundary H W k ≤ a ∧ a < boundary H W (k + 1)
          then RuleEvaluator.nextCell s.rules_ s.field_ H cols a b
          else cellAt s.new_field_ a b)
    Pthread.GameOfLife.CalculatePart order [] s
    ⟨s.new_field_, rfl, hn, by simp⟩
    (by
      rintro p t x ht ⟨nf, rfl, hR, hc⟩
      have htW : t < W := List.mem_range.mp (horder.mem_iff.mp ht)
      obtain ⟨nf1, h1, hR1, hc1⟩ := Pthread.CalculatePart_thread_eq { s with new_field_ := nf } t
        (boundary H W t : Int) (boundary H W (t + 1) : Int) hf hb hR
        (by rw [show ({ s with new_field_ := nf } : Pthread.GameOfLife).borders_ = s.borders_ from rfl,
              hbord]; exact borders_getElem? H W t (by omega))
        (by rw [show ({ s with new_field_ := nf } : Pthread.GameOfLife).borders_ = s.borders_ from rfl,
              hbord]; exact borders_getElem? H W (t + 1) (by omega))
        (by exact_mod_cast Nat.zero_le _)
        (by exact_mod_cast boundary_le H W (t + 1) hW0 (by omega))
      refine ⟨_, h1, nf1, rfl, hR1, ?_⟩
      intro a b ha hb'
      rw [hc1 a b ha hb', hc a b ha hb']
      by_cases hin : boundary H W t ≤ a ∧ a < boundary H W (t + 1)
      · have hin' : ((boundary H W t : Int) ≤ (a : Int) ∧ (a : Int) < (boundary H W (t + 1) : Int)) := by
          exact_mod_cast hin
        have hex : ∃ k ∈ p ++ [t], boundary H W k ≤ a ∧ a < boundary H W (k + 1) :=
          ⟨t, by simp, hin⟩
        rw [if_pos hin', if_pos hex]
      · have hin' : ¬ ((boundary H W t : Int) ≤ (a : Int) ∧ (a : Int) < (boundary H W (t + 1) : Int)) := by
          intro h
          exact hin (by exact_mod_cast h)
        rw [if_neg hin']
        by_cases hex : ∃ k ∈ p, boundary H W k ≤ a ∧ a < boundary H W (k + 1)
        · have hex2 : ∃ k ∈ p ++ [t], boundary H W k ≤ a ∧ a < boundary H W (k + 1) := by
            obtain ⟨k, hk, hk2⟩ := hex
            exact ⟨k, by simp [hk], hk2⟩
          rw [if_pos hex, if_pos hex2]
        · have hex2 : ¬ ∃ k ∈ p ++ [t], boundary H W k ≤ a ∧ a < boundary H W (k + 1) := by
            rintro ⟨k, hk, hk2⟩
            rcases List.mem_append.mp hk with h | h
            · exact hex ⟨k, h, hk2⟩
            · rw [List.mem_singleton] at h
              subst h
              exact hin hk2
          rw [if_neg hex, if_neg hex2])
  rw [hy, hnf]
  congr 2
  apply grid_ext hR (step_rect s.rules_ hf)
  intro a b ha hb'
  rw [hcell a b ha hb', step_cell s.rules_ hf a b ha hb']
  obtain ⟨k, hk, h1, h2⟩ := boundary_cover H W hW0 a ha
  rw [if_pos ⟨k, by simpa using horder.mem_iff.mpr (List.mem_range.mpr hk), h1, h2⟩]

theorem Pthread.generationIn_eq (s : Pthread.GameOfLife) (H W cols : Nat) (order : List Nat)
    (hW1 : 1 ≤ W) (horder : order.Perm (List.range W))
    (hf : Rect s.field_ H cols) (hb : Binary s.field_) (hn : Rect s.new_field_ H cols)
    (hbord : s.borders_ = (List.range (W + 1)).map fun k => (boundary H W k : Int)) :
    s.generationIn order = some (Pthread.GameOfLife.MasterSynchronize_commit
      { s with new_field_ := RuleEvaluator.step s.rules_ s.field_ }) := by
  unfold Pthread.GameOfLife.generationIn
  rw [Pthread.workers_eq s H W cols order hW1 horder hf hb hn hbord]
  rfl

theorem Pthread.generation_eq (s : Pthread.GameOfLife) (H W cols : Nat)
    (hW1 : 1 ≤ W) (hw : s.num_threads_ = W)
    (hf : Rect s.field_ H cols) (hb : Binary s.field_) (hn : Rect s.new_field_ H cols)
    (hbord : s.borders_ = (List.range (W + 1)).map fun k => (boundary H W k : Int)) :
    s.generation = some (Pthread.GameOfLife.MasterSynchronize_commit
      { s with new_field_ := RuleEvaluator.step s.rules_ s.field_ }) := by
  subst hw
  exact Pthread.generationIn_eq s H s.num_threads_ cols _ hW1 (List.Perm.refl _) hf hb hn hbord

/-! ### The control plane -/

theorem Mpi.poll_fields (inbox : Mpi.Inbox) (l : List Nat) (acc : Mpi.GameOfLife) :
    ∃ r snt, l.foldl (fun (acc : Mpi.GameOfLife) (i : Nat) =>
      { acc with sent := acc.sent ++ [{ dest := i, tag := .Running, payload := .byte 1 }],
                 running_ := acc.running_ || inbox.running i }) acc
      = { acc with running_ := r, sent := snt } := by
  induction l generalizing acc with
  | nil => exact ⟨acc.running_, acc.sent, rfl⟩
  | cons i t ih =>
    obtain ⟨r, snt, h⟩ := ih
      { acc with sent := acc.sent ++ [{ dest := i, tag := .Running, payload := .byte 1 }],
                 running_ := acc.running_ || inbox.running i }
    exact ⟨r, snt, by rw [List.foldl_cons, h]⟩

theorem Mpi.Running_fields (s : Mpi.GameOfLife) (inbox : Mpi.Inbox) :
    ∃ r snt, (s.Running inbox).2 = { s with running_ := r, sent := snt } := by
  unfold Mpi.GameOfLife.Running
  by_cases h1 : (!s.running_) = true
  · rw [if_pos h1]
    exact ⟨s.running_, s.sent, rfl⟩
  · rw [if_neg h1]
    by_cases h2 : s.world_rank_ = 0
    · rw [if_pos h2]
      obtain ⟨r, snt, h⟩ := Mpi.poll_fields inbox s.ranks { s with running_ := false }
      exact ⟨r, snt, h⟩
    · rw [if_neg h2]
      exact ⟨s.running_, s.sent, rfl⟩

theorem foldl_max_spec (f : Nat → Nat) (l : List Nat) (init : Nat) :
    init ≤ l.foldl (fun (m : Nat) (i : Nat) => max (f i) m) init ∧
    (∀ i ∈ l, f i ≤ l.foldl (fun (m : Nat) (i : Nat) => max (f i) m) init) ∧
    (l.foldl (fun (m : Nat) (i : Nat) => max (f i) m) init = init ∨
      ∃ i ∈ l, l.foldl (fun (m : Nat) (i : Nat) => max (f i) m) init = f i) := by
  induction l generalizing init with
  | nil => simp
  | cons a t ih =>
    obtain ⟨h1, h2, h3⟩ := ih (max (f a) init)
    simp only [List.foldl_cons]
    refine ⟨by omega, ?_, ?_⟩
    · intro i hi
      rcases List.mem_cons.mp hi with rfl | hi
      · omega
      · exact h2 i hi
    · rcases h3 with h | ⟨i, hi, h⟩
      · rcases Nat.le_total (f a) init with hle | hle
        · left
          rw [h, Nat.max_eq_right hle]
        · right
          exact ⟨a, by simp, by rw [h, Nat.max_eq_left hle]⟩
      · right
        exact ⟨i, List.mem_cons_of_mem _ hi, h⟩

theorem Mpi.maxCount_spec (s : Mpi.GameOfLife) (inbox : Mpi.Inbox) (hsize : 2 ≤ s.world_size_) :
    (∃ c ∈ s.ranks.map inbox.count, s.maxCount inbox = c) ∧
    ∀ c ∈ s.ranks.map inbox.count, c ≤ s.maxCount inbox := by
  obtain ⟨-, h2, h3⟩ := foldl_max_spec inbox.count s.ranks 0
  have hne : 1 ∈ s.ranks := by
    unfold Mpi.GameOfLife.ranks
    rw [List.mem_range']
    exact ⟨0, by omega, rfl⟩
  refine ⟨?_, ?_⟩
  · rcases h3 with h | ⟨i, hi, h⟩
    · refine ⟨inbox.count 1, List.mem_map_of_mem _ hne, ?_⟩
      have := h2 1 hne
      unfold Mpi.GameOfLife.maxCount
      omega
    · exact ⟨inbox.count i, List.mem_map_of_mem _ hi, h⟩
  · intro c hc
    obtain ⟨i, hi, rfl⟩ := List.mem_map.mp hc
    exact h2 i hi

/-! ### The rule descriptor -/

theorem digit_range (c : Char) (h : '0' ≤ c ∧ c ≤ '9') : 48 ≤ c.toNat ∧ c.toNat ≤ 57 := by
  obtain ⟨h1, h2⟩ := h
  rw [Char.le_def] at h1 h2
  exact ⟨h1, h2⟩

theorem toChar_digit (c : Char) (h : '0' ≤ c ∧ c ≤ '9') :
    toChar ((c.toNat : Int) - 48) = digitValue c := by
  obtain ⟨h1, h2⟩ := digit_range c h
  unfold digitValue
  exact toChar_of_range _ (by omega) (by omega)

theorem scan_eq_reference (rules : List Char) (mode : Bool) (born stay : List Int) :
    (rules.foldl scanChar (mode, { born_ := born, stay_ := stay })).2
      = { born_ := born ++ (referenceScan mode rules).1,
          stay_ := stay ++ (referenceScan mode rules).2 } := by
  induction rules generalizing mode born stay with
  | nil => simp [referenceScan]
  | cons c rest ih =>
    rw [List.foldl_cons, referenceScan]
    by_cases h1 : c = 'b' ∨ c = 'B'
    · have hs : scanChar (mode, { born_ := born, stay_ := stay }) c
          = (true, { born_ := born, stay_ := stay }) := by
        unfold scanChar
        simp only [if_pos h1]
      rw [hs, if_pos h1]
      exact ih true born stay
    · by_cases h2 : c = 's' ∨ c = 'S'
      · have hs : scanChar (mode, { born_ := born, stay_ := stay }) c
            = (false, { born_ := born, stay_ := stay }) := by
          unfold scanChar
          simp only [if_neg h1, if_pos h2]
        rw [hs, if_neg h1, if_pos h2]
        exact ih false born stay
      · by_cases h3 : c = '/'
        · have hs : scanChar (mode, { born_ := born, stay_ := stay }) c
              = (!mode, { born_ := born, stay_ := stay }) := by
            unfold scanChar
            simp only [if_neg h1, if_neg h2, if_pos h3]
          rw [hs, if_neg h1, if_neg h2, if_pos h3]
          exact ih (!mode) born stay
        · by_cases h4 : '0' ≤ c ∧ c ≤ '9'
          · cases mode
            · have hs : scanChar (false, { born_ := born, stay_ := stay }) c
                  = (false, { born_ := born, stay_ := stay ++ [digitValue c] }) := by
                unfold scanChar
                simp only [if_neg h1, if_neg h2, if_neg h3, if_pos h4, toChar_digit c h4,
                  Bool.false_eq_true, if_false]
              rw [hs, if_neg h1, if_neg h2, if_neg h3, if_pos h4, ih]
              simp
            · have hs : scanChar (true, { born_ := born, stay_ := stay }) c
                  = (true, { born_ := born ++ [digitValue c], stay_ := stay }) := by
                unfold scanChar
                simp only [if_neg h1, if_neg h2, if_neg h3, if_pos h4, toChar_digit c h4, if_true]
              rw [hs, if_neg h1, if_neg h2, if_neg h3, if_pos h4, ih]
              simp
          · have hs : scanChar (mode, { born_ := born, stay_ := stay }) c
                = (mode, { born_ := born, stay_ := stay }) := by
              unfold scanChar
              simp only [if_neg h1, if_neg h2, if_neg h3, if_neg h4]
            rw [hs, if_neg h1, if_neg h2, if_neg h3, if_neg h4]
            exact ih mode born stay

theorem referenceScan_digits (d rest : List Char) (mode : Bool) (hd : AllDigits d) :
    referenceScan mode (d ++ rest)
      = if mode then (d.map digitValue ++ (referenceScan mode rest).1, (referenceScan mode rest).2)
        else ((referenceScan mode rest).1, d.map digitValue ++ (referenceScan mode rest).2) := by
  induction d with
  | nil => cases mode <;> simp
  | cons c t ih =>
    have hc : '0' ≤ c ∧ c ≤ '9' := hd c (by simp)
    have ht : AllDigits t := fun x hx => hd x (List.mem_cons_of_mem _ hx)
    have hr := digit_range c hc
    have h1 : ¬ (c = 'b' ∨ c = 'B') := by
      rintro (h | h) <;> subst h <;> revert hr <;> decide
    have h2 : ¬ (c = 's' ∨ c = 'S') := by
      rintro (h | h) <;> subst h <;> revert hr <;> decide
    have h3 : ¬ c = '/' := by
      rintro h; subst h; revert hr; decide
    rw [List.cons_append, referenceScan]
    simp only [if_neg h1, if_neg h2, if_neg h3, if_pos hc, ih ht]
    cases mode <;> simp

theorem referenceScan_wellformed (b s : Char) (d1 d2 : List Char)
    (hb : b = 'b' ∨ b = 'B') (hs : s = 's' ∨ s = 'S') (h1 : AllDigits d1) (h2 : AllDigits d2) :
    referenceScan true (b :: (d1 ++ '/' :: s :: d2)) = (d1.map digitValue, d2.map digitValue) := by
  have hs1 : ¬ (s = 'b' ∨ s = 'B') := by
    rcases hs with h | h <;> subst h <;> decide
  have e := referenceScan_digits d2 [] false h2
  rw [List.append_nil] at e
  rw [referenceScan, if_pos hb, referenceScan_digits d1 _ true h1]
  simp only [if_true]
  rw [referenceScan]
  simp only [show ¬ (('/' : Char) = 'b' ∨ ('/' : Char) = 'B') by decide,
    show ¬ (('/' : Char) = 's' ∨ ('/' : Char) = 'S') by decide, if_false, if_true,
    Bool.not_true]
  rw [referenceScan]
  simp only [if_neg hs1, if_pos hs, e]
  simp [referenceScan]

theorem parseRules_eq (rules : List Char) :
    parseRules rules =
      if (referenceScan true rules).1 = [] ∧ (referenceScan true rules).2 = [] then defaultRules
      else { born_ := (referenceScan true rules).1, stay_ := (referenceScan true rules).2 } := by
  unfold parseRules
  simp only [scan_eq_reference, List.nil_append, List.isEmpty_iff]
  by_cases h : (referenceScan true rules).1 = [] ∧ (referenceScan true rules).2 = []
  · rw [if_pos h, if_pos h, h.1, h.2]
    rfl
  · rw [if_neg h, if_neg h]

theorem digit_not_letter (c : Char) (hc : '0' ≤ c ∧ c ≤ '9') :
    ¬ (c = 'b' ∨ c = 'B') ∧ ¬ (c = 's' ∨ c = 'S') ∧ ¬ c = '/' := by
  have hr := digit_range c hc
  refine ⟨?_, ?_, ?_⟩
  · rintro (h | h) <;> subst h <;> revert hr <;> decide
  · rintro (h | h) <;> subst h <;> revert hr <;> decide
  · rintro h; subst h; revert hr; decide

theorem referenceScan_nil_iff (rules : List Char) (mode : Bool) :
    ((referenceScan mode rules).1 = [] ∧ (referenceScan mode rules).2 = []) ↔
      ∀ c ∈ rules, ¬ ('0' ≤ c ∧ c ≤ '9') := by
  induction rules generalizing mode with
  | nil => simp [referenceScan]
  | cons c rest ih =>
    rw [referenceScan, List.forall_mem_cons]
    by_cases h4 : '0' ≤ c ∧ c ≤ '9'
    · obtain ⟨h1, h2, h3⟩ := digit_not_letter c h4
      rw [if_neg h1, if_neg h2, if_neg h3, if_pos h4]
      cases mode <;> simp [h4]
    · by_cases h1 : c = 'b' ∨ c = 'B'
      · rw [if_pos h1, ih true]
        exact ⟨fun h => ⟨h4, h⟩, fun h => h.2⟩
      · by_cases h2 : c = 's' ∨ c = 'S'
        · rw [if_neg h1, if_pos h2, ih false]
          exact ⟨fun h => ⟨h4, h⟩, fun h => h.2⟩
        · by_cases h3 : c = '/'
          · rw [if_neg h1, if_neg h2, if_pos h3, ih (!mode)]
            exact ⟨fun h => ⟨h4, h⟩, fun h => h.2⟩
          · rw [if_neg h1, if_neg h2, if_neg h3, if_neg h4, ih mode]
            exact ⟨fun h => ⟨h4, h⟩, fun h => h.2⟩

/-! ### The reader-writer lock -/

theorem LockSystem.inv_init : LockSystem.init.Inv := by
  simp [LockSystem.Inv, LockSystem.init, ReaderWriterLock.mk_]

theorem LockSystem.step_inv (σ next : LockSystem) (ev : LockEvent)
    (h : σ.Inv) (hs : σ.step ev = some next) : next.Inv := by
  obtain ⟨h1, h2, h3, h4⟩ := h
  cases ev with
  | readerLock t =>
    simp only [LockSystem.step, ReaderWriterLock.ReaderLock_enter] at hs
    split at hs
    · exact absurd hs (by simp)
    · split at hs <;> simp only [Option.some.injEq] at hs <;> subst hs
      · rename_i hc
        have hnw : σ.lock.lock_state_ ≠ .Writer := by
          rcases hc.2 with e | e <;> rw [e] <;> decide
        refine ⟨by simp [h1], by simp, by simp, fun _ => h4 hnw⟩
      · exact ⟨by simpa using h1, by simpa using h2, by simpa using h3, by simpa using h4⟩
  | readerWake t =>
    simp only [LockSystem.step, ReaderWriterLock.ReaderLock_wake] at hs
    split at hs
    · split at hs <;> simp only [Option.some.injEq] at hs <;> subst hs
      · exact ⟨by simpa using h1, by simpa using h2, by simpa using h3, by simpa using h4⟩
      · rename_i hc
        have hnw : σ.lock.lock_state_ ≠ .Writer := by
          intro e
          apply hc
          left
          rw [e]
          exact ⟨by decide, by decide⟩
        refine ⟨by simp [h1], by simp, by simp, fun _ => h4 hnw⟩
    · exact absurd hs (by simp)
  | readerUnlock t =>
    simp only [LockSystem.step, ReaderWriterLock.ReaderUnlock] at hs
    split at hs
    · rename_i hc
      simp only [Option.some.injEq] at hs
      subst hs
      have hpos : 0 < σ.readers.length := List.length_pos_of_mem hc.2
      have hcount : σ.lock.readers_acquired_lock_count_ ≠ 0 := by omega
      have hR : σ.lock.lock_state_ = .Reader := h2.mpr (by omega)
      have hnw : σ.lock.lock_state_ ≠ .Writer := by rw [hR]; decide
      have hlen : (σ.readers.erase t).length = σ.readers.length - 1 :=
        List.length_erase_of_mem hc.2
      simp only [if_neg hcount]
      split
      · rename_i hz
        refine ⟨by simp only [hlen]; omega, by simp [hz], by simp, fun _ => h4 hnw⟩
      · rename_i hz
        refine ⟨by simp only [hlen]; omega, by simp [hR]; omega, by simp [hR], fun _ => h4 hnw⟩
    · exact absurd hs (by simp)
  | writerLock t =>
    simp only [LockSystem.step, ReaderWriterLock.WriterLock_enter] at hs
    split at hs
    · exact absurd hs (by simp)
    · split at hs <;> simp only [Option.some.injEq] at hs <;> subst hs
      · rename_i hc
        have hnw : σ.lock.lock_state_ ≠ .Writer := by rw [hc.2]; decide
        have hzero : σ.lock.readers_acquired_lock_count_ = 0 := by
          by_contra hne
          have := h2.mpr (by omega)
          rw [hc.2] at this
          exact absurd this (by decide)
        refine ⟨by simpa using h1, by simp [hzero], by simp [hzero, h4 hnw], by simp⟩
      · exact ⟨by simpa using h1, by simpa using h2, by simpa using h3, by simpa using h4⟩
  | writerWake t =>
    simp only [LockSystem.step, ReaderWriterLock.WriterLock_wake] at hs
    split at hs
    · split at hs <;> simp only [Option.some.injEq] at hs <;> subst hs
      · exact ⟨by simpa using h1, by simpa using h2, by simpa using h3, by simpa using h4⟩
      · rename_i hc
        have hU : σ.lock.lock_state_ = .Unlocked := by
          by_contra hne
          exact hc (Or.inl hne)
        have hnw : σ.lock.lock_state_ ≠ .Writer := by rw [hU]; decide
        have hzero : σ.lock.readers_acquired_lock_count_ = 0 := by
          by_contra hne
          have := h2.mpr (by omega)
          rw [hU] at this
          exact absurd this (by decide)
        refine ⟨by simpa using h1, by simp [hzero], by simp [hzero, h4 hnw], by simp⟩
    · exact absurd hs (by simp)
  | writerUnlock t =>
    simp only [LockSystem.step, ReaderWriterLock.WriterUnlock] at hs
    split at hs
    · rename_i hc
      simp only [Option.some.injEq] at hs
      subst hs
      have hW : σ.lock.lock_state_ = .Writer := by
        by_contra hne
        have := h4 hne
        rw [this] at hc
        exact absurd hc.2 (by simp)
      obtain ⟨hz, hone⟩ := h3 hW
      have hlen : (σ.writers.erase t).length = σ.writers.length - 1 :=
        List.length_erase_of_mem hc.2
      refine ⟨by simpa using h1, by simp [hz], by simp, fun _ => ?_⟩
      exact List.length_eq_zero.mp (by rw [hlen, hone])
    · exact absurd hs (by simp)

theorem LockSystem.run_inv (evs : List LockEvent) (σ last : LockSystem)
    (h : σ.Inv) (hr : σ.run evs = some last) : last.Inv := by
  induction evs generalizing σ with
  | nil =>
    simp only [LockSystem.run, Option.some.injEq] at hr
    subst hr
    exact h
  | cons e rest ih =>
    simp only [LockSystem.run] at hr
    cases hstep : σ.step e with
    | none => simp [hstep] at hr
    | some mid =>
      rw [hstep] at hr
      exact ih mid (LockSystem.step_inv σ mid e h hstep) hr

theorem LockSystem.step_grant (σ next : LockSystem) (ev : LockEvent)
    (h : σ.Inv) (hs : σ.step ev = some next) :
    (next.writers.length = σ.writers.length + 1 → σ.readers = [] ∧ σ.writers = []) ∧
    (next.readers.length = σ.readers.length + 1 → σ.writers = []) := by
  obtain ⟨h1, h2, h3, h4⟩ := h
  have hzero : σ.lock.lock_state_ = .Unlocked → σ.readers = [] ∧ σ.writers = [] := by
    intro hU
    have hnw : σ.lock.lock_state_ ≠ .Writer := by rw [hU]; decide
    refine ⟨?_, h4 hnw⟩
    apply List.length_eq_zero.mp
    by_contra hne
    have := h2.mpr (by omega)
    rw [hU] at this
    exact absurd this (by decide)
  cases ev with
  | readerLock t =>
    simp only [LockSystem.step, ReaderWriterLock.ReaderLock_enter] at hs
    split at hs
    · exact absurd hs (by simp)
    · split at hs <;> simp only [Option.some.injEq] at hs <;> subst hs
      · rename_i hc
        have hnw : σ.lock.lock_state_ ≠ .Writer := by
          rcases hc.2 with e | e <;> rw [e] <;> decide
        exact ⟨fun hl => by simp at hl, fun _ => h4 hnw⟩
      · exact ⟨fun hl => by simp at hl, fun hl => by simp at hl⟩
  | readerWake t =>
    simp only [LockSystem.step, ReaderWriterLock.ReaderLock_wake] at hs
    split at hs
    · split at hs <;> simp only [Option.some.injEq] at hs <;> subst hs
      · exact ⟨fun hl => by simp at hl, fun hl => by simp at hl⟩
      · rename_i hc
        have hnw : σ.lock.lock_state_ ≠ .Writer := by
          intro e
          apply hc
          left
          rw [e]
          exact ⟨by decide, by decide⟩
        exact ⟨fun hl => by simp at hl, fun _ => h4 hnw⟩
    · exact absurd hs (by simp)
  | readerUnlock t =>
    simp only [LockSystem.step] at hs
    split at hs
    · rename_i hc
      simp only [Option.some.injEq] at hs
      subst hs
      have hlen : (σ.readers.erase t).length = σ.readers.length - 1 :=
        List.length_erase_of_mem hc.2
      exact ⟨fun hl => by simp at hl, fun hl => by simp only [hlen] at hl; omega⟩
    · exact absurd hs (by simp)
  | writerLock t =>
    simp only [LockSystem.step, ReaderWriterLock.WriterLock_enter] at hs
    split at hs
    · exact absurd hs (by simp)
    · split at hs <;> simp only [Option.some.injEq] at hs <;> subst hs
      · rename_i hc
        exact ⟨fun _ => hzero hc.2, fun hl => by simp at hl⟩
      · exact ⟨fun hl => by simp at hl, fun hl => by simp at hl⟩
  | writerWake t =>
    simp only [LockSystem.step, ReaderWriterLock.WriterLock_wake] at hs
    split at hs
    · split at hs <;> simp only [Option.some.injEq] at hs <;> subst hs
      · exact ⟨fun hl => by simp at hl, fun hl => by simp at hl⟩
      · rename_i hc
        have hU : σ.lock.lock_state_ = .Unlocked := by
          by_contra hne
          exact hc (Or.inl hne)
        exact ⟨fun _ => hzero hU, fun hl => by simp at hl⟩
    · exact absurd hs (by simp)
  | writerUnlock t =>
    simp only [LockSystem.step] at hs
    split at hs
    · rename_i hc
      simp only [Option.some.injEq] at hs
      subst hs
      have hlen : (σ.writers.erase t).length = σ.writers.length - 1 :=
        List.length_erase_of_mem hc.2
      exact ⟨fun hl => by simp only [hlen] at hl; omega, fun hl => by simp at hl⟩
    · exact absurd hs (by simp)

/-- Effect of one step on the queue of waiters: without a grant the queue is unchanged or
grows at the back; a grant either finds the queue empty and leaves it so (the request was
never queued) or removes the granted thread from the front. -/
theorem LockSystem.step_queue (σ next : LockSystem) (ev : LockEvent)
    (hs : σ.step ev = some next) :
    (σ.granted ev = none ∧
      (next.lock.waiting_threads_ = σ.lock.waiting_threads_ ∨
        ∃ x, next.lock.waiting_threads_ = σ.lock.waiting_threads_ ++ [x])) ∨
    (∃ t, σ.granted ev = some t ∧
      ((σ.lock.waiting_threads_ = [] ∧ next.lock.waiting_threads_ = [] ∧
          (ev = .readerLock t ∨ ev = .writerLock t)) ∨
        (∃ kind, σ.lock.waiting_threads_ = (t, kind) :: next.lock.waiting_threads_ ∧
          (ev = .readerWake t ∨ ev = .writerWake t)))) := by
  cases ev with
  | readerLock t =>
    simp only [LockSystem.step, ReaderWriterLock.ReaderLock_enter] at hs
    split at hs
    · exact absurd hs (by simp)
    · split at hs <;> simp only [Option.some.injEq] at hs <;> subst hs
      · rename_i hc
        right
        exact ⟨t, by simp [LockSystem.granted, ReaderWriterLock.ReaderLock_enter, hc],
          Or.inl ⟨hc.1, hc.1, Or.inl rfl⟩⟩
      · rename_i hc
        left
        exact ⟨by simp [LockSystem.granted, ReaderWriterLock.ReaderLock_enter, hc],
          Or.inr ⟨_, rfl⟩⟩
  | writerLock t =>
    simp only [LockSystem.step, ReaderWriterLock.WriterLock_enter] at hs
    split at hs
    · exact absurd hs (by simp)
    · split at hs <;> simp only [Option.some.injEq] at hs <;> subst hs
      · rename_i hc
        right
        exact ⟨t, by simp [LockSystem.granted, ReaderWriterLock.WriterLock_enter, hc],
          Or.inl ⟨hc.1, hc.1, Or.inr rfl⟩⟩
      · rename_i hc
        left
        exact ⟨by simp [LockSystem.granted, ReaderWriterLock.WriterLock_enter, hc],
          Or.inr ⟨_, rfl⟩⟩
  | readerWake t =>
    simp only [LockSystem.step, ReaderWriterLock.ReaderLock_wake] at hs
    split at hs
    · split at hs <;> simp only [Option.some.injEq] at hs <;> subst hs
      · rename_i hc
        left
        have hno : (σ.lock.ReaderLock_wake t).1 = false := by
          unfold ReaderWriterLock.ReaderLock_wake
          rw [if_pos hc]
        exact ⟨by simp [LockSystem.granted, hno], Or.inl rfl⟩
      · rename_i hc
        right
        have hyes : (σ.lock.ReaderLock_wake t).1 = true := by
          unfold ReaderWriterLock.ReaderLock_wake
          rw [if_neg hc]
        refine ⟨t, by simp [LockSystem.granted, hyes], Or.inr ?_⟩
        have hhead : σ.lock.waiting_threads_.head?.map Prod.fst = some t := by
          by_contra hne
          exact hc (Or.inr hne)
        cases hq : σ.lock.waiting_threads_ with
        | nil => simp [hq] at hhead
        | cons x rest =>
          rw [hq] at hhead
          simp only [List.head?_cons, Option.map_some', Option.some.injEq] at hhead
          exact ⟨x.2, by simp [← hhead], Or.inl rfl⟩
    · exact absurd hs (by simp)
  | writerWake t =>
    simp only [LockSystem.step, ReaderWriterLock.WriterLock_wake] at hs
    split at hs
    · split at hs <;> simp only [Option.some.injEq] at hs <;> subst hs
      · rename_i hc
        left
        have hno : (σ.lock.WriterLock_wake t).1 = false := by
          unfold ReaderWriterLock.WriterLock_wake
          rw [if_pos hc]
        exact ⟨by simp [LockSystem.granted, hno], Or.inl rfl⟩
      · rename_i hc
        right
        have hyes : (σ.lock.WriterLock_wake t).1 = true := by
          unfold ReaderWriterLock.WriterLock_wake
          rw [if_neg hc]
        refine ⟨t, by simp [LockSystem.granted, hyes], Or.inr ?_⟩
        have hhead : σ.lock.waiting_threads_.head?.map Prod.fst = some t := by
          by_contra hne
          exact hc (Or.inr hne)
        cases hq : σ.lock.waiting_threads_ with
        | nil => simp [hq] at hhead
        | cons x rest =>
          rw [hq] at hhead
          simp only [List.head?_cons, Option.map_some', Option.some.injEq] at hhead
          exact ⟨x.2, by simp [← hhead], Or.inr rfl⟩
    · exact absurd hs (by simp)
  | readerUnlock t =>
    simp only [LockSystem.step] at hs
    split at hs
    · simp only [Option.some.injEq] at hs
      subst hs
      left
      refine ⟨rfl, Or.inl ?_⟩
      simp only [ReaderWriterLock.ReaderUnlock]
      split_ifs <;> rfl
    · exact absurd hs (by simp)
  | writerUnlock t =>
    simp only [LockSystem.step] at hs
    split at hs
    · simp only [Option.some.injEq] at hs
      subst hs
      left
      exact ⟨rfl, Or.inl rfl⟩
    · exact absurd hs (by simp)

theorem LockSystem.grantsOf_order (evs : List LockEvent) (σ : LockSystem)
    (pre post : List (Nat × RWLockState)) (w : Nat) (k : RWLockState) (gs : List Nat)
    (hq : σ.lock.waiting_threads_ = pre ++ (w, k) :: post)
    (hrun : σ.grantsOf evs = some gs) :
    gs <+: pre.map Prod.fst ++ [w] ∨ pre.map Prod.fst ++ [w] <+: gs := by
  induction evs generalizing σ pre post gs with
  | nil =>
    simp only [LockSystem.grantsOf, Option.some.injEq] at hrun
    subst hrun
    exact Or.inl List.nil_prefix
  | cons e rest ih =>
    simp only [LockSystem.grantsOf] at hrun
    cases hstep : σ.step e with
    | none => simp [hstep] at hrun
    | some next =>
      rw [hstep] at hrun
      simp only [Option.some_bind, Option.map_eq_some'] at hrun
      obtain ⟨later, hlater, hgs⟩ := hrun
      rcases LockSystem.step_queue σ next e hstep with ⟨hnone, hsame | ⟨x, hpush⟩⟩ |
          ⟨t, hsome, ⟨hempty, -, -⟩ | ⟨kind, hpop, -⟩⟩
      · rw [hnone] at hgs
        subst hgs
        exact ih next pre post later (by rw [hsame, hq]) hlater
      · rw [hnone] at hgs
        subst hgs
        exact ih next pre (post ++ [x]) later (by rw [hpush, hq]; simp) hlater
      · rw [hq] at hempty
        simp at hempty
      · rw [hsome] at hgs
        subst hgs
        rw [hq] at hpop
        cases pre with
        | nil =>
          simp only [List.nil_append, List.cons.injEq, Prod.mk.injEq] at hpop
          obtain ⟨⟨rfl, -⟩, -⟩ := hpop
          right
          simp
        | cons x pre1 =>
          simp only [List.cons_append, List.cons.injEq] at hpop
          obtain ⟨rfl, hrest⟩ := hpop
          rcases ih next pre1 post later hrest.symm hlater with h | h
          · left
            simpa [List.cons_prefix_cons] using h
          · right
            simpa [List.cons_prefix_cons] using h

/-! ### The cyclic barrier -/

theorem parity_succ (n : Nat) : decide ((n + 1) % 2 = 1) = !decide (n % 2 = 1) := by
  rcases Nat.mod_two_eq_zero_or_one n with h | h <;> simp [Nat.add_mod, h]

theorem parity_ne (r f : Nat) (h : decide (r % 2 = 1) ≠ decide (f % 2 = 1)) : r ≠ f := by
  rintro rfl
  exact h rfl

theorem BarrierSystem.barrier_inv_init (C : Nat) (p : Bool) (hC : 1 ≤ C) :
    (BarrierSystem.init C p).Inv C := by
  simp [BarrierSystem.Inv, BarrierSystem.init, CyclicBarrier.mk_, BarrierSystem.flips, hC]

/-- The continuation of `PassThrough` from the loop test keeps the invariant, for a call
whose recorded flag and round agree and that can see the counter at zero only in its own
round. -/
theorem BarrierSystem.resume_inv (C : Nat) (σ : BarrierSystem) (t : Nat) (cur : Bool) (r : Nat)
    (hcap : σ.barrier.capacity_ = C)
    (hsum : σ.inRound + σ.barrier.num_threads_ = C)
    (hlast : σ.last = none) (hrel : σ.flips = σ.released)
    (hstate : σ.barrier.barrier_state_ = decide (σ.flips % 2 = 1))
    (hwait : ∀ w ∈ σ.waiters, w.2.2 ≤ σ.flips ∧ w.2.1 = decide (w.2.2 % 2 = 1))
    (hret : ∀ x ∈ σ.returned, x.2 < σ.released)
    (hgr : σ.released ≤ σ.grants)
    (hdone : ∀ n ∈ σ.completed, n = C)
    (hr : r ≤ σ.flips) (hcur : cur = decide (r % 2 = 1))
    (hzero : σ.barrier.num_threads_ = 0 → r = σ.flips)
    (hpos : cur ≠ σ.barrier.barrier_state_ → 1 ≤ σ.barrier.num_threads_) :
    (σ.resume t cur r).Inv C := by
  unfold BarrierSystem.resume CyclicBarrier.PassThrough_blocked
  by_cases h1 : cur = σ.barrier.barrier_state_
  · by_cases h2 : σ.barrier.num_threads_ = 0
    · have hrf : r = σ.flips := hzero h2
      have hin : σ.inRound = C := by omega
      simp only [h1, h2, beq_self_eq_true, bne_self_eq_false, Bool.and_false,
        Bool.false_eq_true, if_false, if_true]
      refine ⟨hcap, ?_, ?_, ?_, ?_, ?_, hret, hgr, ?_⟩
      · simp [CyclicBarrier.PassThrough_flip, hcap]
      · intro h
        exact absurd h (by simp)
      · intro t1 r1 h
        simp only [Option.some.injEq, Prod.mk.injEq] at h
        obtain ⟨-, rfl⟩ := h
        refine ⟨rfl, ?_, ?_, ?_, le_refl _, ?_⟩
        · simp [BarrierSystem.flips, hrf]
        · rw [← hrel, hrf]
        · exact hgr
        · intro h
          exact absurd h (by simp)
      · simp only [CyclicBarrier.PassThrough_flip, BarrierSystem.flips, List.length_append,
          List.length_singleton]
        rw [parity_succ, hstate]
        rfl
      · intro w hw
        obtain ⟨hw1, hw2⟩ := hwait w hw
        refine ⟨?_, hw2⟩
        simp only [BarrierSystem.flips, List.length_append, List.length_singleton]
        exact Nat.le_succ_of_le hw1
      · intro n hn
        rcases List.mem_append.mp hn with h | h
        · exact hdone n h
        · rw [List.mem_singleton] at h
          rw [h, hin]
    · have hb : (cur == σ.barrier.barrier_state_ && σ.barrier.num_threads_ != 0) = true := by
        simp [h1, h2]
      rw [if_pos hb]
      refine ⟨hcap, hsum, fun _ => ⟨Nat.pos_of_ne_zero h2, hrel⟩, ?_, hstate, ?_, hret, hgr, hdone⟩
      · intro t1 r1 h
        rw [hlast] at h
        exact absurd h (by simp)
      · intro w hw
        rcases List.mem_append.mp hw with h | h
        · exact hwait w h
        · rw [List.mem_singleton] at h
          subst h
          exact ⟨hr, hcur⟩
  · have hb : ¬ (cur == σ.barrier.barrier_state_ && σ.barrier.num_threads_ != 0) = true := by
      simp [h1]
    rw [if_neg hb, if_neg h1]
    have hne : r ≠ σ.flips := by
      apply parity_ne
      rw [← hcur, ← hstate]
      exact h1
    refine ⟨hcap, hsum, fun _ => ⟨hpos h1, hrel⟩, ?_, hstate, hwait, ?_, hgr, hdone⟩
    · intro t1 r1 h
      rw [hlast] at h
      exact absurd h (by simp)
    · intro x hx
      rcases List.mem_append.mp hx with h | h
      · exact hret x h
      · rw [List.mem_singleton] at h
        subst h
        show r < σ.released
        omega

theorem BarrierSystem.barrier_step_inv (C : Nat) (σ next : BarrierSystem) (ev : BarrierEvent)
    (hC : 1 ≤ C) (h : σ.Inv C) (hs : σ.step ev = some next) : next.Inv C := by
  obtain ⟨h1, h2, h3, h4, h5, h6, h7, h8, h9⟩ := h
  cases ev with
  | arrive t =>
    simp only [BarrierSystem.step] at hs
    split at hs
    · exact absurd hs (by simp)
    · rename_i hg
      simp only [Option.some.injEq] at hs
      subst hs
      have hlast : σ.last = none := by
        cases hl : σ.last with
        | none => rfl
        | some x => exact absurd (Or.inl (by simp [hl])) hg
      obtain ⟨hnum, hrel⟩ := h3 hlast
      have hne : σ.barrier.num_threads_ ≠ 0 := by omega
      apply BarrierSystem.resume_inv C
      · exact h1
      · show σ.inRound + 1 + (if σ.barrier.num_threads_ = 0 then 2 ^ 64 - 1
            else σ.barrier.num_threads_ - 1) = C
        rw [if_neg hne]
        omega
      · exact hlast
      · exact hrel
      · exact h5
      · exact h6
      · exact h7
      · exact h8
      · exact h9
      · exact le_refl _
      · exact h5
      · intro _
        rfl
      · intro hcon
        exact absurd rfl hcon
  | wake t =>
    simp only [BarrierSystem.step] at hs
    split at hs
    · exact absurd hs (by simp)
    · rename_i hg
      have hlast : σ.last = none := by
        cases hl : σ.last with
        | none => rfl
        | some x => exact absurd (by simp [hl]) hg
      obtain ⟨hnum, hrel⟩ := h3 hlast
      split at hs
      · exact absurd hs (by simp)
      · rename_i w hw
        simp only [Option.some.injEq] at hs
        subst hs
        have hmem : w ∈ σ.waiters := List.mem_of_find?_eq_some hw
        obtain ⟨hw1, hw2⟩ := h6 w hmem
        apply BarrierSystem.resume_inv C
        · exact h1
        · exact h2
        · exact hlast
        · exact hrel
        · exact h5
        · intro x hx
          exact h6 x (List.mem_of_mem_erase hx)
        · exact h7
        · exact h8
        · exact h9
        · exact hw1
        · exact hw2
        · intro hz
          exact absurd hz (by show σ.barrier.num_threads_ ≠ 0; omega)
        · intro _
          exact hnum
  | grant =>
    simp only [BarrierSystem.step, Option.some.injEq] at hs
    subst hs
    refine ⟨h1, h2, h3, ?_, h5, h6, h7, Nat.le_succ_of_le h8, h9⟩
    intro t r hl
    obtain ⟨a1, a2, a3, a4, a5, -⟩ := h4 t r hl
    exact ⟨a1, a2, a3, a4, Nat.le_succ_of_le a5, fun _ => Nat.lt_succ_of_le a5⟩
  | handshake t =>
    simp only [BarrierSystem.step] at hs
    split at hs
    · exact absurd hs (by simp)
    · rename_i u r hl
      split at hs
      · exact absurd hs (by simp)
      · split at hs
        · simp only [Option.some.injEq] at hs
          subst hs
          exact ⟨h1, h2, h3, h4, h5, h6, h7, h8, h9⟩
        · rename_i hperm
          simp only [Option.some.injEq] at hs
          subst hs
          have hp : σ.permission_ = true := by
            cases hq : σ.permission_ with
            | true => rfl
            | false => exact absurd (by simp [hq]) hperm
          obtain ⟨a1, a2, a3, a4, a5, a6⟩ := h4 u r hl
          have a7 := a6 hp
          refine ⟨h1, h2, fun _ => ⟨?_, ?_⟩, ?_, h5, h6, ?_, ?_, h9⟩
          · show 1 ≤ σ.barrier.num_threads_
            omega
          · show σ.flips = σ.released + 1
            omega
          · intro t1 r1 hcon
            exact absurd hcon (by simp)
          · intro x hx
            rcases List.mem_append.mp hx with hx1 | hx1
            · exact Nat.lt_succ_of_lt (h7 x hx1)
            · rw [List.mem_singleton] at hx1
              subst hx1
              show r < σ.released + 1
              omega
          · show σ.released + 1 ≤ σ.grants
            omega

theorem BarrierSystem.barrier_run_inv (C : Nat) (evs : List BarrierEvent) (σ final : BarrierSystem)
    (hC : 1 ≤ C) (h : σ.Inv C) (hr : σ.run evs = some final) : final.Inv C := by
  induction evs generalizing σ with
  | nil =>
    simp only [BarrierSystem.run, Option.some.injEq] at hr
    subst hr
    exact h
  | cons e rest ih =>
    simp only [BarrierSystem.run] at hr
    cases hstep : σ.step e with
    | none => simp [hstep] at hr
    | some mid =>
      rw [hstep] at hr
      exact ih mid (BarrierSystem.barrier_step_inv C σ mid e hC h hstep) hr

theorem BarrierSystem.arrive_facts (C : Nat) (σ next : BarrierSystem) (t : Nat)
    (h : σ.Inv C) (hs : σ.step (.arrive t) = some next) :
    (σ.inRound + 1 < C →
      next.returned = σ.returned ∧ next.last = none ∧ next.completed = σ.completed ∧
      (t, σ.barrier.barrier_state_, σ.flips) ∈ next.waiters) ∧
    (¬ σ.inRound + 1 < C →
      σ.inRound + 1 = C ∧ next.returned = σ.returned ∧ next.last = some (t, σ.flips) ∧
      next.permission_ = false ∧ next.barrier.num_threads_ = C ∧
      next.barrier.barrier_state_ = (!σ.barrier.barrier_state_) ∧
      next.completed = σ.completed ++ [C]) := by
  obtain ⟨h1, h2, h3, h4, h5, h6, h7, h8, h9⟩ := h
  simp only [BarrierSystem.step] at hs
  split at hs
  · exact absurd hs (by simp)
  · rename_i hg
    simp only [Option.some.injEq] at hs
    subst hs
    have hlast : σ.last = none := by
      cases hl : σ.last with
      | none => rfl
      | some x => exact absurd (Or.inl (by simp [hl])) hg
    obtain ⟨hnum, hrel⟩ := h3 hlast
    have hne : σ.barrier.num_threads_ ≠ 0 := by omega
    unfold BarrierSystem.resume CyclicBarrier.PassThrough_blocked CyclicBarrier.PassThrough_arrive
    simp only [if_neg hne, beq_self_eq_true, Bool.true_and]
    constructor
    · intro hlt
      have hb : (σ.barrier.num_threads_ - 1 != 0) = true := by
        simp only [bne_iff_ne, ne_eq]
        omega
      rw [if_pos hb]
      exact ⟨rfl, hlast, rfl, by simp⟩
    · intro hge
      have hb : ¬ (σ.barrier.num_threads_ - 1 != 0) = true := by
        simp only [bne_iff_ne, ne_eq, not_not]
        omega
      rw [if_neg hb, if_pos trivial]
      have hin : σ.inRound + 1 = C := by omega
      refine ⟨hin, rfl, rfl, rfl, ?_, rfl, ?_⟩
      · simp [CyclicBarrier.PassThrough_flip, h1]
      · show σ.completed ++ [σ.inRound + 1] = σ.completed ++ [C]
        rw [hin]

theorem BarrierSystem.wake_facts (C : Nat) (σ next : BarrierSystem) (t : Nat)
    (h : σ.Inv C) (hs : σ.step (.wake t) = some next) :
    next.completed = σ.completed ∧ next.last = none ∧
    (next.returned = σ.returned ∨
      ∃ w ∈ σ.waiters, w.1 = t ∧ w.2.2 < σ.released ∧
        next.returned = σ.returned ++ [(t, w.2.2)]) := by
  obtain ⟨h1, h2, h3, h4, h5, h6, h7, h8, h9⟩ := h
  simp only [BarrierSystem.step] at hs
  split at hs
  · exact absurd hs (by simp)
  · rename_i hg
    have hlast : σ.last = none := by
      cases hl : σ.last with
      | none => rfl
      | some x => exact absurd (by simp [hl]) hg
    obtain ⟨hnum, hrel⟩ := h3 hlast
    split at hs
    · exact absurd hs (by simp)
    · rename_i w hw
      simp only [Option.some.injEq] at hs
      subst hs
      have hmem : w ∈ σ.waiters := List.mem_of_find?_eq_some hw
      have hwt : w.1 = t := by simpa using List.find?_some hw
      obtain ⟨hw1, hw2⟩ := h6 w hmem
      unfold BarrierSystem.resume CyclicBarrier.PassThrough_blocked
      by_cases hc : w.2.1 = σ.barrier.barrier_state_
      · have hb : (w.2.1 == σ.barrier.barrier_state_ && σ.barrier.num_threads_ != 0) = true := by
          simp only [hc, beq_self_eq_true, Bool.true_and, bne_iff_ne, ne_eq]
          omega
        rw [if_pos hb]
        exact ⟨rfl, hlast, Or.inl rfl⟩
      · have hb : ¬ (w.2.1 == σ.barrier.barrier_state_ && σ.barrier.num_threads_ != 0) = true := by
          simp [hc]
        rw [if_neg hb, if_neg hc]
        have hne : w.2.2 ≠ σ.flips := by
          apply parity_ne
          rw [← hw2, ← h5]
          exact hc
        exact ⟨rfl, hlast, Or.inr ⟨w, hmem, hwt, by omega, rfl⟩⟩

theorem BarrierSystem.handshake_facts (C : Nat) (σ next : BarrierSystem) (t : Nat)
    (h : σ.Inv C) (hs : σ.step (.handshake t) = some next) :
    (σ.permission_ = false → next = σ) ∧
    (σ.permission_ = true →
      ∃ r, σ.last = some (t, r) ∧ σ.grantsAtClear < σ.grants ∧
        next.returned = σ.returned ++ [(t, r)] ∧ next.barrier.num_threads_ = C ∧
        next.flips = r + 1 ∧ next.released = r + 1 ∧ next.last = none ∧
        next.completed = σ.completed) := by
  obtain ⟨h1, h2, h3, h4, h5, h6, h7, h8, h9⟩ := h
  simp only [BarrierSystem.step] at hs
  split at hs
  · exact absurd hs (by simp)
  · rename_i u r hl
    split at hs
    · exact absurd hs (by simp)
    · rename_i hu
      have hut : u = t := by
        by_contra hne
        exact hu hne
      subst hut
      obtain ⟨a1, a2, a3, a4, a5, a6⟩ := h4 u r hl
      split at hs
      · rename_i hperm
        simp only [Option.some.injEq] at hs
        subst hs
        refine ⟨fun _ => rfl, fun hp => ?_⟩
        rw [hp] at hperm
        exact absurd hperm (by simp)
      · rename_i hperm
        simp only [Option.some.injEq] at hs
        subst hs
        constructor
        · intro hp
          rw [hp] at hperm
          exact absurd rfl hperm
        · intro hp
          refine ⟨r, hl, a6 hp, rfl, ?_, a2, ?_, rfl, rfl⟩
          · show σ.barrier.num_threads_ = C
            omega
          · show σ.released + 1 = r + 1
            omega

theorem BarrierSystem.released_le_flips (C : Nat) (σ : BarrierSystem) (h : σ.Inv C) :
    σ.released ≤ σ.completed.length := by
  obtain ⟨-, -, h3, h4, -⟩ := h
  cases hl : σ.last with
  | none =>
    have := (h3 hl).2
    unfold BarrierSystem.flips at this
    omega
  | some x =>
    obtain ⟨-, a2, a3, -⟩ := h4 x.1 x.2 hl
    unfold BarrierSystem.flips at a2
    omega

/-! ### The 2 x 2 block -/

theorem succ_wrap (i n : Nat) (hi : i < n) :
    (((i : Int) + 1) % (n : Int)).toNat = if i + 1 = n then 0 else i + 1 := by
  by_cases h : i + 1 = n
  · rw [if_pos h]
    have : ((i : Int) + 1) = (n : Int) := by exact_mod_cast h
    rw [this, Int.emod_self]
    rfl
  · rw [if_neg h, Int.emod_eq_of_lt (by omega) (by omega)]
    omega

theorem pred_wrap (i n : Nat) (hi : i < n) :
    (((i : Int) - 1) % (n : Int)).toNat = if i = 0 then n - 1 else i - 1 := by
  by_cases h : i = 0
  · subst h
    rw [if_pos rfl]
    have e : ((0 : Nat) : Int) - 1 = ((n - 1 : Nat) : Int) + (-1) * (n : Int) := by
      push_cast
      omega
    rw [e, Int.add_mul_emod_self, Int.emod_eq_of_lt (by omega) (by omega)]
    rfl
  · rw [if_neg h, Int.emod_eq_of_lt (by omega) (by omega)]
    omega

theorem nat_succ_mod (a n : Nat) (ha : a < n) : (a + 1) % n = if a + 1 = n then 0 else a + 1 := by
  by_cases h : a + 1 = n
  · rw [if_pos h, h, Nat.mod_self]
  · rw [if_neg h, Nat.mod_eq_of_lt (by omega)]

/-- On an axis of length at least 3, an index and its two cyclic neighbours meet the two
indices of a block at most twice, and exactly twice when the index itself is one of
them. -/
theorem blockHit_three (n a i : Nat) (hn : 3 ≤ n) (ha : a < n) (hi : i < n) :
    (blockSpan n a i = 0 ∨ blockSpan n a i = 1 ∨ blockSpan n a i = 2) ∧
    (blockHit n a i = 1 → blockSpan n a i = 2) ∧
    (blockHit n a i = 0 ∨ blockHit n a i = 1) := by
  unfold blockSpan blockHit
  rw [nat_succ_mod a n ha]
  split_ifs
  all_goals simp only [or_false, false_or, or_true, true_or, not_true_eq_false] at *
  all_goals first
    | omega
    | exact ⟨by omega, fun _ => by omega, by first | omega | simp⟩

theorem cellAt_blockGrid (H W a b i j : Nat) (hi : i < H) (hj : j < W) :
    cellAt (blockGrid H W a b) i j = blockHit H a i * blockHit W b j := by
  unfold cellAt blockGrid
  simp only [List.getD_eq_getElem?_getD]
  rw [List.getElem?_map, List.getElem?_range hi]
  simp only [Option.map_some', Option.getD_some]
  rw [List.getElem?_map, List.getElem?_range hj]
  rfl

theorem blockGrid_rect (H W a b : Nat) : Rect (blockGrid H W a b) H W := by
  refine ⟨by simp [blockGrid], ?_⟩
  intro row hrow
  simp only [blockGrid, List.mem_map, List.mem_range] at hrow
  obtain ⟨i, -, rfl⟩ := hrow
  rw [List.length_map, List.length_range]

theorem blockHit_binary (n a k : Nat) : blockHit n a k = 0 ∨ blockHit n a k = 1 := by
  unfold blockHit
  split_ifs
  · exact Or.inr rfl
  · exact Or.inl rfl

theorem blockGrid_binary (H W a b : Nat) : Binary (blockGrid H W a b) := by
  intro row hrow c hc
  simp only [blockGrid, List.mem_map, List.mem_range] at hrow
  obtain ⟨i, -, rfl⟩ := hrow
  simp only [List.mem_map, List.mem_range] at hc
  obtain ⟨j, -, rfl⟩ := hc
  rcases blockHit_binary H a i with h1 | h1 <;> rcases blockHit_binary W b j with h2 | h2 <;>
    simp [h1, h2]

theorem blockGrid_neighborSum (H W a b i j : Nat) (hi : i < H) (hj : j < W) :
    RuleEvaluator.neighborSum (blockGrid H W a b) H W (i : Int) (j : Int)
      = blockSpan H a i * blockSpan W b j - blockHit H a i * blockHit W b j := by
  have hiu : (if i + 1 = H then 0 else i + 1) < H := by split_ifs <;> omega
  have hid : (if i = 0 then H - 1 else i - 1) < H := by split_ifs <;> omega
  have hju : (if j + 1 = W then 0 else j + 1) < W := by split_ifs <;> omega
  have hjd : (if j = 0 then W - 1 else j - 1) < W := by split_ifs <;> omega
  simp only [RuleEvaluator.neighborSum, RuleEvaluator.torus, succ_wrap i H hi, pred_wrap i H hi,
    succ_wrap j W hj, pred_wrap j W hj, CyclicVector.emod_toNat_of_lt i H hi,
    CyclicVector.emod_toNat_of_lt j W hj]
  rw [cellAt_blockGrid H W a b _ _ hid hjd, cellAt_blockGrid H W a b _ _ hid hj,
    cellAt_blockGrid H W a b _ _ hid hju, cellAt_blockGrid H W a b _ _ hi hjd,
    cellAt_blockGrid H W a b _ _ hi hju, cellAt_blockGrid H W a b _ _ hiu hjd,
    cellAt_blockGrid H W a b _ _ hiu hj, cellAt_blockGrid H W a b _ _ hiu hju]
  unfold blockSpan
  ring

theorem blockGrid_sums (H W a b i j : Nat) (hH : 3 ≤ H) (hW : 3 ≤ W) (ha : a < H) (hb : b < W)
    (hi : i < H) (hj : j < W) :
    (cellAt (blockGrid H W a b) i j = 1 →
      RuleEvaluator.neighborSum (blockGrid H W a b) H W (i : Int) (j : Int) = 3) ∧
    (cellAt (blockGrid H W a b) i j = 0 →
      RuleEvaluator.neighborSum (blockGrid H W a b) H W (i : Int) (j : Int) ≠ 3) ∧
    (cellAt (blockGrid H W a b) i j = 0 ∨ cellAt (blockGrid H W a b) i j = 1) := by
  obtain ⟨r1, r2, r3⟩ := blockHit_three H a i hH ha hi
  obtain ⟨c1, c2, c3⟩ := blockHit_three W b j hW hb hj
  rw [blockGrid_neighborSum H W a b i j hi hj, cellAt_blockGrid H W a b i j hi hj]
  rcases r3 with hr | hr <;> rcases c3 with hc | hc
  · refine ⟨fun h => by simp [hr] at h, fun _ => ?_, Or.inl (by simp [hr])⟩
    rcases r1 with e1 | e1 | e1 <;> rcases c1 with e2 | e2 | e2 <;> rw [e1, e2, hr] <;>
      norm_num
  · refine ⟨fun h => by simp [hr] at h, fun _ => ?_, Or.inl (by simp [hr])⟩
    rcases r1 with e1 | e1 | e1 <;> rcases c1 with e2 | e2 | e2 <;> rw [e1, e2, hr] <;>
      norm_num
  · refine ⟨fun h => by simp [hc] at h, fun _ => ?_, Or.inl (by simp [hc])⟩
    rcases r1 with e1 | e1 | e1 <;> rcases c1 with e2 | e2 | e2 <;> rw [e1, e2, hc] <;>
      norm_num
  · refine ⟨fun _ => ?_, fun h => by simp [hr, hc] at h, Or.inr (by simp [hr, hc])⟩
    rw [r2 hr, c2 hc, hr, hc]
    decide

/-- An index of the block with its two cyclic neighbours meets the block three times on an
axis of length 2 (both neighbours are the other index) and twice on a longer axis. -/
theorem blockSpan_self (n a : Nat) (hn : 2 ≤ n) (ha : a < n) :
    blockHit n a a = 1 ∧ blockSpan n a a = if n = 2 then 3 else 2 := by
  unfold blockSpan blockHit
  rw [nat_succ_mod a n ha]
  split_ifs
  all_goals simp only [or_false, false_or, or_true, true_or, not_true_eq_false] at *
  all_goals first
    | omega
    | exact ⟨trivial, rfl⟩

theorem blockGrid_corner (H W a b : Nat) (hH : 2 ≤ H) (hW : 2 ≤ W) (ha : a < H) (hb : b < W) :
    cellAt (blockGrid H W a b) a b = 1 ∧
    RuleEvaluator.neighborSum (blockGrid H W a b) H W (a : Int) (b : Int)
      = (if H = 2 then 3 else 2) * (if W = 2 then 3 else 2) - 1 := by
  obtain ⟨r1, r2⟩ := blockSpan_self H a hH ha
  obtain ⟨c1, c2⟩ := blockSpan_self W b hW hb
  rw [blockGrid_neighborSum H W a b a b ha hb, cellAt_blockGrid H W a b a b ha hb, r1, c1,
    r2, c2]
  refine ⟨rfl, ?_⟩
  split_ifs <;> rfl

theorem blockGrid_unstable (H W a b : Nat) (hH : 2 ≤ H) (hW : 2 ≤ W) (ha : a < H) (hb : b < W)
    (h2 : H = 2 ∨ W = 2) :
    (RuleEvaluator.neighborSum (blockGrid H W a b) H W (a : Int) (b : Int) = 5 ∨
      RuleEvaluator.neighborSum (blockGrid H W a b) H W (a : Int) (b : Int) = 8) ∧
    RuleEvaluator.nextCell defaultRules (blockGrid H W a b) H W a b = 0 ∧
    RuleEvaluator.step defaultRules (blockGrid H W a b) ≠ blockGrid H W a b := by
  obtain ⟨hcell, hsum⟩ := blockGrid_corner H W a b hH hW ha hb
  have hs : RuleEvaluator.neighborSum (blockGrid H W a b) H W (a : Int) (b : Int) = 5 ∨
      RuleEvaluator.neighborSum (blockGrid H W a b) H W (a : Int) (b : Int) = 8 := by
    rw [hsum]
    by_cases e1 : H = 2 <;> by_cases e2 : W = 2
    · right; rw [if_pos e1, if_pos e2]; rfl
    · left; rw [if_pos e1, if_neg e2]; rfl
    · left; rw [if_neg e1, if_pos e2]; rfl
    · exact absurd h2 (by simp [e1, e2])
  have hnext : RuleEvaluator.nextCell defaultRules (blockGrid H W a b) H W a b = 0 := by
    unfold RuleEvaluator.nextCell RuleEvaluator.next
    rw [hcell]
    rcases hs with h | h <;> rw [h] <;> simp [defaultRules]
  refine ⟨hs, hnext, ?_⟩
  intro heq
  have hc := step_cell defaultRules (blockGrid_rect H W a b) a b ha hb
  rw [heq, hcell, hnext] at hc
  exact absurd hc (by decide)

theorem blockGrid_step (H W a b : Nat) (hH : 3 ≤ H) (hW : 3 ≤ W) (ha : a < H) (hb : b < W) :
    RuleEvaluator.step defaultRules (blockGrid H W a b) = blockGrid H W a b := by
  apply grid_ext (step_rect defaultRules (blockGrid_rect H W a b)) (blockGrid_rect H W a b)
  intro i j hi hj
  rw [step_cell defaultRules (blockGrid_rect H W a b) i j hi hj]
  obtain ⟨s1, s0, hbin⟩ := blockGrid_sums H W a b i j hH hW ha hb hi hj
  unfold RuleEvaluator.nextCell RuleEvaluator.next
  rcases hbin with h | h
  · have hs := s0 h
    rw [h]
    simp [defaultRules, hs]
  · have hs := s1 h
    rw [h, hs]
    simp [defaultRules]

/-! ### Update -/

theorem foldlM_preserves {α β : Type} (P : β → Prop) (f : β → α → Option β)
    (hstep : ∀ (x : β) (a : α) (y : β), f x a = some y → P x → P y)
    (l : List α) (b y : β) (hb : P b) (h : l.foldlM f b = some y) : P y := by
  induction l generalizing b with
  | nil =>
    simp only [List.foldlM_nil] at h
    cases h
    exact hb
  | cons a t ih =>
    rw [List.foldlM_cons] at h
    cases hfa : f b a with
    | none => rw [hfa] at h; cases h
    | some x =>
      rw [hfa] at h
      exact ih x (hstep b a x hfa hb) h

theorem CyclicVector.update_length {α : Type} (v w : List α) (i : Int) (f : α → Option α)
    (h : CyclicVector.update v i f = some w) : w.length = v.length := by
  unfold CyclicVector.update at h
  cases hk : CyclicVector.index v.length CyclicVector.depth i with
  | none => rw [hk] at h; cases h
  | some k =>
    rw [hk] at h
    simp only [Option.some_bind] at h
    cases hx : v[k]? with
    | none => rw [hx] at h; cases h
    | some x =>
      rw [hx] at h
      simp only [Option.some_bind] at h
      cases hy : f x with
      | none => rw [hy] at h; cases h
      | some y =>
        rw [hy] at h
        cases h
        simp

theorem Mpi.recvRow_length (g g1 : Grid) (j : Int) (count : Nat) (msg : List Int)
    (h : Mpi.GameOfLife.recvRow g j count msg = some g1) : g1.length = g.length := by
  unfold Mpi.GameOfLife.recvRow at h
  split_ifs at h
  exact CyclicVector.update_length g g1 j _ h

theorem Mpi.collectRows_length (borders : List Int) (inbox : Mpi.Inbox) (g g1 : Grid) (i : Nat)
    (h : Mpi.GameOfLife.collectRows borders inbox g i = some g1) : g1.length = g.length := by
  unfold Mpi.GameOfLife.collectRows at h
  cases hlo : borders[i]? with
  | none => rw [hlo] at h; cases h
  | some lo =>
    cases hhi : borders[i + 1]? with
    | none => rw [hlo, hhi] at h; cases h
    | some hi =>
      rw [hlo, hhi] at h
      simp only [Option.bind_eq_bind, Option.some_bind] at h
      refine foldlM_preserves (fun (x : Grid) => x.length = g.length) _ ?_ _ g g1 rfl h
      intro x a y hxy hx
      cases hf : CyclicVector.get x 0 with
      | none => rw [hf] at hxy; cases hxy
      | some first =>
        rw [hf] at hxy
        exact (Mpi.recvRow_length x y a _ _ hxy).trans hx

theorem Mpi.Running_flag (s : Mpi.GameOfLife) (inbox : Mpi.Inbox) :
    (s.Running inbox).2.running_ = (s.Running inbox).1 := by
  unfold Mpi.GameOfLife.Running
  by_cases h1 : (!s.running_) = true
  · rw [if_pos h1]
    simpa using h1
  · rw [if_neg h1]
    by_cases h2 : s.world_rank_ = 0
    · rw [if_pos h2]
    · rw [if_neg h2]

theorem Mpi.Running_field (s : Mpi.GameOfLife) (inbox : Mpi.Inbox) :
    (s.Running inbox).2.field_ = s.field_ := by
  obtain ⟨r, snt, h⟩ := Mpi.Running_fields s inbox
  rw [h]

theorem Mpi.Update_fresh (s : Mpi.GameOfLife) (inbox : Mpi.Inbox)
    (hf : s.field_ ≠ []) (hr : s.running_ = false) (hu : s.up_to_date_ = true) :
    s.Update inbox = some (true, s) := by
  unfold Mpi.GameOfLife.Update Mpi.GameOfLife.Running
  simp [hf, hr, hu]

theorem Mpi.Update_post (s s1 : Mpi.GameOfLife) (inbox : Mpi.Inbox)
    (h : s.Update inbox = some (true, s1)) :
    s1.field_ ≠ [] ∧ s1.running_ = false ∧ s1.up_to_date_ = true ∧
    s1.field_.length = s.field_.length := by
  unfold Mpi.GameOfLife.Update at h
  by_cases hf : s.field_ = []
  · rw [if_pos hf] at h
    cases h
  · rw [if_neg hf] at h
    have hflag := Mpi.Running_flag s inbox
    have hfield := Mpi.Running_field s inbox
    simp only at h
    by_cases ha : (s.Running inbox).1 = true
    · rw [if_pos ha] at h
      cases h
    · rw [if_neg ha] at h
      have hrun : (s.Running inbox).2.running_ = false := by
        rw [hflag]; simpa using ha
      by_cases hu : (s.Running inbox).2.up_to_date_ = true
      · rw [if_pos hu] at h
        cases h
        exact ⟨by rw [hfield]; exact hf, hrun, hu, by rw [hfield]⟩
      · rw [if_neg hu] at h
        by_cases h0 : (s.Running inbox).2.world_rank_ = 0
        · rw [if_pos h0] at h
          cases hfold : List.foldlM
              (Mpi.GameOfLife.collectRows
                ((s.Running inbox).2.sendAll .Update (.byte 1)).borders_ inbox)
              ((s.Running inbox).2.sendAll .Update (.byte 1)).field_
              ((s.Running inbox).2.sendAll .Update (.byte 1)).ranks with
          | none =>
            simp only [Option.bind_eq_bind] at h
            rw [hfold] at h
            cases h
          | some field =>
            simp only [Option.bind_eq_bind] at h
            rw [hfold] at h
            simp only [Option.some_bind, Option.pure_def, Option.some.injEq, Prod.mk.injEq,
              true_and] at h
            have hlen : field.length = s.field_.length := by
              have := foldlM_preserves (fun (x : Grid) => x.length = s.field_.length) _
                (fun x a y hxy hx =>
                  (Mpi.collectRows_length _ inbox x y a hxy).trans hx)
                _ _ field (show ((s.Running inbox).2.sendAll .Update (.byte 1)).field_.length
                  = s.field_.length by
                    show (s.Running inbox).2.field_.length = _
                    rw [hfield]) hfold
              exact this
            subst h
            refine ⟨?_, hrun, rfl, hlen⟩
            intro hnil
            apply hf
            have h0len : s.field_.length = 0 := by
              rw [← hlen]
              show field.length = 0
              have : field = [] := hnil
              rw [this]; rfl
            exact List.length_eq_zero.mp h0len
        · rw [if_neg h0] at h
          simp only [Option.some.injEq, Prod.mk.injEq, true_and] at h
          subst h
          exact ⟨by show (s.Running inbox).2.field_ ≠ []; rw [hfield]; exact hf, hrun, rfl,
            by show (s.Running inbox).2.field_.length = _; rw [hfield]⟩

/-! ### The worker loop -/

theorem Mpi.SlaveRecv_keeps_sent_of_update (w w1 : Mpi.Worker) (rows : Int → List Int)
    (h : w.SlaveRecv (.update rows) = some w1) :
    w1.gol.sent = w.gol.sent ∧ w1.gol.running_ = w.gol.running_ ∧
    w1.gol.iterations_count_ = w.gol.iterations_count_ := by
  simp only [Mpi.Worker.SlaveRecv, Option.bind_eq_bind, Option.bind_eq_some, Option.pure_def,
    Option.some.injEq] at h
  obtain ⟨lo, _, hi, _, field, _, rfl⟩ := h
  exact ⟨rfl, rfl, rfl⟩

theorem Mpi.SlaveRecv_not_run (w w1 : Mpi.Worker) (m : Mpi.Incoming)
    (hm : Mpi.Worker.Incoming.isRun m = false) (h : w.SlaveRecv m = some w1) :
    w1.gol.running_ = w.gol.running_ ∧
    w1.gol.iterations_count_ = w.gol.iterations_count_ ∧
    (Mpi.Worker.stopAck ∉ w.gol.sent → Mpi.Worker.stopAck ∉ w1.gol.sent) := by
  cases m with
  | running =>
    simp only [Mpi.Worker.SlaveRecv, Option.some.injEq] at h
    subst h
    refine ⟨rfl, rfl, fun hn => ?_⟩
    simp only [List.mem_append, List.mem_singleton, not_or]
    exact ⟨hn, by simp [Mpi.Worker.stopAck]⟩
  | run n => simp [Mpi.Worker.Incoming.isRun] at hm
  | stop M =>
    simp only [Mpi.Worker.SlaveRecv, Option.some.injEq] at h
    subst h
    refine ⟨rfl, rfl, fun hn => ?_⟩
    simp only [List.mem_append, List.mem_singleton, not_or]
    exact ⟨hn, by simp [Mpi.Worker.stopAck]⟩
  | update rows =>
    obtain ⟨h1, h2, h3⟩ := Mpi.SlaveRecv_keeps_sent_of_update w w1 rows h
    exact ⟨h2, h3, fun hn => by rw [h1]; exact hn⟩
  | quit =>
    simp only [Mpi.Worker.SlaveRecv, Option.some.injEq] at h
    subst h
    exact ⟨rfl, rfl, fun hn => hn⟩
  | border source row =>
    simp only [Mpi.Worker.SlaveRecv, Option.bind_eq_bind, Option.pure_def] at h
    split_ifs at h with h0
    · simp at h
    · simp only [Option.bind_eq_some] at h
      obtain ⟨_, _, first, _, right, _, h⟩ := h
      split_ifs at h
      · simp only [Option.bind_eq_some, Option.some.injEq] at h
        obtain ⟨hi, _, field, _, rfl⟩ := h
        exact ⟨rfl, rfl, fun hn => hn⟩
      · simp only [Option.bind_eq_some] at h
        obtain ⟨left, _, h⟩ := h
        split_ifs at h
        simp only [Option.bind_eq_some, Option.some.injEq] at h
        obtain ⟨lo, _, field, _, rfl⟩ := h
        exact ⟨rfl, rfl, fun hn => hn⟩

theorem Mpi.loop_stopped (fuel : Nat) (w w2 : Mpi.Worker) (msgs : List Mpi.Incoming)
    (ph : Mpi.Phase) (hr : w.gol.running_ = false)
    (hack : Mpi.Worker.stopAck ∉ w.gol.sent)
    (hmsgs : ∀ m ∈ msgs, Mpi.Worker.Incoming.isRun m = false)
    (h : w.loop fuel msgs = some (ph, w2)) :
    w2.gol.running_ = false ∧ w2.gol.iterations_count_ = w.gol.iterations_count_ ∧
    Mpi.Worker.stopAck ∉ w2.gol.sent ∧ ph ≠ .halo := by
  induction fuel generalizing w msgs with
  | zero => simp [Mpi.Worker.loop] at h
  | succ n ih =>
    unfold Mpi.Worker.loop at h
    by_cases hq : w.quit = true
    · rw [if_pos hq] at h
      simp only [Option.some.injEq, Prod.mk.injEq] at h
      obtain ⟨rfl, rfl⟩ := h
      exact ⟨hr, rfl, hack, by decide⟩
    · rw [if_neg hq] at h
      have hc : ¬ ((w.gol.running_ &&
          decide (w.gol.iterations_count_ < w.gol.desired_iterations_count_)) = true) := by
        simp [hr]
      rw [if_neg hc] at h
      cases msgs with
      | nil =>
        simp only [Option.some.injEq, Prod.mk.injEq] at h
        obtain ⟨rfl, rfl⟩ := h
        exact ⟨hr, rfl, hack, by decide⟩
      | cons m rest =>
        simp only at h
        cases hs : w.SlaveRecv m with
        | none => rw [hs] at h; cases h
        | some w1 =>
          rw [hs] at h
          obtain ⟨k1, k2, k3⟩ := Mpi.SlaveRecv_not_run w w1 m (hmsgs m (by simp)) hs
          obtain ⟨r1, r2, r3, r4⟩ := ih w1 rest (by rw [k1]; exact hr) (k3 hack)
            (fun x hx => hmsgs x (List.mem_cons_of_mem _ hx)) h
          exact ⟨r1, by rw [r2, k2], r3, r4⟩

/-! ### BroadcastField -/

theorem Mpi.cyclic_row {g : Grid} {H W : Nat} (hg : Rect g H W) (hH : 1 ≤ H) (j : Int) :
    ∃ row, CyclicVector.get g j = some row ∧ row.length = W := by
  have hlen : g.length = H := hg.1
  have hk : (j % (H : Int)).toNat < H := CyclicVector.emod_toNat_lt j H hH
  refine ⟨g.getD (j % (H : Int)).toNat [], ?_, hg.row_length _ hk⟩
  rw [CyclicVector.get_eq g j (by omega), hlen]
  exact hg.getElem? _ hk

theorem Mpi.sendPart_ok (s : Mpi.GameOfLife) (H W i : Nat) (lo hi : Int)
    (hg : Rect s.field_ H W) (hH : 1 ≤ H)
    (hlo : s.borders_[i]? = some lo) (hhi : s.borders_[i + 1]? = some hi) :
    ∃ snt, s.sendPart i = some { s with sent := snt } := by
  obtain ⟨first, hfirst, hflen⟩ := Mpi.cyclic_row hg hH 0
  unfold Mpi.GameOfLife.sendPart
  simp only [hlo, hhi, hfirst, Option.bind_eq_bind, Option.some_bind]
  obtain ⟨y, hy, snt, hsnt⟩ := foldlM_invariant
    (fun (_ : List Int) (acc : Mpi.GameOfLife) => ∃ snt, acc = { s with sent := snt })
    (fun (acc : Mpi.GameOfLife) (j : Int) => do
      let row ← CyclicVector.get acc.field_ j
      if row.length < first.length then none
      pure { acc with sent := acc.sent ++
        [{ dest := i, tag := .Field, payload := .row (row.take first.length) }] })
    (intRange (lo - 1) (hi + 1)) []
    { s with sent := s.sent ++
        [{ dest := i, tag := .FieldSize, payload := .size (hi - lo + 2) (first.length : Int) }] }
    ⟨_, rfl⟩
    (by
      intro p j x _ hx
      obtain ⟨snt, rfl⟩ := hx
      obtain ⟨row, hrow, hrlen⟩ := Mpi.cyclic_row hg hH j
      refine ⟨{ s with sent := snt ++
        [{ dest := i, tag := .Field, payload := .row (row.take first.length) }] }, ?_, _, rfl⟩
      simp [hrow, hrlen, hflen])
  rw [hsnt] at hy
  exact ⟨snt, hy⟩

theorem Mpi.BroadcastField_eq (s : Mpi.GameOfLife) (inbox : Mpi.Inbox) (H W ws : Nat)
    (hH : 1 ≤ H) (hws : 1 ≤ ws) (hrank : s.world_rank_ = 0) (hsize : s.world_size_ = ws)
    (hb : s.borders_ = []) (hg : Rect s.field_ H W) :
    ∃ snt, s.BroadcastField inbox = some
      { s with process_ := s.process_ ++ (List.range' 1 (ws - 1)).map fun (i : Nat) => (i : Int),
               borders_ := (List.range (ws + 1)).map fun k => (boundary H ws k : Int),
               sent := snt } := by
  subst hsize
  have hlen : s.field_.length = H := hg.1
  unfold Mpi.GameOfLife.BroadcastField
  simp only [hrank, if_true, Option.bind_eq_bind, Mpi.GameOfLife.sendAll, Mpi.GameOfLife.ranks,
    hb, hlen, bordersLoop_eq H s.world_size_ (by omega), Option.some_bind]
  obtain ⟨y, hy, snt, hsnt⟩ := foldlM_invariant
    (fun (_ : List Nat) (acc : Mpi.GameOfLife) => ∃ snt, acc =
      { s with process_ := s.process_ ++
                 (List.range' 1 (s.world_size_ - 1)).map fun (i : Nat) => (i : Int),
               borders_ := (List.range (s.world_size_ + 1)).map
                 fun k => (boundary H s.world_size_ k : Int),
               sent := snt })
    Mpi.GameOfLife.sendPart (List.range' 1 (s.world_size_ - 1)) []
    { s with process_ := s.process_ ++
               (List.range' 1 (s.world_size_ - 1)).map fun (i : Nat) => (i : Int),
             borders_ := (List.range (s.world_size_ + 1)).map
               fun k => (boundary H s.world_size_ k : Int),
             sent := s.sent ++ (List.range' 1 (s.world_size_ - 1)).map fun i =>
               { dest := i, tag := .Start, payload := .byte 1 } }
    ⟨_, rfl⟩
    (by
      intro p i x hi hx
      obtain ⟨snt, rfl⟩ := hx
      have hi2 : 1 ≤ i ∧ i < s.world_size_ := by
        rw [List.mem_range'_1] at hi
        omega
      obtain ⟨snt1, h1⟩ := Mpi.sendPart_ok
        { s with process_ := s.process_ ++
                   (List.range' 1 (s.world_size_ - 1)).map fun (i : Nat) => (i : Int),
                 borders_ := (List.range (s.world_size_ + 1)).map
                   fun k => (boundary H s.world_size_ k : Int),
                 sent := snt } H W i _ _ hg hH
        (borders_getElem? H s.world_size_ i (by omega))
        (borders_getElem? H s.world_size_ (i + 1) (by omega))
      exact ⟨_, h1, snt1, rfl⟩)
  rw [hsnt] at hy
  rw [hrank] at hy
  exact ⟨snt, hy⟩

theorem boundary_one_pos (H W : Nat) (hH : 1 ≤ H) : 1 ≤ boundary H W 1 := by
  unfold boundary
  by_cases h0 : H / W = 0
  · have hdm := Nat.div_add_mod H W
    rw [h0, Nat.mul_zero, Nat.zero_add] at hdm
    rw [h0, hdm]
    omega
  · have : 1 ≤ H / W := Nat.pos_of_ne_zero h0
    omega

theorem Mpi.ring_partners (n : Nat) (hn : 1 ≤ n) :
    CyclicVector.get ((List.range' 1 n).map fun (i : Nat) => (i : Int)) ((1 : Int) - 2)
      = some (n : Int) ∧
    CyclicVector.get ((List.range' 1 n).map fun (i : Nat) => (i : Int)) (n : Int)
      = some 1 := by
  have hlen : ((List.range' 1 n).map fun (i : Nat) => (i : Int)).length = n := by simp
  have hnpos : (0 : Int) < (n : Int) := by exact_mod_cast hn
  constructor
  · rw [CyclicVector.get_eq _ _ (by omega), hlen]
    have hm : ((1 : Int) - 2) % (n : Int) = (n : Int) - 1 := by
      have h1 : ((1 : Int) - 2) % (n : Int) = ((n : Int) - 1) % (n : Int) := by
        rw [← Int.add_emod_self]
        congr 1
      rw [h1]
      exact Int.emod_eq_of_lt (by omega) (by omega)
    rw [hm]
    have ht : ((n : Int) - 1).toNat = n - 1 := by omega
    rw [ht]
    simp [List.getElem?_range', show n - 1 < n by omega]
    omega
  · rw [CyclicVector.get_eq _ _ (by omega), hlen, Int.emod_self]
    simp [List.getElem?_range', show 0 < n by omega]

/-! ## Claims -/

/-- C1: on an `H` x `W` grid (`H, W ≥ 1`) of cells `0`/`1`, for every rule set and every
cell `(i, j)` of the worker's row range `lo ≤ i < hi`, `CalculatePart` (the threaded one
for `thread_id = t`, and the distributed one) succeeds and leaves `new_field_[i][j] = 1`
exactly when the cell is alive and its neighbour sum is in `stay_`, or dead and the sum is
in `born_`, and `0` otherwise; the sum runs over the 8 cells `((i+x) mod H, (j+y) mod W)`,
so that cell `(0, 0)` counts the cells `(H-1, 0)` and `(0, W-1)`. -/
theorem CalculatePart_applies_rule (H W : Nat) (sp : Pthread.GameOfLife) (t : Nat)
    (sm : Mpi.GameOfLife) (field new_field : Grid) (rules : Rules) (lo hi : Int)
    (hH : 1 ≤ H) (hW : 1 ≤ W)
    (hf : Rect field H W) (hb : Binary field) (hn : Rect new_field H W)
    (hlo : 0 ≤ lo) (hhi : hi ≤ (H : Int))
    (hp : sp.field_ = field ∧ sp.new_field_ = new_field ∧ sp.rules_ = rules ∧
      sp.borders_[t]? = some lo ∧ sp.borders_[t + 1]? = some hi)
    (hm : sm.field_ = field ∧ sm.new_field_ = new_field ∧ sm.rules_ = rules ∧
      sm.borders_[0]? = some lo ∧ sm.borders_.getLast? = some hi) :
    (∃ sp1, sp.CalculatePart t = some sp1 ∧
      ∀ i j : Nat, lo ≤ (i : Int) → (i : Int) < hi → j < W →
        cellAt sp1.new_field_ i j =
          if (cellAt field i j ≠ 0 ∧ RuleEvaluator.neighborSum field H W i j ∈ rules.stay_) ∨
             (cellAt field i j = 0 ∧ RuleEvaluator.neighborSum field H W i j ∈ rules.born_)
          then 1 else 0) ∧
    (∃ sm1, sm.CalculatePart = some sm1 ∧
      ∀ i j : Nat, lo ≤ (i : Int) → (i : Int) < hi → j < W →
        cellAt sm1.new_field_ i j =
          if (cellAt field i j ≠ 0 ∧ RuleEvaluator.neighborSum field H W i j ∈ rules.stay_) ∨
             (cellAt field i j = 0 ∧ RuleEvaluator.neighborSum field H W i j ∈ rules.born_)
          then 1 else 0) ∧
    RuleEvaluator.neighborSum field H W 0 0 =
      cellAt field (H - 1) (W - 1) + cellAt field (H - 1) 0 + cellAt field (H - 1) (1 % W)
      + cellAt field 0 (W - 1) + cellAt field 0 (1 % W)
      + cellAt field (1 % H) (W - 1) + cellAt field (1 % H) 0
      + cellAt field (1 % H) (1 % W) := by
  obtain ⟨hp1, hp2, hp3, hp4, hp5⟩ := hp
  obtain ⟨hm1, hm2, hm3, hm4, hm5⟩ := hm
  subst hp1 hp2 hp3
  refine ⟨?_, ?_, neighborSum_origin _ H W hH hW⟩
  · obtain ⟨nf, hnf, -, hc⟩ := Pthread.CalculatePart_thread_eq sp t lo hi hf hb hn hp4 hp5 hlo hhi
    refine ⟨_, hnf, ?_⟩
    intro i j h1 h2 h3
    have hiH : i < H := by omega
    rw [hc i j hiH h3, if_pos ⟨h1, h2⟩]
    rfl
  · rw [← hm1] at hf hb
    rw [← hm2] at hn
    obtain ⟨nf, hnf, -, hc⟩ := Mpi.CalculatePart_local_eq sm lo hi hf hb hn hm4 hm5 hlo hhi
    refine ⟨_, hnf, ?_⟩
    intro i j h1 h2 h3
    have hiH : i < H := by omega
    rw [hc i j hiH h3, if_pos ⟨h1, h2⟩, hm1, hm3]
    rfl

/-- Instance of `CalculatePart_applies_rule`: the blinker on the 3 x 3 torus, one
worker owning the rows `0 .. 2`, rule `b3/s23`. -/
theorem CalculatePart_applies_rule_witness :
    (∃ sp1, Pthread.GameOfLife.CalculatePart
        { Pthread.GameOfLife.mk_ 1 [] with
          field_ := blinker, new_field_ := blinker, borders_ := [0, 3] } 0 = some sp1 ∧
      ∀ i j : Nat, (0 : Int) ≤ (i : Int) → (i : Int) < 3 → j < 3 →
        cellAt sp1.new_field_ i j =
          if (cellAt blinker i j ≠ 0 ∧
                RuleEvaluator.neighborSum blinker 3 3 i j ∈ (parseRules []).stay_) ∨
             (cellAt blinker i j = 0 ∧
                RuleEvaluator.neighborSum blinker 3 3 i j ∈ (parseRules []).born_)
          then 1 else 0) ∧
    RuleEvaluator.neighborSum blinker 3 3 0 0 = 3 := by
  have h := CalculatePart_applies_rule 3 3
    { Pthread.GameOfLife.mk_ 1 [] with
      field_ := blinker, new_field_ := blinker, borders_ := [0, 3] } 0
    { Mpi.GameOfLife.mk_ [] 2 1 with
      field_ := blinker, new_field_ := blinker, borders_ := [0, 3],
      rules_ := parseRules [] }
    blinker blinker (parseRules []) 0 3 (by decide) (by decide)
    ⟨rfl, by decide⟩ (by unfold Binary; decide) ⟨rfl, by decide⟩ (by decide) (by decide)
    ⟨rfl, rfl, rfl, rfl, rfl⟩ ⟨rfl, rfl, rfl, rfl, rfl⟩
  exact ⟨h.1, by rw [h.2.2]; decide⟩

/-- C2: for a `CyclicVector` of `n ≥ 1` elements and every integer index `i` (negative
ones and the exact multiples `-n` included), `operator[]` resolves, with any re-entry depth
of at least two, to the position `i mod n` (floor-mod), which lies in `[0, n)`, and
returns the element stored there; the index `-n` yields element `0`. -/
theorem CyclicVector.operator_index_floor_mod {α : Type} (v : List α) (i : Int) (fuel : Nat)
    (hn : 1 ≤ v.length) (hf : 2 ≤ fuel) :
    0 ≤ i % (v.length : Int) ∧ i % (v.length : Int) < (v.length : Int) ∧
    CyclicVector.index v.length fuel i = some (i % (v.length : Int)).toNat ∧
    (∃ x, v[(i % (v.length : Int)).toNat]? = some x ∧ CyclicVector.get v i = some x) ∧
    CyclicVector.index v.length fuel (-(v.length : Int)) = some 0 := by
  have hnpos : (0 : Int) < (v.length : Int) := by exact_mod_cast hn
  have hlt := CyclicVector.emod_toNat_lt i v.length hn
  refine ⟨Int.emod_nonneg _ (by omega), Int.emod_lt_of_pos _ hnpos,
    CyclicVector.index_eq v.length fuel i hn hf, ⟨v[(i % (v.length : Int)).toNat], ?_, ?_⟩, ?_⟩
  · exact List.getElem?_eq_getElem hlt
  · rw [CyclicVector.get_eq v i hn]
    exact List.getElem?_eq_getElem hlt
  · rw [CyclicVector.index_eq v.length fuel _ hn hf]
    simp

/-- Instance of `CyclicVector.operator_index_floor_mod`: a vector of three elements
read at the index `-3`. -/
theorem CyclicVector.operator_index_floor_mod_witness :
    CyclicVector.index 3 2 (-3) = some 0 ∧ CyclicVector.get [10, 20, 30] (-3 : Int) = some 10 := by
  have h := CyclicVector.operator_index_floor_mod [10, 20, 30] (-3) 2 (by decide) (by decide)
  obtain ⟨-, -, h3, ⟨x, hx, hg⟩, -⟩ := h
  refine ⟨h3, ?_⟩
  rw [hg, ← hx]
  rfl

/-- C3: for `H ≥ 1` rows and `1 ≤ W ≤ H` workers, `CreateThreads` (called on the empty
table of a new object, the barrier idle) succeeds and builds the table of the `W + 1`
entries `boundaries[k] = k * floor(H / W) + min(k, H mod W)`: it starts at `0`, ends at
`H`, is strictly increasing, every row of `[0, H)` lies in exactly one range, every span
is `floor(H / W)` or one more, and the spans with the extra row are exactly the first
`H mod W`. -/
theorem Pthread.CreateThreads_partition (s : Pthread.GameOfLife) (H W : Nat)
    (_hH : 1 ≤ H) (hW1 : 1 ≤ W) (hW2 : W ≤ H)
    (hrows : s.field_.length = H) (hworkers : s.num_threads_ = W)
    (hfresh : s.borders_ = []) (hidle : s.barrier_.capacity_ ≤ s.barrier_.num_threads_) :
    ∃ s1, s.CreateThreads = some s1 ∧ s1.num_threads_ = W ∧
      s1.borders_.length = W + 1 ∧
      (∀ k, k ≤ W → s1.borders_[k]? = some ((k * (H / W) + min k (H % W) : Nat) : Int)) ∧
      s1.borders_[0]? = some 0 ∧ s1.borders_[W]? = some (H : Int) ∧
      (∀ k, k < W → ∃ lo hi : Int, s1.borders_[k]? = some lo ∧ s1.borders_[k + 1]? = some hi ∧
        lo < hi ∧ hi - lo = ((H / W : Nat) : Int) + (if k < H % W then 1 else 0)) ∧
      (∀ k l, k < W → l < W → ∀ a b c d : Int,
        s1.borders_[k]? = some a → s1.borders_[k + 1]? = some b →
        s1.borders_[l]? = some c → s1.borders_[l + 1]? = some d →
        (b - a) - (d - c) ≤ 1 ∧ (d - c) - (b - a) ≤ 1) ∧
      (∀ i, i < H → ∃ k, (k < W ∧ ∃ lo hi : Int, s1.borders_[k]? = some lo ∧
          s1.borders_[k + 1]? = some hi ∧ lo ≤ (i : Int) ∧ (i : Int) < hi) ∧
        ∀ k2, (k2 < W ∧ ∃ lo hi : Int, s1.borders_[k2]? = some lo ∧
          s1.borders_[k2 + 1]? = some hi ∧ lo ≤ (i : Int) ∧ (i : Int) < hi) → k2 = k) := by
  have hW0 : W ≠ 0 := by omega
  have hget : ∀ k, k ≤ W →
      ((List.range (W + 1)).map fun n => (boundary H W n : Int))[k]?
        = some (boundary H W k : Int) := fun k hk => borders_getElem? H W k hk
  have hspan : ∀ k, (boundary H W (k + 1) : Int) - (boundary H W k : Int)
      = ((H / W : Nat) : Int) + (if k < H % W then 1 else 0) := by
    intro k
    rw [boundary_succ]
    split <;> push_cast <;> omega
  refine ⟨_, Pthread.CreateThreads_eq s H W hW1 hW2 hrows hworkers hfresh hidle, rfl,
    by simp, hget, ?_, ?_, ?_, ?_, ?_⟩
  · have h0 := hget 0 (Nat.zero_le W)
    rw [boundary_zero] at h0
    exact h0
  · have hT := hget W (le_refl W)
    rw [boundary_top H W hW0] at hT
    exact hT
  · intro k hk
    refine ⟨_, _, hget k (by omega), hget (k + 1) (by omega), ?_, hspan k⟩
    exact_mod_cast boundary_lt_succ H W k hW1 hW2
  · intro k l hk hl a b c d ha hb hc hd
    simp only [hget k (by omega), hget (k + 1) (by omega), hget l (by omega),
      hget (l + 1) (by omega), Option.some.injEq] at ha hb hc hd
    subst ha hb hc hd
    rw [hspan k, hspan l]
    split <;> split <;> omega
  · intro i hi
    obtain ⟨k, hk, h1, h2⟩ := boundary_cover H W hW0 i hi
    refine ⟨k, ⟨hk, _, _, hget k (by omega), hget (k + 1) (by omega),
      by exact_mod_cast h1, by exact_mod_cast h2⟩, ?_⟩
    rintro k2 ⟨hk2, lo, hi2, hlo, hhi, h3, h4⟩
    simp only [hget k2 (by omega), hget (k2 + 1) (by omega), Option.some.injEq] at hlo hhi
    subst hlo hhi
    have h3' : boundary H W k2 ≤ i := by exact_mod_cast h3
    have h4' : i < boundary H W (k2 + 1) := by exact_mod_cast h4
    by_contra hne
    rcases Nat.lt_or_gt_of_ne hne with hlt | hgt
    · have := boundary_mono H W (show k2 + 1 ≤ k by omega)
      omega
    · have := boundary_mono H W (show k + 1 ≤ k2 by omega)
      omega

/-- Instance of `Pthread.CreateThreads_partition`: ten rows and three workers give
the table `0, 4, 7, 10`. -/
theorem Pthread.CreateThreads_partition_witness :
    ∃ s1, Pthread.GameOfLife.CreateThreads
        { Pthread.GameOfLife.mk_ 3 [] with field_ := tenByTen, new_field_ := tenByTen }
          = some s1 ∧
      s1.borders_[0]? = some 0 ∧ s1.borders_[1]? = some 4 ∧ s1.borders_[2]? = some 7 ∧
      s1.borders_[3]? = some 10 ∧ s1.borders_.length = 4 := by
  obtain ⟨s1, h1, -, h3, h4, -⟩ := Pthread.CreateThreads_partition
    { Pthread.GameOfLife.mk_ 3 [] with field_ := tenByTen, new_field_ := tenByTen } 10 3
    (by decide) (by decide) (by decide) (by decide) rfl rfl (by decide)
  exact ⟨s1, h1, h4 0 (by decide), h4 1 (by decide), h4 2 (by decide), h4 3 (by decide), h3⟩

/-- C4: in the shared-memory model, for every initial grid `g` of `H ≥ 1` rows (all of
the same width, cells `0`/`1`) and every worker count `W` with `1 ≤ W ≤ H`, installing
`g` as `Start` does (both grids set to `g`, then `CreateThreads`) and running one
generation (`CalculatePart` for the thread ids `0 .. W-1`, taken in increasing order or
in any other order, then the coordinator's swap and count) succeeds and leaves as current
grid the rule evaluator applied once to every cell of `g`, with `g` as the other grid and
one iteration counted; any other worker count `V` with `1 ≤ V ≤ H` leaves the same
current grid. -/
theorem Pthread.generation_refines_rule_evaluator (W V : Nat) (rules : List Char) (g : Grid)
    (cols : Nat) (order : List Nat)
    (_hH : 1 ≤ g.length) (hrect : ∀ row ∈ g, row.length = cols) (hbin : Binary g)
    (hW1 : 1 ≤ W) (hW2 : W ≤ g.length) (hV1 : 1 ≤ V) (hV2 : V ≤ g.length)
    (horder : order.Perm (List.range W)) :
    ∃ s1 s2 t1 t2, Pthread.GameOfLife.CreateThreads
        { Pthread.GameOfLife.mk_ W rules with field_ := g, new_field_ := g } = some s1 ∧
      s1.num_threads_ = W ∧ s1.field_ = g ∧ s1.generation = some s2 ∧
      s1.generationIn order = some s2 ∧
      s2.field_ = RuleEvaluator.step (parseRules rules) g ∧ s2.new_field_ = g ∧
      s2.iterations_count_ = 1 ∧
      Pthread.GameOfLife.CreateThreads
        { Pthread.GameOfLife.mk_ V rules with field_ := g, new_field_ := g } = some t1 ∧
      t1.num_threads_ = V ∧ t1.generation = some t2 ∧ t2.field_ = s2.field_ := by
  have hc := Pthread.CreateThreads_eq
    { Pthread.GameOfLife.mk_ W rules with field_ := g, new_field_ := g } g.length W
    hW1 hW2 rfl rfl rfl (le_refl _)
  have hd := Pthread.CreateThreads_eq
    { Pthread.GameOfLife.mk_ V rules with field_ := g, new_field_ := g } g.length V
    hV1 hV2 rfl rfl rfl (le_refl _)
  refine ⟨_, _, _, _, hc, rfl, rfl,
    Pthread.generation_eq _ g.length W cols hW1 rfl ⟨rfl, hrect⟩ hbin ⟨rfl, hrect⟩ rfl,
    Pthread.generationIn_eq _ g.length W cols order hW1 horder ⟨rfl, hrect⟩ hbin ⟨rfl, hrect⟩ rfl,
    ?_, ?_, ?_, hd, rfl,
    Pthread.generation_eq _ g.length V cols hV1 rfl ⟨rfl, hrect⟩ hbin ⟨rfl, hrect⟩ rfl, ?_⟩
  all_goals rfl

/-- Instance of `Pthread.generation_refines_rule_evaluator`: the 10 x 10 field with 1, 2
and 10 workers, the ten workers also taken in decreasing order. -/
theorem Pthread.generation_refines_rule_evaluator_witness :
    (∃ s1 s2, Pthread.GameOfLife.CreateThreads
        { Pthread.GameOfLife.mk_ 1 [] with field_ := tenByTen, new_field_ := tenByTen }
          = some s1 ∧ s1.generation = some s2 ∧
        s2.field_ = RuleEvaluator.step (parseRules []) tenByTen) ∧
    (∃ s1 s2, Pthread.GameOfLife.CreateThreads
        { Pthread.GameOfLife.mk_ 2 [] with field_ := tenByTen, new_field_ := tenByTen }
          = some s1 ∧ s1.generation = some s2 ∧
        s2.field_ = RuleEvaluator.step (parseRules []) tenByTen) ∧
    (∃ s1 s2, Pthread.GameOfLife.CreateThreads
        { Pthread.GameOfLife.mk_ 10 [] with field_ := tenByTen, new_field_ := tenByTen }
          = some s1 ∧ s1.generation = some s2 ∧
        s1.generationIn (List.range 10).reverse = some s2 ∧
        s2.field_ = RuleEvaluator.step (parseRules []) tenByTen) := by
  have hrect : ∀ row ∈ tenByTen, row.length = 10 := by decide
  have hbin : Binary tenByTen := by unfold Binary; decide
  obtain ⟨s1, s2, t1, t2, h1, -, -, h2, -, h3, -, -, h4, -, h5, h6⟩ :=
    Pthread.generation_refines_rule_evaluator 1 2 [] tenByTen 10 (List.range 1)
      (by decide) hrect hbin (by decide) (by decide) (by decide) (by decide)
      (List.Perm.refl _)
  obtain ⟨u1, u2, -, -, k1, -, -, k2, k4, k3, -⟩ :=
    Pthread.generation_refines_rule_evaluator 10 1 [] tenByTen 10 (List.range 10).reverse
      (by decide) hrect hbin (by decide) (by decide) (by decide) (by decide)
      (List.reverse_perm _)
  exact ⟨⟨s1, s2, h1, h2, h3⟩, ⟨t1, t2, h4, h5, by rw [h6, h3]⟩, ⟨u1, u2, k1, k2, k4, k3⟩⟩

/-- Counterexample to C5 as stated, in the shared-memory realization: after `Start` and `Run(3)` the
game has a grid and is running, and `Run(5)` returns `false` and leaves the state, target
`3` included, unchanged. -/
theorem Pthread.Run_while_running_rejected :
    ∃ s1, Pthread.started = some (true, s1) ∧ (s1.Run 3).1 = true ∧
      (s1.Run 3).2.field_ ≠ [] ∧ (s1.Run 3).2.running_ = true ∧
      (s1.Run 3).2.desired_iterations_count_ = 3 ∧
      (s1.Run 3).2.Run 5 = (false, (s1.Run 3).2) := by
  refine ⟨_, rfl, ?_⟩
  decide

/-- C5 (amended): the targets are `size_t` counters. In the distributed realization, for
every state with a grid (running or not) and every `n`, `Run(n)` returns `true`, sets the
target to `(target + n) mod 2 ^ 64`, which is the target increased by exactly `n` whenever
`target + n < 2 ^ 64`, and sets `running_`; a second `Run(m)` adds `m` in the same way. In
the shared-memory realization `Run(n)` does so when no computation is running, and while
`running_` is set it returns `false` and changes nothing. -/
theorem Run_extends_target (sm : Mpi.GameOfLife) (sp : Pthread.GameOfLife) (n m : Nat)
    (hm : sm.field_ ≠ []) (hp : sp.field_ ≠ []) :
    ((sm.Run n).1 = true ∧
      (sm.Run n).2.desired_iterations_count_ = (sm.desired_iterations_count_ + n) % 2 ^ 64 ∧
      (sm.desired_iterations_count_ + n < 2 ^ 64 →
        (sm.Run n).2.desired_iterations_count_ = sm.desired_iterations_count_ + n) ∧
      (sm.Run n).2.running_ = true ∧
      ((sm.Run n).2.Run m).1 = true ∧
      ((sm.Run n).2.Run m).2.desired_iterations_count_
        = ((sm.desired_iterations_count_ + n) % 2 ^ 64 + m) % 2 ^ 64 ∧
      (sm.desired_iterations_count_ + n + m < 2 ^ 64 →
        ((sm.Run n).2.Run m).2.desired_iterations_count_
          = sm.desired_iterations_count_ + n + m) ∧
      ((sm.Run n).2.Run m).2.running_ = true) ∧
    (sp.running_ = false →
      (sp.Run n).1 = true ∧
      (sp.Run n).2.desired_iterations_count_ = (sp.desired_iterations_count_ + n) % 2 ^ 64 ∧
      (sp.desired_iterations_count_ + n < 2 ^ 64 →
        (sp.Run n).2.desired_iterations_count_ = sp.desired_iterations_count_ + n) ∧
      (sp.Run n).2.running_ = true) ∧
    (sp.running_ = true → sp.Run n = (false, sp)) := by
  have hfirst : (sm.Run n).1 = true ∧
      (sm.Run n).2.desired_iterations_count_ = (sm.desired_iterations_count_ + n) % 2 ^ 64 ∧
      (sm.Run n).2.running_ = true ∧ (sm.Run n).2.field_ ≠ [] := by
    unfold Mpi.GameOfLife.Run
    by_cases hr : sm.world_rank_ = 0
    · rw [if_neg hm]
      rw [if_pos hr]
      exact ⟨rfl, rfl, rfl, hm⟩
    · rw [if_neg hm]
      rw [if_neg hr]
      exact ⟨rfl, rfl, rfl, hm⟩
  have hsecond : ((sm.Run n).2.Run m).1 = true ∧
      ((sm.Run n).2.Run m).2.desired_iterations_count_
        = ((sm.Run n).2.desired_iterations_count_ + m) % 2 ^ 64 ∧
      ((sm.Run n).2.Run m).2.running_ = true := by
    generalize sm.Run n = first at hfirst
    obtain ⟨-, -, -, hgrid⟩ := hfirst
    unfold Mpi.GameOfLife.Run
    by_cases hr : first.2.world_rank_ = 0
    · rw [if_neg hgrid]
      rw [if_pos hr]
      exact ⟨rfl, rfl, rfl⟩
    · rw [if_neg hgrid]
      rw [if_neg hr]
      exact ⟨rfl, rfl, rfl⟩
  obtain ⟨f1, f2, f3, -⟩ := hfirst
  obtain ⟨g1, g2, g3⟩ := hsecond
  refine ⟨⟨f1, f2, ?_, f3, g1, ?_, ?_, g3⟩, ?_, ?_⟩
  · intro hlt
    rw [f2, Nat.mod_eq_of_lt hlt]
  · rw [g2, f2]
  · intro hlt
    rw [g2, f2, Nat.mod_eq_of_lt (by omega : sm.desired_iterations_count_ + n < 2 ^ 64),
      Nat.mod_eq_of_lt hlt]
  · intro hr
    have hrun : sp.Run n = (true, { sp with
        desired_iterations_count_ := (sp.desired_iterations_count_ + n) % 2 ^ 64,
        running_ := true }) := by
      unfold Pthread.GameOfLife.Run
      rw [if_neg hp, hr]
      rfl
    rw [hrun]
    exact ⟨rfl, rfl, fun hlt => Nat.mod_eq_of_lt hlt, rfl⟩
  · intro hr
    unfold Pthread.GameOfLife.Run
    rw [if_neg hp, hr]
    rfl

/-- Instance of `Run_extends_target`: the distributed coordinator and the started
shared-memory game, each holding the blinker; `Run(3)` and `Run(5)` give the target 8,
two `Run(2 ^ 63)` wrap the target to 0. -/
theorem Run_extends_target_witness :
    ((Mpi.coordinator.Run 3).2.Run 5).1 = true ∧
    ((Mpi.coordinator.Run 3).2.Run 5).2.desired_iterations_count_ = 8 ∧
    ((Mpi.coordinator.Run (2 ^ 63)).2.Run (2 ^ 63)).2.desired_iterations_count_ = 0 ∧
    ((Pthread.GameOfLife.Run
      { Pthread.GameOfLife.mk_ 1 [] with field_ := blinker, new_field_ := blinker } 3).1 = true) := by
  have h := Run_extends_target Mpi.coordinator
    { Pthread.GameOfLife.mk_ 1 [] with field_ := blinker, new_field_ := blinker } 3 5
    (by decide) (by decide)
  have k := Run_extends_target Mpi.coordinator
    { Pthread.GameOfLife.mk_ 1 [] with field_ := blinker, new_field_ := blinker }
    (2 ^ 63) (2 ^ 63) (by decide) (by decide)
  exact ⟨h.1.2.2.2.2.1, h.1.2.2.2.2.2.2.1 (by decide), k.1.2.2.2.2.2.1.trans (by decide),
    (h.2.1 rfl).1⟩

/-- C6: for every non-empty list `counts` of iteration counts reported by the workers
(rank order) when `Stop` is invoked on the distributed coordinator of a running
computation, the final target `M` is `1 +` the maximum of `counts`, so `M` exceeds every
reported count; the coordinator sends the stop signal and then the same `M` to every
worker, stores `M` as its target and clears `running_`.  In the shared-memory model
`Stop` on a running computation sets the target to `iterations_count_ + 1`. -/
theorem Stop_target_is_max_plus_one (s : Mpi.GameOfLife) (inbox : Mpi.Inbox) (final : Nat)
    (counts : List Nat) (sp : Pthread.GameOfLife)
    (hgrid : s.field_ ≠ []) (hrank : s.world_rank_ = 0)
    (hcounts : s.ranks.map inbox.count = counts) (hne : counts ≠ [])
    (hrun : (s.Running inbox).1 = true)
    (hpgrid : sp.field_ ≠ []) (hprun : sp.running_ = true) :
    (∃ M, (∃ c ∈ counts, M = 1 + c ∧ ∀ d ∈ counts, d ≤ c) ∧
      (∀ c ∈ counts, c < M) ∧
      (s.Stop final inbox).1 = true ∧
      (s.Stop final inbox).2.desired_iterations_count_ = M ∧
      (s.Stop final inbox).2.running_ = false ∧
      (s.Stop final inbox).2.sent =
        ((s.Running inbox).2.sent
          ++ s.ranks.map fun i => { dest := i, tag := .Stop, payload := .byte 1 })
          ++ s.ranks.map fun i => { dest := i, tag := .Stop, payload := .count M }) ∧
    (sp.Stop.1 = true ∧ sp.Stop.2.desired_iterations_count_ = sp.iterations_count_ + 1) := by
  subst hcounts
  have hsize : 2 ≤ s.world_size_ := by
    by_contra hlt
    apply hne
    have h0 : s.world_size_ - 1 = 0 := by omega
    simp [Mpi.GameOfLife.ranks, h0]
  obtain ⟨r, snt, hfields⟩ := Mpi.Running_fields s inbox
  obtain ⟨⟨c, hc, hmax⟩, hle⟩ := Mpi.maxCount_spec s inbox hsize
  have hpair : s.Running inbox = (true, { s with running_ := r, sent := snt }) :=
    Prod.ext hrun hfields
  refine ⟨⟨s.maxCount inbox + 1, ⟨c, hc, by omega, fun d hd => by rw [← hmax]; exact hle d hd⟩,
    fun d hd => Nat.lt_succ_of_le (hle d hd), ?_, ?_, ?_, ?_⟩, ?_⟩
  · simp [Mpi.GameOfLife.Stop, hgrid, hpair]
  · simp [Mpi.GameOfLife.Stop, hgrid, hpair, hrank, Mpi.GameOfLife.sendAll,
      Mpi.GameOfLife.maxCount, Mpi.GameOfLife.ranks]
  · simp [Mpi.GameOfLife.Stop, hgrid, hpair]
  · simp [Mpi.GameOfLife.Stop, hgrid, hpair, hrank, Mpi.GameOfLife.sendAll,
      Mpi.GameOfLife.maxCount, Mpi.GameOfLife.ranks]
  · simp [Pthread.GameOfLife.Stop, hpgrid, hprun]

/-- Instance of `Stop_target_is_max_plus_one`: workers reporting 5, 5 and 6 give the
final target 7, sent to the ranks 1, 2 and 3. -/
theorem Stop_target_is_max_plus_one_witness :
    (((Mpi.coordinator.Run 10).2.Stop 0 Mpi.reports).2.desired_iterations_count_ = 7) ∧
    (∀ c ∈ [5, 5, 6], c < 7) ∧
    (∃ s1, Pthread.started = some (true, s1) ∧
      ((s1.Run 10).2.Stop).2.desired_iterations_count_ = (s1.Run 10).2.iterations_count_ + 1) := by
  have h := Stop_target_is_max_plus_one (Mpi.coordinator.Run 10).2 Mpi.reports 0 [5, 5, 6]
    (Pthread.GameOfLife.Run
      { Pthread.GameOfLife.mk_ 1 "b3/s23".toList with
        field_ := blinker, new_field_ := blinker, borders_ := [0, 3],
        barrier_ := CyclicBarrier.mk_ 1, threads_ := 1, master_thread_ := true } 10).2
    (by decide) (by decide) (by decide) (by decide) (by decide) (by decide) (by decide)
  refine ⟨by decide, by decide, _, rfl, h.2.2⟩

/-- C7: every precondition violation returns `false` and returns the state it was given,
all data members identical (grids, partition table, iteration counters, `running_`,
`up_to_date_`) and no message sent: `Start` in either overload on a game that already has
a non-empty grid, and `Run`, `Stop` and `Update` on a game without grid, in the
shared-memory and in the distributed realization (`Update` exists in the latter only). -/
theorem precondition_violation_changes_nothing
    (pg pn : Pthread.GameOfLife) (mg mn : Mpi.GameOfLife)
    (h_size v_size n final : Nat) (draw : Nat → Bool) (file : List Char) (inbox : Mpi.Inbox)
    (hpg : pg.field_ ≠ []) (hpn : pn.field_ = [])
    (hmg : mg.field_ ≠ []) (hmn : mn.field_ = []) :
    pg.Start h_size v_size draw = some (false, pg) ∧
    pg.StartFile file = some (false, pg) ∧
    pn.Run n = (false, pn) ∧
    pn.Stop = (false, pn) ∧
    mg.Start h_size v_size draw inbox = some (false, mg) ∧
    mg.StartFile file inbox = some (false, mg) ∧
    mn.Run n = (false, mn) ∧
    mn.Stop final inbox = (false, mn) ∧
    mn.Update inbox = some (false, mn) := by
  refine ⟨?_, ?_, ?_, ?_, ?_, ?_, ?_, ?_, ?_⟩
  · simp [Pthread.GameOfLife.Start, hpg]
  · simp [Pthread.GameOfLife.StartFile, hpg]
  · simp [Pthread.GameOfLife.Run, hpn]
  · simp [Pthread.GameOfLife.Stop, hpn]
  · simp [Mpi.GameOfLife.Start, hmg]
  · simp [Mpi.GameOfLife.StartFile, hmg]
  · simp [Mpi.GameOfLife.Run, hmn]
  · simp [Mpi.GameOfLife.Stop, hmn]
  · simp [Mpi.GameOfLife.Update, hmn]

/-- Instance of `precondition_violation_changes_nothing`: a second `Start` on the
coordinator holding the blinker, and `Run`, `Stop`, `Update` on new objects. -/
theorem precondition_violation_changes_nothing_witness :
    Mpi.coordinator.Start 10 10 (fun _ => true) Mpi.reports = some (false, Mpi.coordinator) ∧
    (Pthread.GameOfLife.mk_ 4 []).Run 5 = (false, Pthread.GameOfLife.mk_ 4 []) ∧
    (Pthread.GameOfLife.mk_ 4 []).Stop = (false, Pthread.GameOfLife.mk_ 4 []) ∧
    (Mpi.GameOfLife.mk_ [] 4 0).Update Mpi.reports = some (false, Mpi.GameOfLife.mk_ [] 4 0) := by
  have h := precondition_violation_changes_nothing
    { Pthread.GameOfLife.mk_ 1 [] with field_ := blinker, new_field_ := blinker }
    (Pthread.GameOfLife.mk_ 4 []) Mpi.coordinator (Mpi.GameOfLife.mk_ [] 4 0)
    10 10 5 0 (fun _ => true) [] Mpi.reports (by decide) rfl (by decide) rfl
  exact ⟨h.2.2.2.2.1, h.2.2.1, h.2.2.2.1, h.2.2.2.2.2.2.2.2⟩

/-- C8: the rule set built by the constructor equals the reference scan of the
descriptor (born mode first; `b`/`B` selects born, `s`/`S` survive, `/` toggles, digits
are appended in order to the selected set, other characters are ignored), replaced by
`b3/s23` exactly when the scan leaves both sets empty; hence for digit strings `d1`,
`d2`, not both empty, and letters of either case, `B d1 / S d2` yields born = digits of
`d1` and survive = digits of `d2`. -/
theorem parseRules_reference_scan (rules d1 d2 : List Char) (b s : Char)
    (hb : b = 'b' ∨ b = 'B') (hs : s = 's' ∨ s = 'S')
    (h1 : AllDigits d1) (h2 : AllDigits d2) (hne : d1 ≠ [] ∨ d2 ≠ []) :
    parseRules rules =
      (if (referenceScan true rules).1 = [] ∧ (referenceScan true rules).2 = []
       then { born_ := [3], stay_ := [2, 3] }
       else { born_ := (referenceScan true rules).1, stay_ := (referenceScan true rules).2 }) ∧
    parseRules (b :: (d1 ++ '/' :: s :: d2))
      = { born_ := d1.map digitValue, stay_ := d2.map digitValue } := by
  refine ⟨parseRules_eq rules, ?_⟩
  rw [parseRules_eq, referenceScan_wellformed b s d1 d2 hb hs h1 h2]
  have hnot : ¬ (List.map digitValue d1 = [] ∧ List.map digitValue d2 = []) := by
    rintro ⟨e1, e2⟩
    rcases hne with h | h
    · exact h (List.map_eq_nil_iff.mp e1)
    · exact h (List.map_eq_nil_iff.mp e2)
  rw [if_neg hnot]

/-- Instance of `parseRules_reference_scan`: `b3/s23` gives born = [3] and
survive = [2, 3]. -/
theorem parseRules_reference_scan_witness :
    parseRules "b3/s23".toList = { born_ := [3], stay_ := [2, 3] } :=
  (parseRules_reference_scan [] ['3'] ['2', '3'] 'b' 's' (Or.inl rfl) (Or.inl rfl)
    (by unfold AllDigits; decide) (by unfold AllDigits; decide) (Or.inl (by decide))).2

/-- Counterexample to C9 as stated: the descriptor `b1` does not match `b<digits>/s<digits>`, and
the constructor yields born = [1], survive = [], which is not the default rule. -/
theorem parseRules_malformed_not_default :
    matchesGrammar "b1".toList = false ∧
    parseRules "b1".toList = { born_ := [1], stay_ := [] } ∧
    parseRules "b1".toList ≠ defaultRules := by
  decide

/-- C9 (amended): the constructor never fails; a descriptor without any digit (the empty
one included) yields the default rule born = [3], survive = [2, 3]; a descriptor holding
a digit, malformed or not, yields the two sets the scan collects, not both empty. -/
theorem parseRules_default_without_digit (rules : List Char) :
    ((∀ c ∈ rules, ¬ ('0' ≤ c ∧ c ≤ '9')) → parseRules rules = { born_ := [3], stay_ := [2, 3] }) ∧
    ((∃ c ∈ rules, '0' ≤ c ∧ c ≤ '9') →
      parseRules rules
        = { born_ := (referenceScan true rules).1, stay_ := (referenceScan true rules).2 } ∧
      ((referenceScan true rules).1 ≠ [] ∨ (referenceScan true rules).2 ≠ [])) := by
  constructor
  · intro h
    rw [parseRules_eq, if_pos ((referenceScan_nil_iff rules true).mpr h)]
    rfl
  · rintro ⟨c, hc, hd⟩
    have hnot : ¬ ((referenceScan true rules).1 = [] ∧ (referenceScan true rules).2 = []) :=
      fun h => (referenceScan_nil_iff rules true).mp h c hc hd
    refine ⟨by rw [parseRules_eq, if_neg hnot], ?_⟩
    by_contra hcon
    push_neg at hcon
    exact hnot hcon

/-- Instance of `parseRules_default_without_digit`: the empty descriptor and the
descriptor `life` give the default rule; `b1` gives born = [1], survive = []. -/
theorem parseRules_default_without_digit_witness :
    parseRules [] = { born_ := [3], stay_ := [2, 3] } ∧
    parseRules "life".toList = { born_ := [3], stay_ := [2, 3] } ∧
    parseRules "b1".toList = { born_ := (referenceScan true "b1".toList).1,
                               stay_ := (referenceScan true "b1".toList).2 } :=
  ⟨(parseRules_default_without_digit []).1 (by decide),
   (parseRules_default_without_digit "life".toList).1 (by decide),
   ((parseRules_default_without_digit "b1".toList).2 ⟨'1', by decide, by decide⟩).1⟩

/-- C10: with the body of each lock method between two waits taken as one atomic step and
every unlock issued by a holder, every state reachable from a new `ReaderWriterLock`
satisfies: `lock_state_` is `Reader` exactly when the reader count is positive, the count
is the number of readers holding the lock, `Writer` implies a zero count and exactly one
writer holding, and a writer holds only in state `Writer`; a step that grants the lock to
a writer starts from a state in which no reader and no writer holds it, and a step that
grants it to a reader starts from a state in which no writer holds it. -/
theorem LockSystem.reachable_exclusion (evs : List LockEvent) (σ : LockSystem)
    (hr : LockSystem.init.run evs = some σ) :
    (σ.lock.lock_state_ = .Reader ↔ 0 < σ.lock.readers_acquired_lock_count_) ∧
    σ.lock.readers_acquired_lock_count_ = σ.readers.length ∧
    (σ.lock.lock_state_ = .Writer →
      σ.lock.readers_acquired_lock_count_ = 0 ∧ σ.readers = [] ∧ σ.writers.length = 1) ∧
    (σ.writers ≠ [] → σ.lock.lock_state_ = .Writer) ∧
    (∀ ev next, σ.step ev = some next →
      (next.writers.length = σ.writers.length + 1 → σ.readers = [] ∧ σ.writers = []) ∧
      (next.readers.length = σ.readers.length + 1 → σ.writers = [])) := by
  have hinv := LockSystem.run_inv evs LockSystem.init σ LockSystem.inv_init hr
  obtain ⟨h1, h2, h3, h4⟩ := hinv
  refine ⟨h2, h1, ?_, ?_, fun ev next hs => LockSystem.step_grant σ next ev ⟨h1, h2, h3, h4⟩ hs⟩
  · intro hW
    obtain ⟨hz, hone⟩ := h3 hW
    exact ⟨hz, List.length_eq_zero.mp (by omega), hone⟩
  · intro hne
    by_contra hnW
    exact hne (h4 hnW)

/-- Instance of `LockSystem.reachable_exclusion`: two readers enter, a writer queues
behind them, is refused after the first release and gets the lock after the second. -/
theorem LockSystem.reachable_exclusion_witness :
    ∃ σ, LockSystem.init.run
        [.readerLock 1, .readerLock 2, .writerLock 3, .readerUnlock 1, .writerWake 3,
         .readerUnlock 2, .writerWake 3] = some σ ∧
      σ.lock.lock_state_ = .Writer ∧ σ.writers = [3] ∧
      σ.lock.readers_acquired_lock_count_ = 0 ∧ σ.readers = [] ∧ σ.writers.length = 1 := by
  refine ⟨_, rfl, rfl, rfl, ?_⟩
  exact (LockSystem.reachable_exclusion
    [.readerLock 1, .readerLock 2, .writerLock 3, .readerUnlock 1, .writerWake 3,
     .readerUnlock 2, .writerWake 3] _ rfl).2.2.1 rfl

/-- C11: grants of `ReaderWriterLock` follow request order.  A step grants the lock
without queuing only when the waiter queue is empty, and grants it to a queued waiter only
when that waiter is at the front, which it then leaves; a request made while the queue is
not empty is put at the back without a grant.  Hence, from any state in which a waiter `w`
(a writer, or a reader) is queued behind the waiters `pre`, the threads granted along any
sequence of steps are first those of `pre` in queue order, then `w`, then the others: `w`
is granted after all waiters ahead of it and before every thread that requested after it,
so readers admitted in a batch never pass an earlier-queued writer. -/
theorem LockSystem.grants_follow_request_order (σ : LockSystem)
    (pre post : List (Nat × RWLockState)) (w : Nat) (k : RWLockState)
    (evs : List LockEvent) (gs : List Nat)
    (hq : σ.lock.waiting_threads_ = pre ++ (w, k) :: post)
    (hrun : σ.grantsOf evs = some gs) :
    (gs <+: pre.map Prod.fst ++ [w] ∨ pre.map Prod.fst ++ [w] <+: gs) ∧
    (∀ (τ next : LockSystem) (ev : LockEvent) (t : Nat),
      τ.step ev = some next → τ.granted ev = some t →
        (τ.lock.waiting_threads_ = [] ∧ next.lock.waiting_threads_ = [] ∧
          (ev = .readerLock t ∨ ev = .writerLock t)) ∨
        (∃ kind, τ.lock.waiting_threads_ = (t, kind) :: next.lock.waiting_threads_ ∧
          (ev = .readerWake t ∨ ev = .writerWake t))) ∧
    (∀ (τ next : LockSystem) (t : Nat), τ.lock.waiting_threads_ ≠ [] →
      (τ.step (.readerLock t) = some next →
        τ.granted (.readerLock t) = none ∧
        next.lock.waiting_threads_ = τ.lock.waiting_threads_ ++ [(t, .Reader)]) ∧
      (τ.step (.writerLock t) = some next →
        τ.granted (.writerLock t) = none ∧
        next.lock.waiting_threads_ = τ.lock.waiting_threads_ ++ [(t, .Writer)])) := by
  refine ⟨LockSystem.grantsOf_order evs σ pre post w k gs hq hrun, ?_, ?_⟩
  · intro τ next ev t hs hg
    rcases LockSystem.step_queue τ next ev hs with ⟨hnone, -⟩ | ⟨u, hsome, h⟩
    · rw [hnone] at hg
      exact absurd hg (by simp)
    · rw [hsome] at hg
      simp only [Option.some.injEq] at hg
      subst hg
      exact h
  · intro τ next t hne
    constructor
    · intro hs
      simp only [LockSystem.step, ReaderWriterLock.ReaderLock_enter] at hs
      split at hs
      · exact absurd hs (by simp)
      · split at hs
        · rename_i hc
          exact absurd hc.1 hne
        · simp only [Option.some.injEq] at hs
          subst hs
          exact ⟨by simp [LockSystem.granted, ReaderWriterLock.ReaderLock_enter, hne], rfl⟩
    · intro hs
      simp only [LockSystem.step, ReaderWriterLock.WriterLock_enter] at hs
      split at hs
      · exact absurd hs (by simp)
      · split at hs
        · rename_i hc
          exact absurd hc.1 hne
        · simp only [Option.some.injEq] at hs
          subst hs
          exact ⟨by simp [LockSystem.granted, ReaderWriterLock.WriterLock_enter, hne], rfl⟩

/-- Instance of `LockSystem.grants_follow_request_order`: while thread 9 writes, the
readers 1 and 2 queue, then the writer 3, then the reader 4; whatever is tried afterwards,
the grants come in the order 1, 2, 3, 4. -/
theorem LockSystem.grants_follow_request_order_witness :
    ∃ σ, LockSystem.init.run
        [.writerLock 9, .readerLock 1, .readerLock 2, .writerLock 3, .readerLock 4] = some σ ∧
      σ.lock.waiting_threads_
        = [(1, .Reader), (2, .Reader)] ++ (3, .Writer) :: [(4, .Reader)] ∧
      σ.grantsOf [.writerUnlock 9, .readerWake 4, .writerWake 3, .readerWake 1, .readerWake 4,
          .readerWake 2, .readerWake 4, .writerWake 3, .readerUnlock 1, .readerUnlock 2,
          .readerWake 4, .writerWake 3, .writerUnlock 3, .readerWake 4] = some [1, 2, 3, 4] ∧
      ([1, 2] ++ [3] : List Nat) <+: [1, 2, 3, 4] := by
  refine ⟨_, rfl, rfl, rfl, ?_⟩
  have h := (LockSystem.grants_follow_request_order _
    [(1, .Reader), (2, .Reader)] [(4, .Reader)] 3 .Writer
    [.writerUnlock 9, .readerWake 4, .writerWake 3, .readerWake 1, .readerWake 4,
      .readerWake 2, .readerWake 4, .writerWake 3, .readerUnlock 1, .readerUnlock 2,
      .readerWake 4, .writerWake 3, .writerUnlock 3, .readerWake 4] [1, 2, 3, 4]
    (rfl : (LockSystem.mk
        { lock_state_ := .Writer, readers_acquired_lock_count_ := 0,
          waiting_threads_ := [(1, .Reader), (2, .Reader), (3, .Writer), (4, .Reader)] }
        [] [9]).lock.waiting_threads_ = _) rfl).1
  rcases h with h | h
  · exact absurd h (by decide)
  · exact h

/-- C12: for a `CyclicBarrier` of capacity `C ≥ 1` and every state reached from its
construction by steps of `PassThrough` calls and of the coordinator: every call that has
returned belongs to a round that was released, and in that round exactly `C` calls had
arrived when the flag was flipped; releases never outnumber the coordinator's grants;
outside a handshake the flag has been flipped once per released round and the counter is
`C` minus the calls arrived in the current round.  Step by step: a call that arrives
before the `C`-th blocks and nobody returns; the `C`-th arrival flips the flag, resets the
counter to `C`, clears `permission_` (whatever the coordinator had granted before) and
nobody returns; a woken waiter returns only in a released round; a grant of the coordinator
releases nobody by itself; the call in the handshake returns only if `permission_` is set,
which the coordinator did after the clearing, and then the counter is `C` and the flag has
been flipped exactly once in that round. -/
theorem BarrierSystem.rendezvous_needs_all_and_permission (C : Nat) (p : Bool)
    (evs : List BarrierEvent) (σ : BarrierSystem)
    (hC : 1 ≤ C) (hr : (BarrierSystem.init C p).run evs = some σ) :
    (∀ x ∈ σ.returned, x.2 < σ.released ∧ σ.completed[x.2]? = some C) ∧
    σ.released ≤ σ.grants ∧
    (σ.last = none →
      σ.flips = σ.released ∧ σ.inRound + σ.barrier.num_threads_ = C ∧
      1 ≤ σ.barrier.num_threads_) ∧
    σ.barrier.barrier_state_ = decide (σ.flips % 2 = 1) ∧
    (∀ t next, σ.step (.arrive t) = some next →
      (σ.inRound + 1 < C →
        next.returned = σ.returned ∧ next.last = none ∧ next.completed = σ.completed ∧
        (t, σ.barrier.barrier_state_, σ.flips) ∈ next.waiters) ∧
      (¬ σ.inRound + 1 < C →
        σ.inRound + 1 = C ∧ next.returned = σ.returned ∧ next.last = some (t, σ.flips) ∧
        next.permission_ = false ∧ next.barrier.num_threads_ = C ∧
        next.barrier.barrier_state_ = (!σ.barrier.barrier_state_) ∧
        next.completed = σ.completed ++ [C])) ∧
    (∀ t next, σ.step (.wake t) = some next →
      next.completed = σ.completed ∧ next.last = none ∧
      (next.returned = σ.returned ∨
        ∃ w ∈ σ.waiters, w.1 = t ∧ w.2.2 < σ.released ∧
          next.returned = σ.returned ++ [(t, w.2.2)])) ∧
    (∀ next, σ.step .grant = some next →
      next.returned = σ.returned ∧ next.last = σ.last ∧ next.barrier = σ.barrier ∧
      next.waiters = σ.waiters) ∧
    (∀ t next, σ.step (.handshake t) = some next →
      (σ.permission_ = false → next = σ) ∧
      (σ.permission_ = true →
        ∃ r, σ.last = some (t, r) ∧ σ.grantsAtClear < σ.grants ∧
          next.returned = σ.returned ++ [(t, r)] ∧ next.barrier.num_threads_ = C ∧
          next.flips = r + 1 ∧ next.released = r + 1 ∧ next.last = none ∧
          next.completed = σ.completed)) := by
  have hinv := BarrierSystem.barrier_run_inv C evs _ σ hC (BarrierSystem.barrier_inv_init C p hC) hr
  have hle := BarrierSystem.released_le_flips C σ hinv
  obtain ⟨h1, h2, h3, h4, h5, h6, h7, h8, h9⟩ := hinv
  refine ⟨?_, h8, ?_, h5, ?_, ?_, ?_, ?_⟩
  · intro x hx
    have hlt := h7 x hx
    have hlen : x.2 < σ.completed.length := by omega
    refine ⟨hlt, ?_⟩
    rw [List.getElem?_eq_getElem hlen]
    exact congrArg some (h9 _ (List.getElem_mem hlen))
  · intro hl
    exact ⟨(h3 hl).2, h2, (h3 hl).1⟩
  · intro t next hs
    exact BarrierSystem.arrive_facts C σ next t ⟨h1, h2, h3, h4, h5, h6, h7, h8, h9⟩ hs
  · intro t next hs
    exact BarrierSystem.wake_facts C σ next t ⟨h1, h2, h3, h4, h5, h6, h7, h8, h9⟩ hs
  · intro next hs
    simp only [BarrierSystem.step, Option.some.injEq] at hs
    subst hs
    exact ⟨rfl, rfl, rfl, rfl⟩
  · intro t next hs
    exact BarrierSystem.handshake_facts C σ next t ⟨h1, h2, h3, h4, h5, h6, h7, h8, h9⟩ hs

/-- Instance of `BarrierSystem.rendezvous_needs_all_and_permission`: capacity 3; the
coordinator grants early, the third arrival clears the grant and is refused, and only the
second grant lets the three calls return. -/
theorem BarrierSystem.rendezvous_needs_all_and_permission_witness :
    ∃ σ, (BarrierSystem.init 3 false).run
        [.arrive 1, .arrive 2, .grant, .arrive 3, .handshake 3, .grant, .handshake 3,
         .wake 1, .wake 2] = some σ ∧
      σ.returned = [(3, 0), (1, 0), (2, 0)] ∧ σ.completed = [3] ∧
      σ.barrier.num_threads_ = 3 ∧ σ.barrier.barrier_state_ = true ∧
      (∀ x ∈ σ.returned, x.2 < σ.released ∧ σ.completed[x.2]? = some 3) ∧
      (BarrierSystem.init 3 false).run [.arrive 1, .arrive 2, .grant, .arrive 3, .handshake 3]
        = (BarrierSystem.init 3 false).run [.arrive 1, .arrive 2, .grant, .arrive 3] := by
  refine ⟨_, rfl, rfl, rfl, rfl, rfl, ?_, rfl⟩
  exact (BarrierSystem.rendezvous_needs_all_and_permission 3 false
    [.arrive 1, .arrive 2, .grant, .arrive 3, .handshake 3, .grant, .handshake 3,
     .wake 1, .wake 2] _ (by decide) rfl).1

/-- Counterexample to C13 as stated: the 2 x 2 grid holds a 2 x 2 block, every cell of it
has neighbour sum 8 (each neighbour position wraps onto a live cell), and one generation
under `b3/s23` leaves no live cell. -/
theorem Pthread.block_on_two_by_two_torus_dies :
    blockGrid 2 2 0 0 = [[1, 1], [1, 1]] ∧
    RuleEvaluator.neighborSum (blockGrid 2 2 0 0) 2 2 0 0 = 8 ∧
    ∃ s1 s2, Pthread.GameOfLife.CreateThreads
        { Pthread.GameOfLife.mk_ 1 "b3/s23".toList with
          field_ := blockGrid 2 2 0 0, new_field_ := blockGrid 2 2 0 0 } = some s1 ∧
      s1.generation = some s2 ∧ s2.field_ = [[0, 0], [0, 0]] := by
  refine ⟨by decide, by decide, _, _, rfl, rfl, ?_⟩
  decide

/-- C13 (amended): take any grid of at least 2 rows and 2 columns whose live cells are
exactly one 2 x 2 block, at any position (the block may lie across the wraparound edge of
either axis). One generation under the default rule `b3/s23`, with any number of workers,
returns the same grid if and only if the grid has at least 3 rows and at least 3 columns.
In that case each of the four block cells has neighbour sum 3 and no dead cell has
neighbour sum 3. On a grid with only 2 rows or only 2 columns the wrapped neighbour
positions coincide: the block cell `(a, b)` has neighbour sum 5 or 8 and dies, so the
block is not stable. -/
theorem Pthread.block_is_stable (H W a b workers : Nat)
    (hH : 2 ≤ H) (hW : 2 ≤ W) (ha : a < H) (hb : b < W)
    (hw1 : 1 ≤ workers) (hw2 : workers ≤ H) :
    (∃ s1 s2, Pthread.GameOfLife.CreateThreads
        { Pthread.GameOfLife.mk_ workers "b3/s23".toList with
          field_ := blockGrid H W a b, new_field_ := blockGrid H W a b } = some s1 ∧
      s1.generation = some s2 ∧
      (s2.field_ = blockGrid H W a b ↔ 3 ≤ H ∧ 3 ≤ W)) ∧
    (∀ i j, i < H → j < W →
      ((cellAt (blockGrid H W a b) i j = 1 ↔
        (i = a ∨ i = (a + 1) % H) ∧ (j = b ∨ j = (b + 1) % W)) ∧
      (cellAt (blockGrid H W a b) i j = 0 ∨ cellAt (blockGrid H W a b) i j = 1))) ∧
    (3 ≤ H → 3 ≤ W → ∀ i j, i < H → j < W →
      (cellAt (blockGrid H W a b) i j = 1 →
        RuleEvaluator.neighborSum (blockGrid H W a b) H W (i : Int) (j : Int) = 3) ∧
      (cellAt (blockGrid H W a b) i j = 0 →
        RuleEvaluator.neighborSum (blockGrid H W a b) H W (i : Int) (j : Int) ≠ 3)) ∧
    (H = 2 ∨ W = 2 →
      cellAt (blockGrid H W a b) a b = 1 ∧
      (RuleEvaluator.neighborSum (blockGrid H W a b) H W (a : Int) (b : Int) = 5 ∨
        RuleEvaluator.neighborSum (blockGrid H W a b) H W (a : Int) (b : Int) = 8) ∧
      RuleEvaluator.nextCell defaultRules (blockGrid H W a b) H W a b = 0) := by
  have hlen : (blockGrid H W a b).length = H := (blockGrid_rect H W a b).1
  have hrules : parseRules "b3/s23".toList = defaultRules := by decide
  refine ⟨?_, ?_, ?_, ?_⟩
  · have hc := Pthread.CreateThreads_eq
      { Pthread.GameOfLife.mk_ workers "b3/s23".toList with
        field_ := blockGrid H W a b, new_field_ := blockGrid H W a b } H workers
      hw1 hw2 hlen rfl rfl (le_refl _)
    refine ⟨_, _, hc,
      Pthread.generation_eq _ H workers W hw1 rfl (blockGrid_rect H W a b)
        (blockGrid_binary H W a b) (blockGrid_rect H W a b) rfl, ?_⟩
    show RuleEvaluator.step (parseRules "b3/s23".toList) (blockGrid H W a b)
      = blockGrid H W a b ↔ _
    rw [hrules]
    constructor
    · intro heq
      by_contra hsmall
      have h2 : H = 2 ∨ W = 2 := by omega
      exact (blockGrid_unstable H W a b hH hW ha hb h2).2.2 heq
    · intro h3
      exact blockGrid_step H W a b h3.1 h3.2 ha hb
  · intro i j hi hj
    refine ⟨?_, ?_⟩
    · rw [cellAt_blockGrid H W a b i j hi hj]
      unfold blockHit
      split_ifs with h1 h2 h2
      · simp [h1, h2]
      · simp [h2]
      · simp [h1]
      · simp [h1]
    · rw [cellAt_blockGrid H W a b i j hi hj]
      rcases blockHit_binary H a i with h1 | h1 <;> rcases blockHit_binary W b j with h2 | h2 <;>
        simp [h1, h2]
  · intro h3H h3W i j hi hj
    obtain ⟨s1, s0, -⟩ := blockGrid_sums H W a b i j h3H h3W ha hb hi hj
    exact ⟨s1, s0⟩
  · intro h2
    obtain ⟨k1, k2, -⟩ := blockGrid_unstable H W a b hH hW ha hb h2
    exact ⟨(blockGrid_corner H W a b hH hW ha hb).1, k1, k2⟩

/-- Instance of `Pthread.block_is_stable`: a 4 x 5 grid with the block in the corner
rows 3, 0 and columns 4, 0, computed by two workers, comes back unchanged; a 2 x 4 grid
with the block in columns 1, 2 does not, its cell `(0, 1)` having neighbour sum 5. -/
theorem Pthread.block_is_stable_witness :
    blockGrid 4 5 3 4
      = [[1, 0, 0, 0, 1], [0, 0, 0, 0, 0], [0, 0, 0, 0, 0], [1, 0, 0, 0, 1]] ∧
    (∃ s1 s2, Pthread.GameOfLife.CreateThreads
        { Pthread.GameOfLife.mk_ 2 "b3/s23".toList with
          field_ := blockGrid 4 5 3 4, new_field_ := blockGrid 4 5 3 4 } = some s1 ∧
      s1.generation = some s2 ∧ s2.field_ = blockGrid 4 5 3 4) ∧
    blockGrid 2 4 0 1 = [[0, 1, 1, 0], [0, 1, 1, 0]] ∧
    RuleEvaluator.neighborSum (blockGrid 2 4 0 1) 2 4 0 1 = 5 ∧
    (∃ s1 s2, Pthread.GameOfLife.CreateThreads
        { Pthread.GameOfLife.mk_ 1 "b3/s23".toList with
          field_ := blockGrid 2 4 0 1, new_field_ := blockGrid 2 4 0 1 } = some s1 ∧
      s1.generation = some s2 ∧ s2.field_ ≠ blockGrid 2 4 0 1) := by
  obtain ⟨⟨s1, s2, h1, h2, h3⟩, -⟩ := Pthread.block_is_stable 4 5 3 4 2
    (by decide) (by decide) (by decide) (by decide) (by decide) (by decide)
  obtain ⟨⟨t1, t2, k1, k2, k3⟩, -⟩ := Pthread.block_is_stable 2 4 0 1 1
    (by decide) (by decide) (by decide) (by decide) (by decide) (by decide)
  exact ⟨by decide, ⟨s1, s2, h1, h2, h3.mpr ⟨by decide, by decide⟩⟩, by decide, by decide,
    ⟨t1, t2, k1, k2, fun heq => absurd (k3.mp heq).1 (by decide)⟩⟩

/-- C14: `Update()` is idempotent. Whenever an `Update()` returns true (which requires a
grid and a computation that is not running), an `Update()` issued right after it, whatever
the workers would answer, returns true and leaves the whole state as the first one
produced it: the caller-visible grid, the iteration counters, the running and freshness
flags, and the log of sent messages, so it signals no worker and receives no row. -/
theorem Mpi.Update_idempotent (s s1 : Mpi.GameOfLife) (inbox inbox1 : Mpi.Inbox)
    (h : s.Update inbox = some (true, s1)) :
    s1.Update inbox1 = some (true, s1) ∧
    s1.running_ = false ∧ s1.up_to_date_ = true ∧ s1.field_ ≠ [] := by
  obtain ⟨hf, hr, hu, _⟩ := Mpi.Update_post s s1 inbox h
  exact ⟨Mpi.Update_fresh s1 inbox1 hf hr hu, hr, hu, hf⟩

/-- Instance of `Mpi.Update_idempotent`: the coordinator of four processes, stopped and
stale after a run, collects rows 1 and 2 of the blinker from workers 1 and 2 (three
`Update` signals are sent); the second `Update` returns the same state. -/
theorem Mpi.Update_idempotent_witness :
    ∃ s1, Mpi.GameOfLife.Update { Mpi.coordinator with up_to_date_ := false }
        { Mpi.reports with updateRow := fun i _ => if i = 1 then [1, 1, 1] else [0, 0, 0] }
        = some (true, s1) ∧
      s1.field_ = [[0, 1, 0], [1, 1, 1], [0, 0, 0]] ∧ s1.sent.length = 3 ∧
      s1.Update Mpi.reports = some (true, s1) :=
  ⟨_, rfl, by decide, by decide,
    (Mpi.Update_idempotent { Mpi.coordinator with up_to_date_ := false } _
      { Mpi.reports with updateRow := fun i _ => if i = 1 then [1, 1, 1] else [0, 0, 0] }
      Mpi.reports rfl).1⟩

/-- C15 (refuted by the code): a worker whose `running_` is already false when the stop
handshake arrives takes the agreed target `M` into `desired_iterations_count_` and sets
`notify_master`, but `SlaveRecv` leaves `running_` false. Whatever messages other than a new
`Run` follow, the loop of `SlaveSynchronize` then only waits in the idle `SlaveRecv`: the
worker's iteration count stays below `M`, it performs no generation and the notification
that rank 0 waits for in `Stop` is never sent. -/
theorem Mpi.stopped_worker_idles_below_target (w w2 : Mpi.Worker) (M fuel : Nat)
    (msgs : List Mpi.Incoming) (ph : Mpi.Phase)
    (hr : w.gol.running_ = false) (hM : w.gol.iterations_count_ < M)
    (hack : Mpi.Worker.stopAck ∉ w.gol.sent)
    (hmsgs : ∀ m ∈ msgs, Mpi.Worker.Incoming.isRun m = false)
    (hloop : w.loop fuel (.stop M :: msgs) = some (ph, w2)) :
    (w.SlaveRecv (.stop M)).map (fun w1 => (w1.gol.desired_iterations_count_,
        w1.notify_master, w1.gol.running_, w1.gol.iterations_count_))
      = some (M, true, false, w.gol.iterations_count_) ∧
    w2.gol.iterations_count_ < M ∧ w2.gol.running_ = false ∧
    Mpi.Worker.stopAck ∉ w2.gol.sent ∧ ph ≠ .halo := by
  have hall : ∀ m ∈ Mpi.Incoming.stop M :: msgs, Mpi.Worker.Incoming.isRun m = false := by
    intro m hm
    rcases List.mem_cons.mp hm with rfl | hm
    · rfl
    · exact hmsgs m hm
  obtain ⟨r1, r2, r3, r4⟩ := Mpi.loop_stopped fuel w w2 _ ph hr hack hall hloop
  refine ⟨?_, by rw [r2]; exact hM, r1, r3, r4⟩
  simp [Mpi.Worker.SlaveRecv, hr]

/-- Instance of `Mpi.stopped_worker_idles_below_target`: worker 1 of four processes runs
`SlaveSynchronize` on a part of the blinker, performs the one generation of `Run(1)` and
answers a `Running` query with false. The stop handshake then tells it the target 2 (another
worker is still at 0): it reports 1, and waits idle with count 1, target 2, `running_` false
and `notify_master` set, also after a further `Running` query. -/
theorem Mpi.stopped_worker_idles_below_target_witness :
    Mpi.firstWorker.SlaveSynchronize .Start (fun _ => false) Mpi.blinkerPart 10
        [.run 1, .border 2 [0, 1, 0], .border 3 [0, 1, 0], .running]
      = some (.idle, Mpi.reachedTarget) ∧
    ∃ w2, Mpi.reachedTarget.loop 5 [.stop 2, .running] = some (.idle, w2) ∧
      w2.gol.iterations_count_ = 1 ∧ w2.gol.desired_iterations_count_ = 2 ∧
      w2.notify_master = true ∧
      w2.gol.iterations_count_ < 2 ∧ w2.gol.running_ = false ∧
      Mpi.Worker.stopAck ∉ w2.gol.sent :=
  ⟨by decide, _, rfl, rfl, rfl, rfl,
    (Mpi.stopped_worker_idles_below_target Mpi.reachedTarget _ 2 5 [.running] .idle
      rfl (by decide) (by decide) (by decide) rfl).2.1,
    (Mpi.stopped_worker_idles_below_target Mpi.reachedTarget _ 2 5 [.running] .idle
      rfl (by decide) (by decide) (by decide) rfl).2.2.1,
    (Mpi.stopped_worker_idles_below_target Mpi.reachedTarget _ 2 5 [.running] .idle
      rfl (by decide) (by decide) (by decide) rfl).2.2.2.1⟩

/-- C16 (refuted by the code): the `Update` branch of `SlaveRecv` makes no `MPI_Send`. For
every worker state, whatever its receives deliver, handling an update request leaves the
log of sent messages as it was and changes nothing but the worker's own `field_`: the rows
`borders_[0] .. borders_.back() - 1` are receive buffers there, not send buffers. -/
theorem Mpi.update_request_sends_no_row (w w1 : Mpi.Worker) (rows : Int → List Int)
    (h : w.SlaveRecv (.update rows) = some w1) :
    w1.gol.sent = w.gol.sent ∧
    w1 = { w with gol := { w.gol with field_ := w1.gol.field_ } } := by
  refine ⟨(Mpi.SlaveRecv_keeps_sent_of_update w w1 rows h).1, ?_⟩
  simp only [Mpi.Worker.SlaveRecv, Option.bind_eq_bind, Option.bind_eq_some, Option.pure_def,
    Option.some.injEq] at h
  obtain ⟨lo, _, hi, _, field, _, rfl⟩ := h
  rfl

/-- Instance of `Mpi.update_request_sends_no_row`: rank 0 of four processes, stopped and
stale, sends the three `Update` signals and then posts its row receives; worker 1, owning
local row 1, answers the signal with a receive of its own, which would overwrite its row
with whatever arrived, and sends nothing. -/
theorem Mpi.update_request_sends_no_row_witness :
    (∃ s1, Mpi.GameOfLife.Update { Mpi.coordinator with up_to_date_ := false }
        { Mpi.reports with updateRow := fun _ _ => [0, 0, 0] } = some (true, s1) ∧
      s1.sent = [{ dest := 1, tag := .Update, payload := .byte 1 },
                 { dest := 2, tag := .Update, payload := .byte 1 },
                 { dest := 3, tag := .Update, payload := .byte 1 }]) ∧
    ∃ w1, Mpi.reachedTarget.SlaveRecv (.update fun _ => [0, 0, 0]) = some w1 ∧
      w1.gol.field_ = [[0, 1, 0], [0, 0, 0], [0, 1, 0]] ∧
      w1.gol.sent = Mpi.reachedTarget.gol.sent :=
  ⟨⟨_, rfl, by decide⟩, _, rfl, by decide,
    (Mpi.update_request_sends_no_row Mpi.reachedTarget _ (fun _ => [0, 0, 0]) rfl).1⟩

/-- C17 (refuted by the code): for every grid of `H >= 1` rows and every communicator of
`ws >= 2` processes, `BroadcastField` on rank 0 succeeds with the table `borders_` of
`ws + 1` borders, splitting the rows into `ws` ranges, and hands the ranges `1 .. ws - 1` to
the workers: every worker's range starts after row 0, so row 0 (and each row of range 0) is
owned by no worker. The partners form a ring over the workers: the upper partner of worker 1
is the last worker `ws - 1` and the lower partner of the last worker is worker 1, although
the row above worker 1's first row lies before the last worker's range and the row after
the last worker's range, row `H mod H = 0`, lies before the range of worker 1. -/
theorem Mpi.BroadcastField_leaves_rows_unowned (s : Mpi.GameOfLife) (inbox : Mpi.Inbox)
    (H W ws : Nat) (hH : 1 ≤ H) (hws : 2 ≤ ws) (hrank : s.world_rank_ = 0)
    (hsize : s.world_size_ = ws) (hb : s.borders_ = []) (hp : s.process_ = [])
    (hg : Rect s.field_ H W) :
    ∃ s1, s.BroadcastField inbox = some s1 ∧
      s1.borders_ = (List.range (ws + 1)).map (fun k => (boundary H ws k : Int)) ∧
      s1.process_ = (List.range' 1 (ws - 1)).map (fun (i : Nat) => (i : Int)) ∧
      (∀ i, 1 ≤ i → i < ws → ∃ lo hi, s1.borders_[i]? = some lo ∧
        s1.borders_[i + 1]? = some hi ∧ 0 < lo ∧ lo ≤ hi ∧ hi ≤ (H : Int)) ∧
      CyclicVector.get s1.process_ ((1 : Int) - 2) = some ((ws - 1 : Nat) : Int) ∧
      CyclicVector.get s1.process_ ((ws - 1 : Nat) : Int) = some 1 ∧
      (∃ first last, s1.borders_[1]? = some first ∧ s1.borders_[ws - 1]? = some last ∧
        0 ≤ first - 1 ∧ first - 1 < last) := by
  obtain ⟨snt, h⟩ := Mpi.BroadcastField_eq s inbox H W ws hH (by omega) hrank hsize hb hg
  have hone := boundary_one_pos H ws hH
  refine ⟨_, h, rfl, ?_, ?_, ?_, ?_, ?_⟩
  · show s.process_ ++ _ = _
    rw [hp, List.nil_append]
  · intro i hi1 hi2
    refine ⟨_, _, borders_getElem? H ws i (by omega), borders_getElem? H ws (i + 1) (by omega),
      ?_, ?_, ?_⟩
    · have := boundary_mono H ws hi1
      exact_mod_cast (by omega : 0 < boundary H ws i)
    · exact_mod_cast boundary_mono H ws (Nat.le_succ i)
    · exact_mod_cast boundary_le H ws (i + 1) (by omega) (by omega)
  · show CyclicVector.get (s.process_ ++ _) _ = _
    rw [hp, List.nil_append]
    exact (Mpi.ring_partners (ws - 1) (by omega)).1
  · show CyclicVector.get (s.process_ ++ _) _ = _
    rw [hp, List.nil_append]
    exact (Mpi.ring_partners (ws - 1) (by omega)).2
  · refine ⟨_, _, borders_getElem? H ws 1 (by omega), borders_getElem? H ws (ws - 1) (by omega),
      ?_, ?_⟩
    · have : (1 : Int) ≤ (boundary H ws 1 : Int) := by exact_mod_cast hone
      omega
    · have hm := boundary_mono H ws (show 1 ≤ ws - 1 by omega)
      have : (boundary H ws 1 : Int) ≤ (boundary H ws (ws - 1) : Int) := by exact_mod_cast hm
      omega

/-- Instance of `Mpi.BroadcastField_leaves_rows_unowned`: the 10 x 10 field on four
processes. The borders are 0, 3, 6, 8, 10; workers 1, 2, 3 own the rows 3..5, 6..7, 8..9
and rows 0..2 belong to no worker. -/
theorem Mpi.BroadcastField_leaves_rows_unowned_witness :
    ∃ s1, Mpi.GameOfLife.BroadcastField
        { Mpi.GameOfLife.mk_ "b3/s23".toList 4 0 with field_ := tenByTen } Mpi.reports
        = some s1 ∧
      s1.borders_ = [0, 3, 6, 8, 10] ∧ s1.process_ = [1, 2, 3] ∧
      CyclicVector.get s1.process_ ((1 : Int) - 2) = some 3 := by
  obtain ⟨s1, h1, h2, h3, -, h5, -, -⟩ := Mpi.BroadcastField_leaves_rows_unowned
    { Mpi.GameOfLife.mk_ "b3/s23".toList 4 0 with field_ := tenByTen } Mpi.reports
    10 10 4 (by decide) (by decide) rfl rfl rfl rfl ⟨by decide, by decide⟩
  refine ⟨s1, h1, ?_, ?_, h5⟩
  · rw [h2]; decide
  · rw [h3]; decide

/-- C18 (refuted by the code): a cell loaded from the digit 3 is alive for its own
transition but adds 3, not 1, to `num_alive` of each of its neighbours. A 4 x 4 file
whose only nonzero cell is a 3 gives, after one generation under `b3/s23`, a ring of eight
newborn cells around it (each saw the sum 3), whereas the same file with the 3 replaced by
1 gives the empty grid. -/
theorem Pthread.nonzero_digit_counts_by_value :
    (∃ s1 s2, Pthread.GameOfLife.StartFile (Pthread.GameOfLife.mk_ 1 "b3/s23".toList)
        "0,0,0,0\n0,3,0,0\n0,0,0,0\n0,0,0,0\n".toList = some (true, s1) ∧
      s1.field_ = [[0, 0, 0, 0], [0, 3, 0, 0], [0, 0, 0, 0], [0, 0, 0, 0]] ∧
      numAlive s1.field_ 0 0 = some 3 ∧
      s1.generation = some s2 ∧
      s2.field_ = [[1, 1, 1, 0], [1, 0, 1, 0], [1, 1, 1, 0], [0, 0, 0, 0]]) ∧
    (∃ s1 s2, Pthread.GameOfLife.StartFile (Pthread.GameOfLife.mk_ 1 "b3/s23".toList)
        "0,0,0,0\n0,1,0,0\n0,0,0,0\n0,0,0,0\n".toList = some (true, s1) ∧
      s1.field_ = [[0, 0, 0, 0], [0, 1, 0, 0], [0, 0, 0, 0], [0, 0, 0, 0]] ∧
      numAlive s1.field_ 0 0 = some 1 ∧
      s1.generation = some s2 ∧
      s2.field_ = [[0, 0, 0, 0], [0, 0, 0, 0], [0, 0, 0, 0], [0, 0, 0, 0]]) := by
  refine ⟨⟨_, _, rfl, ?_, ?_, rfl, ?_⟩, ⟨_, _, rfl, ?_, ?_, rfl, ?_⟩⟩ <;> decide

/-- C19 (refuted by the code): `Run(0)` on a stopped game whose count has reached its
target is accepted and sets `running_`; in the round that follows no worker computes
(`calculate` is false), yet the coordinator swaps the grids and increments
`iterations_count_`, which then exceeds `desired_iterations_count_`, and `running_` is
cleared with the two counters different.  The target is the `size_t` value it was:
`Run(0)` leaves it as `target mod 2 ^ 64`, never above the old target. -/
theorem Pthread.Run_zero_commits_without_generation (s : Pthread.GameOfLife)
    (hf : s.field_ ≠ []) (hr : s.running_ = false) (hq : s.quitting_ = false)
    (hc : s.desired_iterations_count_ ≤ s.iterations_count_) :
    (s.Run 0).1 = true ∧ (s.Run 0).2.running_ = true ∧ (s.Run 0).2.calculate = false ∧
    (s.Run 0).2.round = some
      { s with field_ := s.new_field_, new_field_ := s.field_,
               iterations_count_ := s.iterations_count_ + 1,
               desired_iterations_count_ := s.desired_iterations_count_ % 2 ^ 64,
               running_ := false } ∧
    s.desired_iterations_count_ % 2 ^ 64 ≤ s.desired_iterations_count_ ∧
    s.desired_iterations_count_ < s.iterations_count_ + 1 := by
  have hmod : s.desired_iterations_count_ % 2 ^ 64 ≤ s.desired_iterations_count_ :=
    Nat.mod_le _ _
  have hrun : s.Run 0 = (true, { s with
      desired_iterations_count_ := s.desired_iterations_count_ % 2 ^ 64,
      running_ := true }) := by
    unfold Pthread.GameOfLife.Run
    rw [if_neg hf, hr]
    rfl
  rw [hrun]
  have hcalc : Pthread.GameOfLife.calculate { s with
      desired_iterations_count_ := s.desired_iterations_count_ % 2 ^ 64,
      running_ := true } = false := by
    simp only [Pthread.GameOfLife.calculate, Bool.true_and, decide_eq_false_iff_not]
    omega
  refine ⟨rfl, rfl, hcalc, ?_, hmod, by omega⟩
  unfold Pthread.GameOfLife.round
  have hgo : (Pthread.GameOfLife.quitting_ { s with
        desired_iterations_count_ := s.desired_iterations_count_ % 2 ^ 64,
        running_ := true } ||
      !Pthread.GameOfLife.running_ { s with
        desired_iterations_count_ := s.desired_iterations_count_ % 2 ^ 64,
        running_ := true }) = false := by
    show (s.quitting_ || !true) = false
    rw [hq]
    rfl
  rw [hgo, hcalc]
  simp only [Bool.false_eq_true, if_false, Pthread.GameOfLife.MasterSynchronize_commit]
  rw [if_pos (by
    show s.iterations_count_ + 1 ≥ s.desired_iterations_count_ % 2 ^ 64
    omega)]

/-- Instance of `Pthread.Run_zero_commits_without_generation`: the blinker on a 3 x 3
torus. `Run(1)` and its round compute generation 1 (all cells alive) with count 1 and
target 1; `Run(0)` and its round then swap back: the visible grid is the blinker again, the
count is 2 and the target still 1. -/
theorem Pthread.Run_zero_commits_without_generation_witness :
    ∃ s0 s1 s2, Pthread.started = some (true, s0) ∧
      (s0.Run 1).2.round = some s1 ∧
      s1.field_ = [[1, 1, 1], [1, 1, 1], [1, 1, 1]] ∧
      s1.iterations_count_ = 1 ∧ s1.desired_iterations_count_ = 1 ∧ s1.running_ = false ∧
      (s1.Run 0).2.round = some s2 ∧
      s2.field_ = [[0, 1, 0], [0, 1, 0], [0, 1, 0]] ∧
      s2.iterations_count_ = 2 ∧ s2.desired_iterations_count_ = 1 ∧ s2.running_ = false :=
  ⟨_, _, _, rfl, rfl, by decide, rfl, rfl, rfl,
    (Pthread.Run_zero_commits_without_generation _ (by decide) rfl rfl (by decide)).2.2.2.1,
    by decide, rfl, rfl, rfl⟩
